import Mathlib

/-!
Verification development for the `syntax-searcher` repository (jgke/syntax-searcher).

The Rust sources under `src/` are shallowly embedded below, module by module:

* `psi.rs`      — spans and the peekable string iterator,
* `tokenizer.rs`— the lexer for source files and query strings,
* `parser.rs`   — the structural parser (token stream to AST),
* `query.rs`    — the AST matcher (`Query::ast_match`, `Query::matches`),
* `compiler.rs` — the NFA compiler (`compile_query`, `optimize`, `normalize`).

Machine integers: the Rust code uses `usize` for state identifiers and positions
and `i128` for integer literals.  State ids and positions are modelled as `Nat`
(the code never subtracts or overflows them: ids come from a monotone counter,
positions only grow); `i128` parsing is modelled on `Int` with the explicit
`i128` upper bound where the source's `from_str_radix` can overflow.

Rust's `Regex` values are compared by their source pattern (`wrappers.rs`,
`RegexEq`), so a compiled regex is embedded as its pattern `String`; the regex
engine itself is out of scope and every definition that calls `Regex::is_match`
is parameterised by an abstract match function `rmatch : String → String → Bool`
(pattern, then subject).  `f64` literals (`wrappers.rs`, `Float`, compared by
bit pattern) are embedded as exact decimals in canonical form (`Dec`):
`f64::from_str` never fails on range (huge values round to infinity), so
which string of `read_number`'s fallback chain parses is a purely syntactic
question and is modelled exactly; only IEEE round-to-nearest of the
resulting value is idealised away.

`HashMap`/`HashSet` iteration order is not observable in any of the modelled
results (argued at each use site); maps keyed by state id are embedded as
association lists kept in ascending key order, matching the source's own
`.keys().sorted()` traversal.
-/

namespace Syns

/-- Byte-indexed span, `psi.rs` `Span`. -/
structure Span where
  lo : Nat
  hi : Nat
deriving DecidableEq, Repr

/-- `Span::merge`. -/
def Span.merge (a b : Span) : Span :=
  ⟨Nat.min a.lo b.lo, Nat.max a.hi b.hi⟩

/-- Exact decimal numbers in canonical form: the value is `mant * 10 ^ expo`,
and `mant` is not divisible by 10 unless it is 0 (then `expo = 0`), so
structural equality coincides with numeric equality of the decimals.  This
is the codomain of the modelled `f64` parse. -/
structure Dec where
  mant : Nat
  expo : Int
deriving DecidableEq, Repr

/-- Strip factors of ten (`fuel` bounds the loop). -/
def stripTens : Nat → Nat → Nat × Nat
  | 0, m => (m, 0)
  | fuel + 1, m =>
    if m ≠ 0 ∧ m % 10 = 0 then
      let r := stripTens fuel (m / 10)
      (r.1, r.2 + 1)
    else (m, 0)

/-- The canonical decimal with value `m * 10 ^ e`. -/
def Dec.make (m : Nat) (e : Int) : Dec :=
  if m = 0 then ⟨0, 0⟩
  else
    let r := stripTens m m
    ⟨r.1, e + (r.2 : Int)⟩

/-- `tokenizer.rs` `StandardTokenType`.  `Float` carries the parsed value as
an exact canonical decimal (the Rust `Float` wrapper compares `f64` by bit
pattern; IEEE rounding of the decimal value is not modelled).  `Regex`
carries the literal's content string. -/
inductive StandardTokenType where
  | identifier (s : String)
  | integer (n : Int)
  | float (q : Dec)
  | stringLiteral (s : String)
  | symbol (s : String)
  | regex (s : String)
deriving DecidableEq, Repr

/-- `tokenizer.rs` `StandardToken`. -/
structure StandardToken where
  ty : StandardTokenType
  span : Span
deriving DecidableEq, Repr

/-- `parser.rs` `Ast`: a source-code AST node. -/
inductive Ast where
  | token (token : StandardToken)
  | delimited (op : StandardToken) (cp : Option StandardToken) (content : List Ast)
deriving Repr

mutual

def astDecEq : (a b : Ast) → Decidable (a = b)
  | .token t1, .token t2 =>
    match decEq t1 t2 with
    | isTrue h => isTrue (by rw [h])
    | isFalse h => isFalse (by intro hc; cases hc; exact h rfl)
  | .delimited o1 c1 l1, .delimited o2 c2 l2 =>
    match decEq o1 o2, decEq c1 c2, astListDecEq l1 l2 with
    | isTrue h1, isTrue h2, isTrue h3 => isTrue (by rw [h1, h2, h3])
    | isFalse h1, _, _ => isFalse (by intro hc; cases hc; exact h1 rfl)
    | _, isFalse h2, _ => isFalse (by intro hc; cases hc; exact h2 rfl)
    | _, _, isFalse h3 => isFalse (by intro hc; cases hc; exact h3 rfl)
  | .token _, .delimited _ _ _ => isFalse (by intro hc; cases hc)
  | .delimited _ _ _, .token _ => isFalse (by intro hc; cases hc)

def astListDecEq : (a b : List Ast) → Decidable (a = b)
  | [], [] => isTrue rfl
  | [], _ :: _ => isFalse (by intro hc; cases hc)
  | _ :: _, [] => isFalse (by intro hc; cases hc)
  | x :: xs, y :: ys =>
    match astDecEq x y, astListDecEq xs ys with
    | isTrue h1, isTrue h2 => isTrue (by rw [h1, h2])
    | isFalse h1, _ => isFalse (by intro hc; cases hc; exact h1 rfl)
    | _, isFalse h2 => isFalse (by intro hc; cases hc; exact h2 rfl)

end

instance : DecidableEq Ast := astDecEq

/-- Modelled from the spec: `query.rs` imports `MatcherAst` from `parser.rs`,
but the snapshot's `parser.rs` only defines the newer `ParsedAstMatcher`; the
defining declaration of `MatcherAst` is missing from `src/`.  Its variants are
reconstructed from the exhaustive `match` in `Query::ast_match` (query.rs lines
46-105), which handles exactly `Any`, `Regex`, `Token`, `Delimited { content, .. }`,
`Plus { matches }` and `Star { matches }`; this agrees with the spec's matcher
list restricted to the operators that old matcher supported.  `Delimited`'s
`op`/`cp` fields exist but are ignored by `ast_match` (the `..` pattern). -/
inductive MatcherAst where
  | token (token : StandardToken)
  | delimited (op : StandardToken) (cp : Option StandardToken) (content : List MatcherAst)
  | any
  | regex (pattern : String)
  | plus (m : MatcherAst)
  | star (m : MatcherAst)
deriving Repr

namespace Query

/-- Insert a pair into the model of the `HashSet<(usize, usize)>` frontier
(`query.rs`, `states` / `next_states`): membership-tested append. -/
def insertPair (l : List (Nat × Nat)) (p : Nat × Nat) : List (Nat × Nat) :=
  if p ∈ l then l else l ++ [p]

def insertPairs (l : List (Nat × Nat)) : List (Nat × Nat) → List (Nat × Nat)
  | [] => l
  | p :: ps => insertPairs (insertPair l p) ps

/-- The recording condition of `query.rs` lines 36-43: a state past the end of
the matcher list records `left[0..left_pos.min(left.len())]` when `left_pos > 0`
and it beats the best length so far. -/
def recordBetter (best : Option Nat) (p : Nat) : Bool :=
  0 < p && (match best with | none => true | some b => b < p)

variable (rmatch : String → String → Bool)

/-!
`Query::ast_match` (query.rs lines 28-110).  The Rust function runs a frontier
of `(left_pos, state)` pairs round by round; the frontier is a `HashSet`, whose
iteration order is unobservable in the result: recording keeps only the maximum
length over the whole run, next-round frontiers are sets, and the early
`return None` of the `(_, Regex)` arm (line 61) forces the overall result to
`None` whenever any pair of the current round hits it, in any order.  The
embedding therefore processes each round as a duplicate-free list and returns
`none` for the whole call when a round contains a `return None` pair.

The round loop terminates because every inserted pair strictly increases
`left_pos + state`, which is bounded by `left.len() + right.len()`; the
embedding gives the loop `left.length + right.length + 2` rounds of fuel, which
by that argument is never exhausted.
-/

mutual

/-- Structural nesting depth of a matcher: how deeply `Delimited` contents and
`Plus`/`Star` operands are nested.  Bounds the recursion depth of `ast_match`. -/
def matcherDepth : MatcherAst → Nat
  | .token _ => 1
  | .any => 1
  | .regex _ => 1
  | .delimited _ _ c => 1 + matcherListDepth c
  | .plus m => 1 + matcherDepth m
  | .star m => 1 + matcherDepth m

def matcherListDepth : List MatcherAst → Nat
  | [] => 0
  | m :: rest => Nat.max (matcherDepth m) (matcherListDepth rest)

end

/-- Outcome of processing one round of the frontier: the next frontier plus the
best recorded length, or `none` for the source's early `return None`. -/
abbrev RoundRes := Option (List (Nat × Nat) × Option Nat)

/-- The `while let Some(t) = left.get(left_pos)` loop of the `Plus` arm of
`ast_match`; `am` is the recursive occurrence of `ast_match` used for the
single-element inner matches.  The fuel counts down from `left.length + 1`,
which the loop (advancing `left_pos` every iteration) never exhausts. -/
def plusLoop (am : List Ast → List MatcherAst → Option (List Ast))
    (left : List Ast) (inner : MatcherAst) : Nat → Nat → Nat → List (Nat × Nat)
  | 0, _, _ => []
  | fuel + 1, lp, s =>
    match left.get? lp with
    | none => []
    | some t =>
      if (am [t] [inner]).isSome then
        (lp + 1, s) :: (lp + 1, s + 1) :: plusLoop am left inner fuel (lp + 1) s
      else
        []

/-- The `while let Some(t) = left.get(left_pos)` loop of the `Star` arm; note
that when the first element already matches `inner`, the pair `(left_pos,
state+1)` for zero repetitions is never produced. -/
def starLoop (am : List Ast → List MatcherAst → Option (List Ast))
    (left : List Ast) (inner : MatcherAst) : Nat → Nat → Nat → List (Nat × Nat)
  | 0, lp, s => [(lp, s + 1)]
  | fuel + 1, lp, s =>
    match left.get? lp with
    | none => [(lp, s + 1)]
    | some t =>
      if (am [t] [inner]).isSome then
        (lp + 1, s) :: (lp + 1, s + 1) :: starLoop am left inner fuel (lp + 1) s
      else
        [(lp, s + 1)]

/-- One round of the frontier: the `for (mut left_pos, state) in states` body
of `ast_match`. -/
def processRound (am : List Ast → List MatcherAst → Option (List Ast))
    (left : List Ast) (right : List MatcherAst) :
    List (Nat × Nat) → List (Nat × Nat) → Option Nat → RoundRes
  | [], acc, best => some (acc, best)
  | (p, s) :: rest, acc, best =>
    match right.get? s with
    | some .any =>
      match left.get? p with
      | none => processRound am left right rest acc best
      | some _ => processRound am left right rest (insertPair acc (p + 1, s + 1)) best
    | some (.regex re) =>
      match left.get? p with
      | some (.token t1) =>
        match t1.ty with
        | .stringLiteral c =>
          if rmatch re c then
            processRound am left right rest (insertPair acc (p + 1, s + 1)) best
          else
            processRound am left right rest acc best
        | _ => processRound am left right rest acc best
      | _ => none
    | some (.token t2) =>
      match left.get? p with
      | some (.token t1) =>
        if t1.ty = t2.ty then
          processRound am left right rest (insertPair acc (p + 1, s + 1)) best
        else
          processRound am left right rest acc best
      | _ => processRound am left right rest acc best
    | some (.delimited _ _ content2) =>
      match left.get? p with
      | some (.delimited _ _ content1) =>
        if (am content1 content2).isSome then
          processRound am left right rest (insertPair acc (p + 1, s + 1)) best
        else
          processRound am left right rest acc best
      | _ => processRound am left right rest acc best
    | some (.plus inner) =>
      match left.get? p with
      | none => processRound am left right rest acc best
      | some _ =>
        processRound am left right rest
          (insertPairs acc (plusLoop am left inner (left.length + 1) p s)) best
    | some (.star inner) =>
      processRound am left right rest
        (insertPairs acc (starLoop am left inner (left.length + 1) p s)) best
    | none =>
      if recordBetter best p then
        processRound am left right rest acc (some (Nat.min p left.length))
      else
        processRound am left right rest acc best

/-- The `while !states.is_empty()` loop of `ast_match`.  The round fuel
`left.length + right.length + 2` is never exhausted: every pair inserted into a
next frontier strictly increases `left_pos + state`, which is bounded by
`left.length + right.length`. -/
def loop (am : List Ast → List MatcherAst → Option (List Ast))
    (left : List Ast) (right : List MatcherAst) :
    Nat → List (Nat × Nat) → Option Nat → Option (List Ast)
  | _, [], best => best.map fun n => left.take (Nat.min n left.length)
  | 0, _ :: _, best => best.map fun n => left.take (Nat.min n left.length)
  | fuel + 1, st :: sts, best =>
    match processRound rmatch am left right (st :: sts) [] best with
    | none => none
    | some (next, best') => loop am left right fuel next best'

/-- `Query::ast_match` at a given nesting-depth fuel: recursive occurrences
(`Delimited` contents, `Plus`/`Star` single-element checks) run at `fuel`.
Each such occurrence uses a matcher list of strictly smaller `sizeOf`, so fuel
`sizeOf right` is never exhausted (see `astMatch`). -/
def astMatchF : Nat → List Ast → List MatcherAst → Option (List Ast)
  | 0, _, _ => none
  | fuel + 1, left, right =>
    loop rmatch (astMatchF fuel) left right (left.length + right.length + 2) [(0, 0)] none

/-- `Query::ast_match` (query.rs lines 28-110): returns the recorded longest
slice `left[0..n]`, or `none` when `Accept` was never recorded or the `(_,
Regex)` arm aborted the simulation.  The nesting-depth fuel
`matcherListDepth right + 1` is never exhausted: every recursive occurrence
uses a matcher list of strictly smaller depth. -/
def astMatch (left : List Ast) (right : List MatcherAst) : Option (List Ast) :=
  astMatchF rmatch (matcherListDepth right + 1) left right

mutual

/-- Structural nesting depth of an AST node, bounding the recursion depth of
`potential_matches`. -/
def astDepth : Ast → Nat
  | .token _ => 1
  | .delimited _ _ c => 1 + astListDepth c

def astListDepth : List Ast → Nat
  | [] => 0
  | a :: rest => Nat.max (astDepth a) (astListDepth rest)

end

/-- The `filter_map`/`flat_map` part of `potential_matches`; `pm` is the
recursive occurrence applied to each `Delimited` child's content. -/
def pmChildren (pm : List Ast → List (List Ast)) : List Ast → List (List Ast)
  | [] => []
  | .token _ :: rest => pmChildren pm rest
  | .delimited _ _ content :: rest => pm content ++ pmChildren pm rest

/-- `Query::potential_matches` at a given nesting-depth fuel. -/
def pmF : Nat → List Ast → List (List Ast)
  | 0, _ => []
  | fuel + 1, input =>
    (List.range input.length).map (fun start => input.drop start) ++
      pmChildren (pmF fuel) input

/-- `Query::potential_matches` (query.rs lines 112-127): every suffix of the
node list, then recursively the potential matches of each `Delimited` child's
content, in order.  The depth fuel is never exhausted, since the recursion
descends into strictly shallower content lists. -/
def potentialMatches (input : List Ast) : List (List Ast) :=
  pmF (astListDepth input + 1) input

/-- `Query::matches` (query.rs lines 129-133): the match slices at every
potential start position, in iteration order. -/
def qmatches (rmatch : String → String → Bool) (matcherAst : List MatcherAst)
    (input : List Ast) : List (List Ast) :=
  (potentialMatches input).filterMap fun tts => astMatch rmatch tts matcherAst

mutual

/-- Modelled from the spec: the acceptance relation of the specification's
matcher semantics (spec section 4.G's transition table together with the
quantifier constructions of section 4.F), specialised to the matcher forms of
`MatcherAst`.  `SpecOne m xs` holds when the single matcher `m` accepts exactly
the node list `xs`: `Token` and `Any` consume one node, `Regex` consumes one
string-literal node matching the pattern, `Delimited` requires the opening
token types to agree (spec: "if `input[pos]` is a Delimited with `op.ty ==
op`") and some prefix of the content to be accepted ("if any accepting length
exists"), `Plus` is one or more repetitions and `Star` zero or more. -/
inductive SpecOne (rmatch : String → String → Bool) : MatcherAst → List Ast → Prop where
  | token {t1 t2 : StandardToken} : t1.ty = t2.ty →
      SpecOne rmatch (.token t2) [.token t1]
  | any {node : Ast} : SpecOne rmatch .any [node]
  | regex {re c : String} {spn : Span} : rmatch re c = true →
      SpecOne rmatch (.regex re) [.token ⟨.stringLiteral c, spn⟩]
  | delim {op1 op2 : StandardToken} {cp1 cp2} {c1 : List Ast}
      {c2 : List MatcherAst} {n : Nat} : op1.ty = op2.ty →
      SpecSeq rmatch c2 (c1.take n) →
      SpecOne rmatch (.delimited op2 cp2 c2) [.delimited op1 cp1 c1]
  | plusOne {m xs} : SpecOne rmatch m xs → SpecOne rmatch (.plus m) xs
  | plusMore {m xs ys} : SpecOne rmatch m xs → SpecOne rmatch (.plus m) ys →
      SpecOne rmatch (.plus m) (xs ++ ys)
  | starNil {m} : SpecOne rmatch (.star m) []
  | starCons {m xs ys} : SpecOne rmatch m xs → SpecOne rmatch (.star m) ys →
      SpecOne rmatch (.star m) (xs ++ ys)

/-- Modelled from the spec: a matcher list accepts the concatenation of node
lists accepted by its members ("reaching Accept" after consuming the whole
list).  `SpecSeq rmatch q (xs.take n)` is the spec's "prefix of length `n` of
`xs` reaching Accept". -/
inductive SpecSeq (rmatch : String → String → Bool) : List MatcherAst → List Ast → Prop where
  | nil : SpecSeq rmatch [] []
  | cons {m ms xs ys} : SpecOne rmatch m xs → SpecSeq rmatch ms ys →
      SpecSeq rmatch (m :: ms) (xs ++ ys)

end

end Query

/-!
The lexer: `psi.rs`'s `PeekableStringIterator` and `tokenizer.rs`.

The iterator is embedded as the remaining character list plus the byte position
of the next character and the current span; the line-number table of `psi.rs`
only feeds the match printer (`get_line_information`) and is not modelled.
Byte positions advance by each character's UTF-8 size, as `CharIndices` does.
-/

mutual

/-- `tokenizer.rs` `SpecialTokenType` (lines 11-27).  Note: the snapshot's enum
has no `QuestionMark` variant, although `parser.rs` pattern-matches one. -/
inductive SpecialTokenType : Type where
  | any
  | star
  | plus
  | endMark
  | or
  | regex (s : String)
  | nested (toks : List SpanToken)

/-- `tokenizer.rs` `QueryTokenType`. -/
inductive QueryTokenType : Type where
  | standard (t : StandardTokenType)
  | special (s : SpecialTokenType)

/-- `tokenizer.rs` `QueryToken` (named `SpanToken` internally because the
structure takes part in the nested inductive above). -/
inductive SpanToken : Type where
  | mk (ty : QueryTokenType) (span : Span)

end

def SpanToken.ty : SpanToken → QueryTokenType
  | .mk t _ => t

def SpanToken.span : SpanToken → Span
  | .mk _ sp => sp

/-- `TryFrom<QueryToken> for StandardToken` (tokenizer.rs lines 74-89). -/
def toStandard : SpanToken → Option StandardToken
  | .mk (.standard ty) sp => some ⟨ty, sp⟩
  | .mk (.special _) _ => none

/-- Is a query token a standard token? -/
def SpanToken.isStandard : SpanToken → Bool
  | .mk (.standard _) _ => true
  | .mk (.special _) _ => false

/-- The lexer-facing fields of `options.rs` `Options`.  The identifier regexes
are applied to single characters only (`is_match(&c.to_string())`), so they are
embedded as character predicates. -/
structure LexOptions where
  stringChars : List String
  singleComments : List String
  multiComments : List (String × String)
  blockOpeners : List String
  blockClosers : List String
  regexDelims : List String
  identStart : Char → Bool
  identCont : Char → Bool
  ranges : Bool
  typeParameterParsing : Bool

/-- `Options::is_open_paren`. -/
def LexOptions.isOpenParen (o : LexOptions) (c : String) : Bool :=
  o.blockOpeners.any (fun s => c = s)

/-- `Options::is_close_paren`. -/
def LexOptions.isCloseParen (o : LexOptions) (c : String) : Bool :=
  o.blockClosers.any (fun s => c = s)

/-- `psi.rs` `PeekableStringIterator`, reduced to the fields the lexer reads. -/
structure Iter where
  rest : List Char
  bytePos : Nat
  span : Span
deriving Repr

/-- Open an iterator over a source string (`PeekableStringIterator::new`). -/
def mkIter (s : String) : Iter :=
  ⟨s.toList, 0, ⟨0, 0⟩⟩

/-- `Iterator::next` for the cursor: record the consumed char's starting byte
in `span.hi` and advance by its UTF-8 size. -/
def Iter.next : Iter → Option (Char × Iter)
  | ⟨[], _, _⟩ => none
  | ⟨c :: r, b, sp⟩ => some (c, ⟨r, b + c.utf8Size, ⟨sp.lo, b⟩⟩)

/-- `Iter.next`, discarding the character. -/
def Iter.step (it : Iter) : Iter :=
  match it.next with
  | none => it
  | some (_, it') => it'

/-- `next_new_span`: consume one char and reset the span to it. -/
def Iter.nextNewSpan (it : Iter) : Option (Char × Iter) :=
  match it.next with
  | none => none
  | some (c, it') => some (c, { it' with span := ⟨it'.span.hi, it'.span.hi⟩ })

/-- `peek`. -/
def Iter.peek (it : Iter) : Option Char :=
  it.rest.head?

/-- `peek_n`. -/
def Iter.peekN (it : Iter) (n : Nat) : String :=
  String.mk (it.rest.take n)

/-- `starts_with`. -/
def Iter.startsWith (it : Iter) (s : String) : Bool :=
  s.toList.isPrefixOf it.rest

/-- Drop `n` characters (used for consuming a matched literal). -/
def Iter.drop : Iter → Nat → Iter
  | it, 0 => it
  | it, n + 1 => (it.step).drop n

/-- The `while let Some(c) = self.peek()` part of `collect_while_map`: the
predicate sees the iterator before the char is consumed. -/
def cwmGo (f : Char → Iter → Option Char) : Nat → Iter → String → String × Iter
  | 0, it, acc => (acc, it)
  | fuel + 1, it, acc =>
    match it.peek with
    | none => (acc, it)
    | some c =>
      match f c it with
      | some c' => cwmGo f fuel it.step (acc.push c')
      | none => (acc, it)

/-- `collect_while_map` (psi.rs lines 214-234): consume at least one char (span
reset to it); the predicate sees the iterator after that first consumption but
before each later one.  Returns the collected string and the final iterator
(whose `span` is the result span). -/
def collectWhileMap (f : Char → Iter → Option Char) (it : Iter) : String × Iter :=
  match it.nextNewSpan with
  | none => ("", it)
  | some (c, it1) =>
    let acc := match f c it1 with
      | some c' => String.mk [c']
      | none => ""
    cwmGo f it1.rest.length it1 acc

/-- `collect_while`. -/
def collectWhile (p : Char → Bool) (it : Iter) : String × Iter :=
  collectWhileMap (fun c _ => if p c then some c else none) it

/-- `can_parse_regex` (tokenizer.rs lines 131-151). -/
def canParseRegex (history : List SpanToken) : Bool :=
  match history.getLast? with
  | none => true
  | some (.mk (.special _) _) => true
  | some (.mk (.standard (.symbol s)) _) => s ≠ ")"
  | some (.mk (.standard _) _) => false

/-- `flush_single_line`. -/
def flushSingleLine (it : Iter) : Iter :=
  (collectWhile (fun c => c ≠ '\n') it).2

/-- The scan-to-end part of `flush_multi_line_comment`. -/
def fmGo (en : String) : Nat → Iter → Iter
  | 0, it => it
  | fuel + 1, it =>
    if it.startsWith en then it
    else match it.next with
      | none => it
      | some (_, it') => fmGo en fuel it'

/-- `flush_multi_line_comment` (tokenizer.rs lines 229-243): consume the start
marker, scan to the end marker, consume it (or as much as remains at EOF). -/
def flushMulti (it : Iter) (st en : String) : Iter :=
  let it1 := it.drop st.toList.length
  let it2 := fmGo en it1.rest.length it1
  it2.drop en.toList.length

/-- The loop of `read_string_content`. -/
def rscGo (strEnd : Char) : Nat → Iter → String → String × Iter
  | 0, it, acc => (acc, it)
  | fuel + 1, it, acc =>
    match it.next with
    | none => (acc, it)
    | some (c, it') =>
      if c = strEnd then (acc, it')
      else if c = '\\' then
        match it'.next with
        | none => rscGo strEnd fuel it' acc
        | some (c2, it'') => rscGo strEnd fuel it'' ((acc.push '\\').push c2)
      else rscGo strEnd fuel it' (acc.push c)

/-- `read_string_content` (tokenizer.rs lines 318-339): the consumed opening
char is the closing delimiter; a backslash keeps itself and the next char
verbatim; EOF terminates. -/
def readStringContent (it : Iter) : String × Iter :=
  match it.nextNewSpan with
  | none => ("", it)
  | some (strEnd, it1) => rscGo strEnd it1.rest.length it1 ""

/-- `read_string`. -/
def readString (it : Iter) : SpanToken × Iter :=
  let (content, it') := readStringContent it
  (.mk (.standard (.stringLiteral content)) it'.span, it')

/-- `read_regex`. -/
def readRegex (it : Iter) : SpanToken × Iter :=
  let (content, it') := readStringContent it
  (.mk (.standard (.regex content)) it'.span, it')

/-- `read_identifier` (tokenizer.rs lines 357-380): `collect_while` with a
first/continue predicate pair; a collected string equal to a configured opener
or closer is re-emitted as a `Symbol` (do/end-style parens). -/
def readIdentifier (opts : LexOptions) (it : Iter) : SpanToken × Iter :=
  match it.nextNewSpan with
  | none => (.mk (.standard (.identifier "")) it.span, it)
  | some (c, it1) =>
    let (content, it') :=
      if opts.identStart c then
        let (restStr, it2) :=
          cwmGo (fun c2 _ => if opts.identCont c2 then some c2 else none)
            it1.rest.length it1 ""
        (String.mk [c] ++ restStr, it2)
      else ("", it1)
    if opts.isOpenParen content || opts.isCloseParen content then
      (.mk (.standard (.symbol content)) it'.span, it')
    else
      (.mk (.standard (.identifier content)) it'.span, it')

/-- Numeric value of an ASCII digit as `from_str_radix` reads it. -/
def digitVal (c : Char) : Option Nat :=
  if '0' ≤ c ∧ c ≤ '9' then some (c.toNat - 48)
  else if 'a' ≤ c ∧ c ≤ 'f' then some (c.toNat - 87)
  else if 'A' ≤ c ∧ c ≤ 'F' then some (c.toNat - 55)
  else none

/-- `i128::MAX`. -/
def i128Max : Nat := 2 ^ 127 - 1

def fromStrRadixGo (radix : Nat) : List Char → Nat → Option Nat
  | [], acc => some acc
  | c :: rest, acc =>
    match digitVal c with
    | some d => if d < radix then fromStrRadixGo radix rest (acc * radix + d) else none
    | none => none

/-- `i128::from_str_radix` on the digit strings the lexer produces (no sign):
fails on an empty string, an invalid digit, or `i128` overflow. -/
def fromStrRadix (s : List Char) (radix : Nat) : Option Int :=
  if s.isEmpty then none
  else match fromStrRadixGo radix s 0 with
    | none => none
    | some v => if v ≤ i128Max then some (Int.ofNat v) else none

/-- The value of a digit string. -/
def digitsVal (s : List Char) : Nat :=
  s.foldl (fun a c => a * 10 + (c.toNat - 48)) 0

/-- `f64::from_str` on the character set the number lexer can produce (no
sign, so `inf`/`nan` and negative exponents are impossible): it accepts
`digits`, `digits.`, `digits.digits` and `.digits`, each optionally followed
by `e` and a non-empty digit exponent, and rejects everything else (hex
letters, a second dot, an empty or non-digit exponent, no mantissa digit).
The value is the exact decimal `mantissa * 10 ^ exponent` in canonical form:
`from_str` never fails on range, so acceptance is purely syntactic and the
fallback chain of `read_number` selects the same stage as the source; only
IEEE rounding of the value is not modelled. -/
def parseFloat (s : List Char) : Option Dec :=
  let mant := s.takeWhile (fun c => c ≠ 'e')
  let rest := s.dropWhile (fun c => c ≠ 'e')
  let ip := mant.takeWhile (fun c => c ≠ '.')
  let fp := (mant.dropWhile (fun c => c ≠ '.')).drop 1
  if !(ip.all Char.isDigit) then none
  else if !(fp.all Char.isDigit) then none
  else if ip.isEmpty && fp.isEmpty then none
  else
    match rest with
    | [] => some (Dec.make (digitsVal (ip ++ fp)) (-(fp.length : Int)))
    | _ :: ed =>
      if !ed.isEmpty && ed.all Char.isDigit then
        some (Dec.make (digitsVal (ip ++ fp))
          ((digitsVal ed : Int) - (fp.length : Int)))
      else none

/-- `read_number` (tokenizer.rs lines 245-316).  The integer branch tries the
stripped text in the radix, then its leading digit run, then 0; the float
branch tries the stripped text, then its leading digit-or-dot run, then its
leading digit run, then 0.0. -/
def readNumber (opts : LexOptions) (it : Iter) : SpanToken × Iter :=
  let radixStr := it.peekN 2
  let rp : Nat × Iter :=
    if radixStr = "0b" then (2, (it.step).step)
    else if radixStr = "0x" then (16, (it.step).step)
    else (10, it)
  let radix := rp.1
  let it0 := rp.2
  let collected := collectWhileMap
    (fun c it2 =>
      if ('0' ≤ c && c ≤ '9') || c = '_' then some c
      else if c = '.' && opts.ranges && !(it2.startsWith "..") then some c
      else if (('a' ≤ c && c ≤ 'f') || ('A' ≤ c && c ≤ 'F')) && radix = 16 then some c
      else if c = 'e' then some c
      else none)
    it0
  let contentStr := collected.1
  let it' := collected.2
  let content := contentStr.toList.filter (fun c => c ≠ '_')
  if !content.contains '.' && !content.contains 'e' then
    let num := (fromStrRadix content radix).orElse
      (fun _ => fromStrRadix (content.takeWhile Char.isDigit) radix)
    (.mk (.standard (.integer (num.getD 0))) it'.span, it')
  else
    let num := ((parseFloat content).orElse (fun _ =>
        parseFloat (content.takeWhile (fun c => c.isDigit || c = '.')))).orElse
      (fun _ => parseFloat (content.takeWhile Char.isDigit))
    (.mk (.standard (.float (num.getD ⟨0, 0⟩))) it'.span, it')

/-- `read_paren` (tokenizer.rs lines 382-390). -/
def readParen (it : Iter) : SpanToken × Iter :=
  match it.nextNewSpan with
  | none => (.mk (.standard (.symbol "")) it.span, it)
  | some (c, it') => (.mk (.standard (.symbol (String.mk [c]))) it'.span, it')

/-- `read_other` (tokenizer.rs lines 392-427): a single char becomes a Symbol;
when the previous emitted token is a Symbol and `had_whitespace` is clear, the
two merge into one Symbol with concatenated text and merged span.  Returns the
(possibly popped) output list and the token to push. -/
def readOther (res : List SpanToken) (hadWs : Bool) (it : Iter) :
    List SpanToken × SpanToken × Iter :=
  match it.nextNewSpan with
  | none => (res, .mk (.standard (.symbol "")) it.span, it)
  | some (c, it') =>
    if !hadWs then
      match res.getLast? with
      | some (.mk (.standard (.symbol oldC)) spn) =>
        (res.dropLast,
         .mk (.standard (.symbol (oldC ++ String.mk [c]))) (spn.merge it'.span), it')
      | _ => (res, .mk (.standard (.symbol (String.mk [c]))) it'.span, it')
    else
      (res, .mk (.standard (.symbol (String.mk [c]))) it'.span, it')

/-- `read_query_command` (tokenizer.rs lines 429-461), parameterised by the
nested tokenizer used for `\(`-groups.  `none` models the panics: the
`Unimplemented query command` panic for an unknown escape (there is no `?` arm:
`SpecialTokenType` has no `QuestionMark`), the `expect` on EOF after `\`, and
the assert that a nested group is closed by `)`. -/
def readQueryCommand (nestedTk : Iter → Option (List SpanToken × Iter))
    (it : Iter) : Option (SpanToken × Iter) :=
  match it.peek with
  | none => none
  | some '.' => some (.mk (.special .any) (it.step).span, it.step)
  | some '*' => some (.mk (.special .star) (it.step).span, it.step)
  | some '+' => some (.mk (.special .plus) (it.step).span, it.step)
  | some '|' => some (.mk (.special .or) (it.step).span, it.step)
  | some '$' => some (.mk (.special .endMark) (it.step).span, it.step)
  | some '"' =>
    let (content, it') := readStringContent it
    some (.mk (.special (.regex content)) it'.span, it')
  | some '(' =>
    match nestedTk it.step with
    | none => none
    | some (toks, it') =>
      match it'.next with
      | some (')', it'') => some (.mk (.special (.nested toks)) it''.span, it'')
      | _ => none
  | some _ => none

/-- `tokenize_recur` (tokenizer.rs lines 154-223) with loop fuel; every
iteration consumes at least one character, so fuel exceeding the remaining
character count (as every entry point supplies) is never exhausted.  `none`
models the panics reachable in query mode (see `readQueryCommand`). -/
def tokenizeF (opts : LexOptions) :
    Nat → Bool → Bool → Iter → List SpanToken → Bool →
    Option (List SpanToken × Iter)
  | 0, _, _, _, _, _ => none
  | fuel + 1, recur, isQuery, it, res, hadWs =>
    match it.peek with
    | none => some (res, it)
    | some c =>
      if opts.singleComments.any (fun s => it.startsWith s) then
        tokenizeF opts fuel recur isQuery (flushSingleLine it) res true
      else
        match opts.multiComments.find? (fun p => it.startsWith p.1) with
        | some (st, en) =>
          tokenizeF opts fuel recur isQuery (flushMulti it st en) res true
        | none =>
          if opts.stringChars.any (fun s => it.startsWith s) then
            let (tok, it') := readString it
            tokenizeF opts fuel recur isQuery it' (res ++ [tok]) false
          else if c = '\\' && isQuery then
            match it.nextNewSpan with
            | none => none
            | some (_, it1) =>
              if recur && it1.peek = some ')' then some (res, it1)
              else
                match readQueryCommand
                    (fun it2 => tokenizeF opts fuel true true it2 [] false) it1 with
                | none => none
                | some (tok, it') =>
                  tokenizeF opts fuel recur isQuery it' (res ++ [tok]) false
          else if canParseRegex res && opts.regexDelims.any (fun s => it.startsWith s) then
            let (tok, it') := readRegex it
            tokenizeF opts fuel recur isQuery it' (res ++ [tok]) false
          else if c = ' ' || c = '\t' || c = '\n' then
            tokenizeF opts fuel recur isQuery it.step res true
          else if opts.identStart c then
            let (tok, it') := readIdentifier opts it
            tokenizeF opts fuel recur isQuery it' (res ++ [tok]) false
          else if '0' ≤ c && c ≤ '9' then
            let (tok, it') := readNumber opts it
            tokenizeF opts fuel recur isQuery it' (res ++ [tok]) false
          else if opts.isOpenParen (String.mk [c]) || opts.isCloseParen (String.mk [c]) then
            let (tok, it') := readParen it
            tokenizeF opts fuel recur isQuery it' (res ++ [tok]) true
          else
            let (res', tok, it') := readOther res hadWs it
            tokenizeF opts fuel recur isQuery it' (res' ++ [tok]) false

/-- `tokenize_recur` from a fresh entry (fuel = remaining characters + 1). -/
def tokenizeRecur (opts : LexOptions) (recur isQuery : Bool) (it : Iter) :
    Option (List SpanToken × Iter) :=
  tokenizeF opts (it.rest.length + 1) recur isQuery it [] false

/-- `tokenize` (tokenizer.rs lines 91-108): lex a source file and convert every
token to a `StandardToken`; the conversion's `expect("Unreachable")` is `none`
here. -/
def tokenize (opts : LexOptions) (s : String) : Option (List StandardToken × Iter) :=
  match tokenizeRecur opts false false (mkIter s) with
  | none => none
  | some (toks, it) =>
    match toks.mapM toStandard with
    | none => none
    | some sts => some (sts, it)

/-- `tokenize_query` (tokenizer.rs lines 111-123). -/
def tokenizeQuery (opts : LexOptions) (s : String) : Option (List SpanToken × Iter) :=
  tokenizeRecur opts false true (mkIter s)

/-- `js`-flavoured lexer settings, as the repository's own tests construct with
`Options::new("js", ...)`: the identifier character classes stand in for the
`ID_Start`/`ID_Continue` regexes of `options.rs` (ASCII fragment). -/
def jsOpts : LexOptions where
  stringChars := ["\"", "'", "`"]
  singleComments := ["//"]
  multiComments := [("/*", "*/")]
  blockOpeners := ["(", "[", "\x7b"]
  blockClosers := [")", "]", "\x7d"]
  regexDelims := ["/"]
  identStart := fun c => c.isAlpha || c = '_'
  identCont := fun c => c.isAlphanum || c = '_'
  ranges := true
  typeParameterParsing := true

/-!
The structural parser, `parser.rs`.  The `MultiPeekPutBackN` iterator is
embedded as the remaining token list: `peek` looks at the head (multi-peek is
only used inside `peek_is_type_params`, which scans the list without
consuming), `put_back` conses.
-/

/-- `parser.rs` `last_is_identifier`: an empty result list counts as
identifier-ended. -/
def lastIsIdentifier (res : List Ast) : Bool :=
  res.isEmpty ||
    (match res.getLast? with
     | some (.token t) =>
       match t.ty with
       | .identifier _ => true
       | _ => false
     | _ => false)

/-- `parser.rs` `is_open_type_param` / `is_close_type_param`. -/
def isOpenTypeParam (c : String) (insideTypeParam : Bool) : Bool :=
  c = "<" && insideTypeParam

def isCloseTypeParam (c : String) (insideTypeParam : Bool) : Bool :=
  c = ">" && insideTypeParam

/-- The per-symbol character scan inside `peek_is_type_params`: either the new
depth after the symbol, or the scan's verdict. -/
def pitpChars (opts : LexOptions) : List Char → Nat → Sum Nat Bool
  | [], d => .inl d
  | c :: rest, d =>
    if c = '<' then pitpChars opts rest (d + 1)
    else if c = '>' then (if d = 1 then .inr true else pitpChars opts rest (d - 1))
    else if opts.isOpenParen (String.mk [c]) then pitpChars opts rest (d + 1)
    else if opts.isCloseParen (String.mk [c]) then
      (if d = 1 then .inr false else pitpChars opts rest (d - 1))
    else if c = ',' || c = '.' || c = ':' || c = ';' || c = '?' || c = '&' || c = '|' then
      pitpChars opts rest d
    else .inr false

/-- `peek_is_type_params` (parser.rs lines 72-108): a non-consuming balance
scan starting at depth 1; `>` at depth 1 commits to a type-parameter group, a
close paren at depth 1 or any disallowed token rejects. -/
def peekIsTypeParams (opts : LexOptions) : List StandardToken → Nat → Bool
  | [], _ => false
  | t :: rest, d =>
    match t.ty with
    | .symbol s =>
      match pitpChars opts s.toList d with
      | .inl d' => peekIsTypeParams opts rest d'
      | .inr b => b
    | .identifier _ => peekIsTypeParams opts rest d
    | _ => false

/-- `split_to_symbols` (parser.rs lines 149-180): leading paren or angle
characters become one-character Symbols with single-byte spans; the first other
character ends the split, keeping the rest as one Symbol. -/
def splitToSymbols (opts : LexOptions) : List Char → Span → List StandardToken
  | [], _ => []
  | c :: rest, spn =>
    if opts.isOpenParen (String.mk [c]) || opts.isCloseParen (String.mk [c]) ||
        c = '<' || c = '>' then
      ⟨.symbol (String.mk [c]), ⟨spn.lo, spn.lo⟩⟩ ::
        splitToSymbols opts rest ⟨spn.lo + 1, spn.hi⟩
    else
      [⟨.symbol (String.mk (c :: rest)), spn⟩]

/-- The empty `<>`-group node built by the parser's dedicated `<>` arm. -/
def emptyTypeParamNode (spn : Span) : Ast :=
  .delimited ⟨.symbol "<", ⟨spn.lo, spn.lo⟩⟩
    (some ⟨.symbol ">", ⟨spn.hi, spn.hi⟩⟩) []

/-- `parse` (parser.rs lines 182-265) with loop fuel.  Without type-parameter
parsing each iteration consumes one token, so `tokens.length + 1` fuel
suffices; with it, a multi-character symbol can be split (at most once per
token, since a split remainder never starts with a splittable character), so
the entry point supplies `2 * count + total characters + 2`. -/
def parseF (opts : LexOptions) :
    Nat → Bool → Bool → List StandardToken → List Ast →
    List Ast × List StandardToken
  | 0, _, _, toks, res => (res, toks)
  | fuel + 1, recur, insideTp, toks, res =>
    match toks with
    | [] => (res, toks)
    | tok :: rest =>
      match tok.ty with
      | .symbol c =>
        if recur && (opts.isCloseParen c || isCloseTypeParam c insideTp) then
          (res, tok :: rest)
        else if insideTp && c.toList.length > 1 &&
            (splitToSymbols opts c.toList tok.span).length > 1 then
          parseF opts fuel recur insideTp
            (splitToSymbols opts c.toList tok.span ++ rest) res
        else if opts.isOpenParen c || isOpenTypeParam c insideTp then
          let (content, rest') := parseF opts fuel true insideTp rest []
          match rest' with
          | [] => parseF opts fuel recur insideTp []
              (res ++ [.delimited tok none content])
          | cp :: rest'' => parseF opts fuel recur insideTp rest''
              (res ++ [.delimited tok (some cp) content])
        else if c = "<>" && opts.typeParameterParsing && lastIsIdentifier res then
          parseF opts fuel recur insideTp rest (res ++ [emptyTypeParamNode tok.span])
        else if c = "<" && opts.typeParameterParsing then
          if lastIsIdentifier res && peekIsTypeParams opts rest 1 then
            let (content, rest') := parseF opts fuel true true rest []
            match rest' with
            | [] => parseF opts fuel recur insideTp []
                (res ++ [.delimited tok none content])
            | cp :: rest'' => parseF opts fuel recur insideTp rest''
                (res ++ [.delimited tok (some cp) content])
          else
            parseF opts fuel recur insideTp rest (res ++ [.token tok])
        else
          parseF opts fuel recur insideTp rest (res ++ [.token tok])
      | _ => parseF opts fuel recur insideTp rest (res ++ [.token tok])

/-- Fuel supplied to `parse` from its entry points. -/
def parseFuel (toks : List StandardToken) : Nat :=
  2 * toks.length + (toks.map (fun t =>
    match t.ty with
    | .symbol s => s.toList.length
    | _ => 0)).sum + 2

/-- `parse` from the top level, as `parse_file` calls it (recur and
inside_type_param both false). -/
def parseToks (opts : LexOptions) (toks : List StandardToken) : List Ast :=
  (parseF opts (parseFuel toks) false false toks []).1

/-- `parse_file` (parser.rs lines 267-274). -/
def parseFile (opts : LexOptions) (s : String) : Option (List Ast × Iter) :=
  match tokenize opts s with
  | none => none
  | some (toks, it) => some (parseToks opts toks, it)

mutual

/-- Flatten one AST node back to its token sequence: a `Delimited` contributes
its opener, its flattened content, then its closer when present (spec section
8, parse-structure preservation). -/
def flattenOne : Ast → List StandardToken
  | .token t => [t]
  | .delimited op cp content =>
    op :: (flattenList content ++
      (match cp with
       | some c => [c]
       | none => []))

/-- Flatten an AST list back to its token sequence. -/
def flattenList : List Ast → List StandardToken
  | [] => []
  | a :: rest => flattenOne a ++ flattenList rest

end

/-!
The NFA compiler, `compiler.rs`.  State ids come from the process-wide
`INDEX` counter and the lazily allocated global `ACCEPT` state; the embedding
threads the counter explicitly and takes `ACCEPT.id` as a parameter `acc`
(always strictly below the counter's starting value, as in any process run).
`HashMap<usize, State>` is embedded as an association list in ascending key
order — the passes that depend on an order traverse `.keys().sorted()`
themselves, and the rest (value iteration, removal) are order-insensitive.
-/

/-- `parser.rs` `ParsedAstMatcher`. -/
inductive ParsedAstMatcher : Type where
  | token (t : StandardToken)
  | delimited (op : StandardToken) (cp : Option StandardToken)
      (content : List ParsedAstMatcher)
  | any
  | endMark
  | plus (m : ParsedAstMatcher)
  | star (m : ParsedAstMatcher)
  | questionMark (m : ParsedAstMatcher)
  | or (a b : ParsedAstMatcher)
  | nested (content : List ParsedAstMatcher)
  | regex (pattern : String)

/-- `compiler.rs` `Matcher` (NFA edge label). -/
inductive Matcher : Type where
  | token (ty : StandardTokenType)
  | delimited (op : StandardTokenType) (cp : Option StandardTokenType) (start : Nat)
  | any
  | endMark
  | regex (pattern : String)
  | epsilon
  | accept
deriving DecidableEq, Repr

/-- `compiler.rs` `State`. -/
structure State where
  id : Nat
  transitions : List (Matcher × Nat)
deriving DecidableEq, Repr

/-- `compiler.rs` `Machine`. -/
structure Machine where
  initial : Nat
  states : List (Nat × State)
deriving DecidableEq, Repr

/-- The machine under construction: the global `INDEX` counter value and the
states map (the `ACCEPT` id is threaded separately). -/
structure Builder where
  counter : Nat
  states : List (Nat × State)
deriving Repr

/-- `Machine::new` (compiler.rs lines 86-92): the states map starts with the
global `ACCEPT` state, whose single transition is the `Accept` self loop. -/
def Builder.new (acc counter0 : Nat) : Builder :=
  ⟨counter0, [(acc, ⟨acc, [(.accept, acc)]⟩)]⟩

/-- `Machine::state`: allocate a fresh state from the counter.  Fresh ids
strictly exceed every existing id (`acc < counter0`), so appending keeps the
association list sorted. -/
def Builder.freshState (b : Builder) : Nat × Builder :=
  (b.counter, ⟨b.counter + 1, b.states ++ [(b.counter, ⟨b.counter, []⟩)]⟩)

/-- `Machine::add_transition` / `State::add_transition`: push onto the state's
transition vector. -/
def Builder.addTransition (b : Builder) (src dst : Nat) (m : Matcher) : Builder :=
  ⟨b.counter, b.states.map fun (k, st) =>
    if k = src then (k, ⟨st.id, st.transitions ++ [(m, dst)]⟩) else (k, st)⟩

mutual

/-- Structural nesting depth of a `ParsedAstMatcher`, bounding the recursion
depth of `compile_state`. -/
def pamDepth : ParsedAstMatcher → Nat
  | .token _ => 1
  | .any => 1
  | .endMark => 1
  | .regex _ => 1
  | .delimited _ _ c => 1 + pamListDepth c
  | .nested c => 1 + pamListDepth c
  | .plus m => 1 + pamDepth m
  | .star m => 1 + pamDepth m
  | .questionMark m => 1 + pamDepth m
  | .or a b => 1 + Nat.max (pamDepth a) (pamDepth b)

def pamListDepth : List ParsedAstMatcher → Nat
  | [] => 0
  | m :: rest => Nat.max (pamDepth m) (pamListDepth rest)

end

/-- The fold of `Machine::link_list` over the tail; `cs` is `compile_state`. -/
def linkRest (cs : ParsedAstMatcher → Builder → Builder × Nat × Nat) :
    List ParsedAstMatcher → Builder → Nat → Nat → Builder × Nat × Nat
  | [], b, s, e => (b, s, e)
  | f :: fs, b, s, e =>
    let (b1, ns, ne) := cs f b
    linkRest cs fs (b1.addTransition e ns .epsilon) s ne

/-- `Machine::link_list`: ε-chain a list of sub-machines. -/
def linkList (cs : ParsedAstMatcher → Builder → Builder × Nat × Nat)
    (first : ParsedAstMatcher) (rest : List ParsedAstMatcher) (b : Builder) :
    Builder × Nat × Nat :=
  let (b1, s, e) := cs first b
  linkRest cs rest b1 s e

/-- `Machine::compile_state` (compiler.rs lines 117-206) at a given
nesting-depth fuel, returning the `(start, end)` state pair; allocation order
follows the source exactly (for `Token`/`Any`/`End`/`Regex` the end state is
allocated before the start state).  Fuel `pamDepth` of the matcher is never
exhausted. -/
def compileStateF (acc : Nat) : Nat → ParsedAstMatcher → Builder → Builder × Nat × Nat
  | 0, _, b => (b, 0, 0)
  | fuel + 1, pam, b =>
    match pam with
    | .token t =>
      let (e, b1) := b.freshState
      let (s, b2) := b1.freshState
      (b2.addTransition s e (.token t.ty), s, e)
    | .plus m =>
      let (b1, s, e) := compileStateF acc fuel m b
      (b1.addTransition e s .epsilon, s, e)
    | .questionMark m =>
      let (b1, s, e) := compileStateF acc fuel m b
      let (ne, b2) := b1.freshState
      (((b2.addTransition s ne .epsilon).addTransition e ne .epsilon), s, ne)
    | .star m =>
      let (b1, s, e) := compileStateF acc fuel m b
      let (ne, b2) := b1.freshState
      ((((b2.addTransition s ne .epsilon).addTransition e s .epsilon).addTransition
          e ne .epsilon), s, ne)
    | .or ma mb =>
      let (s, b1) := b.freshState
      let (b2, sa, ea) := compileStateF acc fuel ma b1
      let (b3, sb, eb) := compileStateF acc fuel mb b2
      let (ne, b4) := b3.freshState
      (((((b4.addTransition s sa .epsilon).addTransition s sb .epsilon).addTransition
          ea ne .epsilon).addTransition eb ne .epsilon), s, ne)
    | .any =>
      let (e, b1) := b.freshState
      let (s, b2) := b1.freshState
      (b2.addTransition s e .any, s, e)
    | .endMark =>
      let (e, b1) := b.freshState
      let (s, b2) := b1.freshState
      (b2.addTransition s e .endMark, s, e)
    | .regex pat =>
      let (e, b1) := b.freshState
      let (s, b2) := b1.freshState
      (b2.addTransition s e (.regex pat), s, e)
    | .delimited op cp content =>
      let (b1, innerStart) :=
        match content with
        | [] => (b, acc)
        | first :: rest =>
          let (b1, s, e) := linkList (compileStateF acc fuel) first rest b
          (b1.addTransition e acc .epsilon, s)
      let (e, b2) := b1.freshState
      let (d, b3) := b2.freshState
      (b3.addTransition d e (.delimited op.ty (cp.map (·.ty)) innerStart), d, e)
    | .nested content =>
      match content with
      | [] =>
        let (s, b1) := b.freshState
        (b1, s, s)
      | first :: rest => linkList (compileStateF acc fuel) first rest b

/-- `Machine::compile_state` with adequate fuel. -/
def compileState (acc : Nat) (pam : ParsedAstMatcher) (b : Builder) :
    Builder × Nat × Nat :=
  compileStateF acc (pamDepth pam) pam b

/-- `Machine::parse_query_ast` (compiler.rs lines 208-215). -/
def parseQueryAstM (acc : Nat) (content : List ParsedAstMatcher) (b : Builder) :
    Builder × Nat × Nat :=
  match content with
  | [] =>
    let (s, b1) := b.freshState
    (b1, s, s)
  | first :: rest => linkList (compileStateF acc (pamListDepth content)) first rest b

/-- The machine built by `compile_query` before optimization: initial state,
plus the final ε edge into `ACCEPT`. -/
def compileRaw (q : List ParsedAstMatcher) (acc counter0 : Nat) : Machine :=
  let (b, s, e) := parseQueryAstM acc q (Builder.new acc counter0)
  ⟨s, (b.addTransition e acc .epsilon).states⟩

/-!  The optimizer (`optimize`, compiler.rs lines 218-353). -/

/-- Insert into a sorted list of ids. -/
def insertSorted (x : Nat) : List Nat → List Nat
  | [] => [x]
  | y :: rest => if x ≤ y then x :: y :: rest else y :: insertSorted x rest

/-- The `.keys().sorted()` traversal order. -/
def sortNat : List Nat → List Nat
  | [] => []
  | x :: rest => insertSorted x (sortNat rest)

def machineIds (sts : List (Nat × State)) : List Nat :=
  sortNat (sts.map (·.1))

def getSt (sts : List (Nat × State)) (id : Nat) : Option State :=
  (sts.find? (fun p => p.1 = id)).map (·.2)

/-- Transition list of a state, defaulting to `[]` for an id that is not in
the map (the source would panic there; invariant I1, proved below for compiled
machines, rules it out). -/
def transOf (sts : List (Nat × State)) (id : Nat) : List (Matcher × Nat) :=
  ((getSt sts id).map (·.transitions)).getD []

/-- Pass 1, collapse single-ε states (`a[t] -> b[e] -> c` to `a[t] -> c`):
for each non-`ACCEPT` id in ascending order whose sole transition is an ε to
`newId`, redirect every transition targeting it to `newId`. -/
def pass1 (acc : Nat) (ids : List Nat) (sts0 : List (Nat × State)) :
    List (Nat × State) :=
  ids.foldl
    (fun sts id =>
      if id = acc then sts
      else
        match getSt sts id with
        | some ⟨_, [(Matcher.epsilon, newId)]⟩ =>
          sts.map fun (k, st) =>
            (k, ⟨st.id, st.transitions.map fun (m, t) =>
              if t = id then (m, newId) else (m, t)⟩)
        | _ => sts)
    sts0

/-- Pass 2, inline ε jumps (`a[e] -> b[T] -> c` to `a[t] -> c`): for each
non-`ACCEPT` id in ascending order, keep its non-ε transitions and append, for
every ε edge, a copy of the target's current transitions. -/
def pass2 (acc : Nat) (ids : List Nat) (sts0 : List (Nat × State)) :
    List (Nat × State) :=
  ids.foldl
    (fun sts id =>
      if id = acc then sts
      else
        match getSt sts id with
        | none => sts
        | some st =>
          let kept := st.transitions.filter fun (m, _) => m ≠ Matcher.epsilon
          let inlined := st.transitions.flatMap fun (m, t) =>
            if m = Matcher.epsilon then transOf sts t else []
          sts.map fun (k, st') =>
            if k = id then (k, ⟨st'.id, kept ++ inlined⟩) else (k, st'))
    sts0

/-- Successor ids pushed by the reachability scan: the transition target and,
for a `Delimited` edge, its nested start state. -/
def succIds (st : State) : List Nat :=
  st.transitions.flatMap fun (m, t) =>
    t :: (match m with
          | .delimited _ _ s => [s]
          | _ => [])

/-- The reachability scan of pass 3 (queue order differs from the source's
stack order; the visited set is the same). -/
def reachGo (sts : List (Nat × State)) : Nat → List Nat → List Nat → List Nat
  | 0, _, visited => visited
  | _ + 1, [], visited => visited
  | fuel + 1, id :: queue, visited =>
    if visited.contains id then reachGo sts fuel queue visited
    else
      match getSt sts id with
      | none => reachGo sts fuel queue visited
      | some st => reachGo sts fuel (queue ++ succIds st) (visited ++ [id])

def transCount (sts : List (Nat × State)) : Nat :=
  (sts.map (fun p => p.2.transitions.length)).sum

/-- Fuel that the reachability scan can never exhaust: one pop per queue entry,
with at most `1 + 2·transitions` entries ever enqueued per processed state. -/
def pruneFuel (sts : List (Nat × State)) : Nat :=
  2 * transCount sts + sts.length + 2

/-- Pass 3, prune unreachable states. -/
def pass3 (initial : Nat) (sts : List (Nat × State)) : List (Nat × State) :=
  let keep := reachGo sts (pruneFuel sts) [initial] []
  sts.filter fun (k, _) => keep.contains k

/-- Keep the first occurrence of each `(matcher, target)` pair (the
`seen.insert` retain of pass 4). -/
def dedupTransGo : List (Matcher × Nat) → List (Matcher × Nat) → List (Matcher × Nat)
  | [], _ => []
  | t :: rest, seen =>
    if t ∈ seen then dedupTransGo rest seen else t :: dedupTransGo rest (t :: seen)

/-- Pass 4, deduplicate transitions within each state. -/
def pass4 (sts : List (Nat × State)) : List (Nat × State) :=
  sts.map fun (k, st) => (k, ⟨st.id, dedupTransGo st.transitions []⟩)

/-- Transition lists compared as sets, the `HashSet` equality of pass 5. -/
def transSetEq (a b : List (Matcher × Nat)) : Bool :=
  a.all (fun t => t ∈ b) && b.all (fun t => t ∈ a)

def remapHasKey (remap : List (Nat × Nat)) (j : Nat) : Bool :=
  remap.any fun p => p.1 = j

def applyRemap (remap : List (Nat × Nat)) (t : Nat) : Nat :=
  ((remap.find? fun p => p.1 = t).map (·.2)).getD t

/-- The inner `j` loop of pass 5: map every later, not yet remapped,
non-`ACCEPT` id with the same transition set onto `i`. -/
def mergeInner (sts : List (Nat × State)) (acc i : Nat) :
    List Nat → List (Nat × Nat) → List (Nat × Nat)
  | [], remap => remap
  | j :: rest, remap =>
    if j = acc || remapHasKey remap j then mergeInner sts acc i rest remap
    else if transSetEq (transOf sts i) (transOf sts j) then
      mergeInner sts acc i rest (remap ++ [(j, i)])
    else mergeInner sts acc i rest remap

/-- The outer `i` loop of pass 5. -/
def mergeOuter (sts : List (Nat × State)) (acc : Nat) :
    List Nat → List (Nat × Nat) → List (Nat × Nat)
  | [], remap => remap
  | i :: rest, remap =>
    if i = acc || remapHasKey remap i then mergeOuter sts acc rest remap
    else mergeOuter sts acc rest (mergeInner sts acc i rest remap)

/-- Rewrite every reference (targets, `Delimited.start`) through the merge
remap. -/
def applyRemapSts (remap : List (Nat × Nat)) (sts : List (Nat × State)) :
    List (Nat × State) :=
  sts.map fun (k, st) =>
    (k, ⟨st.id, st.transitions.map fun (m, t) =>
      ((match m with
        | .delimited op cp s => Matcher.delimited op cp (applyRemap remap s)
        | m' => m'),
       applyRemap remap t)⟩)

/-- Pass 5, merge states with identical transition sets; the survivor is the
smaller id, and `initial` is rewritten too. -/
def pass5 (acc : Nat) (m : Machine) : Machine :=
  let ids := machineIds m.states
  let remap := mergeOuter m.states acc ids []
  ⟨applyRemap remap m.initial, applyRemapSts remap m.states⟩

/-- `optimize` (compiler.rs lines 218-353): the five passes in order, sharing
the id list computed on entry for passes 1 and 2. -/
def optimize (acc : Nat) (m : Machine) : Machine :=
  let ids := machineIds m.states
  let s1 := pass1 acc ids m.states
  let s2 := pass2 acc ids s1
  let s3 := pass3 m.initial s2
  let s4 := pass4 s3
  pass5 acc ⟨m.initial, s4⟩

/-- `optimize` iterated as `compile_query` does (`for _ in 0..5`). -/
def optimize5 (acc : Nat) (m : Machine) : Machine :=
  optimize acc (optimize acc (optimize acc (optimize acc (optimize acc m))))

/-- `normalize` (compiler.rs lines 355-400): remap ids to `0..N-1` in
ascending prior-id order. -/
def normalize (m : Machine) : Machine :=
  let ids := machineIds m.states
  let idMap : List (Nat × Nat) := ids.enum.map fun (new, old) => (old, new)
  let newStates := ids.filterMap fun old =>
    match getSt m.states old with
    | none => none
    | some st =>
      let newId := applyRemap idMap old
      some (newId, ⟨newId, st.transitions.map fun (mt, t) =>
        ((match mt with
          | .delimited op cp s => .delimited op cp (applyRemap idMap s)
          | mt' => mt'),
         applyRemap idMap t)⟩)
  ⟨applyRemap idMap m.initial, newStates⟩

/-- `compile_query` (compiler.rs lines 402-420): build, optimize five times,
normalize.  `acc` is the global `ACCEPT.id` and `counter0` the value of the
process-wide counter when compilation starts (`acc < counter0`). -/
def compileQuery (q : List ParsedAstMatcher) (acc counter0 : Nat) : Machine :=
  normalize (optimize5 acc (compileRaw q acc counter0))

/-!  Concrete inputs used by the claim theorems about `query.rs`. -/
namespace Examples

/-- A regex engine instance for regex-free examples. -/
def rmFalse : String → String → Bool := fun _ _ => false

def sym (s : String) (lo hi : Nat) : StandardToken := ⟨.symbol s, ⟨lo, hi⟩⟩

def ident (s : String) (lo hi : Nat) : StandardToken := ⟨.identifier s, ⟨lo, hi⟩⟩

/-- The source AST of the input `([a])` (`js` lexical settings). -/
def inputParenBrack : List Ast :=
  [.delimited (sym "(" 0 0) (some (sym ")" 4 4))
    [.delimited (sym "[" 1 1) (some (sym "]" 3 3)) [.token (ident "a" 2 2)]]]

/-- The matcher AST of the query `([a])`. -/
def queryParenBrack : List MatcherAst :=
  [.delimited (sym "(" 0 0) (some (sym ")" 4 4))
    [.delimited (sym "[" 1 1) (some (sym "]" 3 3)) [.token (ident "a" 2 2)]]]

/-- The matcher AST of the query `[(a)]`. -/
def queryBrackParen : List MatcherAst :=
  [.delimited (sym "[" 0 0) (some (sym "]" 4 4))
    [.delimited (sym "(" 1 1) (some (sym ")" 3 3)) [.token (ident "a" 2 2)]]]

/-- Identifier tokens `a` and `b` as in the input `a b`. -/
def aNode : Ast := .token (ident "a" 0 0)

def bNode : Ast := .token (ident "b" 2 2)

/-- The matcher AST of the query `a\* a b` (`Star(Token a), Token a, Token b`). -/
def queryStarAB : List MatcherAst :=
  [.star (.token (ident "a" 0 0)), .token (ident "a" 4 4), .token (ident "b" 6 6)]

/-- The parsed query `\.\*` (`Star(Any)`). -/
def queryStarAnyPam : List ParsedAstMatcher := [.star .any]

/-- The parsed query `\.\* \.\*` (`Star(Any) Star(Any)`). -/
def queryStarStarPam : List ParsedAstMatcher := [.star .any, .star .any]

end Examples

/-- Keys of the state map. -/
def stateKeys (sts : List (Nat × State)) : List Nat :=
  sts.map (·.1)

/-- Invariant I1: every id referenced by a transition target or a
`Delimited.start` is a key of the state map. -/
def RefsClosed (sts : List (Nat × State)) : Prop :=
  ∀ p ∈ sts, ∀ t ∈ (p.2 : State).transitions,
    (t : Matcher × Nat).2 ∈ stateKeys sts ∧
    (∀ op cp st0, t.1 = Matcher.delimited op cp st0 → st0 ∈ stateKeys sts)

/-- Every `Accept` edge targets `a`. -/
def AcceptEdgesTo (sts : List (Nat × State)) (a : Nat) : Prop :=
  ∀ p ∈ sts, ∀ t ∈ (p.2 : State).transitions,
    (t : Matcher × Nat).1 = Matcher.accept → t.2 = a

/-- Edge-following reachability in a state map. -/
inductive Reaches (sts : List (Nat × State)) : Nat → Nat → Prop where
  | refl (a : Nat) : Reaches sts a a
  | step {a b c : Nat} {m : Matcher} :
      (m, b) ∈ transOf sts a → Reaches sts b c → Reaches sts a c

/-!  Builder and machine invariants, rename maps and merge-remap
predicates used by the theorems below. -/

/-- The builder invariant threaded through `compile_state`: ids are below the
counter, references are closed, and the global `ACCEPT` state is intact. -/
def BInv (acc : Nat) (b : Builder) : Prop :=
  (∀ k ∈ stateKeys b.states, k < b.counter) ∧
  RefsClosed b.states ∧
  acc ∈ stateKeys b.states ∧
  transOf b.states acc = [(Matcher.accept, acc)] ∧
  AcceptEdgesTo b.states acc ∧
  (stateKeys b.states).Nodup

/-- What one `compile_state` call guarantees: the invariant persists, the
builder only grows, and the returned `(start, end)` pair consists of freshly
allocated, connected states. -/
def CSOut (acc : Nat) (b : Builder) (r : Builder × Nat × Nat) : Prop :=
  BInv acc r.1 ∧ b.counter ≤ r.1.counter ∧
  (∀ k ∈ stateKeys b.states, k ∈ stateKeys r.1.states) ∧
  (∀ k, ∀ t ∈ transOf b.states k, t ∈ transOf r.1.states k) ∧
  r.2.1 ∈ stateKeys r.1.states ∧ r.2.2 ∈ stateKeys r.1.states ∧
  b.counter ≤ r.2.1 ∧ b.counter ≤ r.2.2 ∧
  Reaches r.1.states r.2.1 r.2.2

/-- The machine invariant carried through the optimization passes: closed
references, a live initial state, the intact `ACCEPT` state reachable from
`initial`, all `Accept` edges into it, and distinct keys. -/
def MInv (acc : Nat) (m : Machine) : Prop :=
  RefsClosed m.states ∧
  m.initial ∈ stateKeys m.states ∧
  acc ∈ stateKeys m.states ∧
  transOf m.states acc = [(Matcher.accept, acc)] ∧
  AcceptEdgesTo m.states acc ∧
  Reaches m.states m.initial acc ∧
  (stateKeys m.states).Nodup

/-- Every pair the merge loops add maps a non-`ACCEPT` id onto a surviving id
with a set-equal transition list. -/
def RemapOk (sts : List (Nat × State)) (acc : Nat)
    (remap : List (Nat × Nat)) : Prop :=
  ∀ p ∈ remap, p.1 ≠ acc ∧ p.2 ∈ stateKeys sts ∧
    transSetEq (transOf sts p.2) (transOf sts p.1) = true

/-- The matcher rewrite of `applyRemapSts`, named for case analysis. -/
def remapMatcher (remap : List (Nat × Nat)) : Matcher → Matcher
  | Matcher.delimited op cp s => Matcher.delimited op cp (applyRemap remap s)
  | Matcher.token ty => Matcher.token ty
  | Matcher.any => Matcher.any
  | Matcher.endMark => Matcher.endMark
  | Matcher.regex pat => Matcher.regex pat
  | Matcher.epsilon => Matcher.epsilon
  | Matcher.accept => Matcher.accept

/-- One step of pass 1. -/
def pass1Step (acc : Nat) (sts : List (Nat × State)) (id : Nat) :
    List (Nat × State) :=
  if id = acc then sts
  else
    match getSt sts id with
    | some ⟨_, [(Matcher.epsilon, newId)]⟩ =>
      sts.map fun (k, st) =>
        (k, ⟨st.id, st.transitions.map fun (m, t) =>
          if t = id then (m, newId) else (m, t)⟩)
    | _ => sts

/-- The edge rewrite of a pass-1 redirect. -/
def redirectEdge (id newId : Nat) (t : Matcher × Nat) : Matcher × Nat :=
  if t.2 = id then (t.1, newId) else t

/-- One step of pass 2. -/
def pass2Step (acc : Nat) (sts : List (Nat × State)) (id : Nat) :
    List (Nat × State) :=
  if id = acc then sts
  else
    match getSt sts id with
    | none => sts
    | some st =>
      let kept := st.transitions.filter fun (m, _) => m ≠ Matcher.epsilon
      let inlined := st.transitions.flatMap fun (m, t) =>
        if m = Matcher.epsilon then transOf sts t else []
      sts.map fun (k, st') =>
        if k = id then (k, ⟨st'.id, kept ++ inlined⟩) else (k, st')

/-- Weight of the not-yet-visited states, bounding the work the reachability
scan can still create. -/
def restSum (sts : List (Nat × State)) (visited : List Nat) : Nat :=
  ((sts.filter (fun p => !(visited.contains p.1))).map
    (fun p => 2 * p.2.transitions.length + 1)).sum

/-- Rename state ids inside a matcher. -/
def renM (φ : Nat → Nat) : Matcher → Matcher
  | .delimited op cp s => .delimited op cp (φ s)
  | .token ty => .token ty
  | .any => .any
  | .endMark => .endMark
  | .regex pat => .regex pat
  | .epsilon => .epsilon
  | .accept => .accept

/-- Rename a transition. -/
def renT (φ : Nat → Nat) (t : Matcher × Nat) : Matcher × Nat :=
  (renM φ t.1, φ t.2)

/-- Rename a state. -/
def renSt (φ : Nat → Nat) (st : State) : State :=
  ⟨φ st.id, st.transitions.map (renT φ)⟩

/-- Rename a state map. -/
def renSts (φ : Nat → Nat) (sts : List (Nat × State)) : List (Nat × State) :=
  sts.map fun p => (φ p.1, renSt φ p.2)

/-- Rename a machine. -/
def renMach (φ : Nat → Nat) (m : Machine) : Machine :=
  ⟨φ m.initial, renSts φ m.states⟩

/-- Rename a builder. -/
def renB (φ : Nat → Nat) (b : Builder) : Builder :=
  ⟨φ b.counter, renSts φ b.states⟩

/-- The pair renaming applied to a remap table. -/
def renPair (φ : Nat → Nat) (p : Nat × Nat) : Nat × Nat := (φ p.1, φ p.2)

/-- A strictly monotone id renaming carrying `acc` to `A` and shifting
everything from `c0` up into `C`. -/
def shiftMap (acc c0 A C : Nat) : Nat → Nat :=
  fun n =>
    if n ≤ acc then n + (A - acc)
    else if n < c0 then A + (n - acc)
    else n + (C - c0)

/-- The `js` lexical settings with type-parameter parsing turned off
(`--no-type-params`). -/
def jsNoTp : LexOptions := { jsOpts with typeParameterParsing := false }

/-!  Theorems. -/

/-! Association-list helpers. -/
theorem getSt_map_keep {g : Nat × State → Nat × State}
    (hg : ∀ p, (g p).1 = p.1) (sts : List (Nat × State)) (id : Nat) :
    getSt (sts.map g) id = (getSt sts id).map (fun st => (g (id, st)).2) := by
  induction sts with
  | nil => rfl
  | cons p rest ih =>
    rcases p with ⟨k, st⟩
    by_cases hp : k = id
    · subst hp
      unfold getSt
      rw [List.map_cons,
        List.find?_cons_of_pos _ (by simp [hg ⟨k, st⟩]),
        List.find?_cons_of_pos _ (by simp)]
      rfl
    · unfold getSt
      rw [List.map_cons,
        List.find?_cons_of_neg _ (by simp [hg ⟨k, st⟩, hp]),
        List.find?_cons_of_neg _ (by simp [hp])]
      exact ih

theorem getSt_none_iff (sts : List (Nat × State)) (id : Nat) :
    getSt sts id = none ↔ id ∉ stateKeys sts := by
  induction sts with
  | nil => simp [getSt, stateKeys]
  | cons p rest ih =>
    rcases p with ⟨k, st⟩
    by_cases hp : k = id
    · subst hp
      unfold getSt
      rw [List.find?_cons_of_pos _ (by simp)]
      simp [stateKeys]
    · unfold getSt
      rw [List.find?_cons_of_neg _ (by simp [hp])]
      unfold getSt at ih
      simp only [stateKeys, List.map_cons, List.mem_cons] at ih ⊢
      rw [ih]
      constructor
      · intro h hk
        rcases hk with hk | hk
        · exact hp hk.symm
        · exact h hk
      · intro h hk
        exact h (Or.inr hk)

theorem getSt_append_left (sts more : List (Nat × State)) (id : Nat)
    (h : id ∈ stateKeys sts) :
    getSt (sts ++ more) id = getSt sts id := by
  induction sts with
  | nil => simp [stateKeys] at h
  | cons p rest ih =>
    rcases p with ⟨k, st⟩
    by_cases hp : k = id
    · subst hp
      unfold getSt
      rw [List.cons_append, List.find?_cons_of_pos _ (by simp),
        List.find?_cons_of_pos _ (by simp)]
    · unfold getSt
      rw [List.cons_append, List.find?_cons_of_neg _ (by simp [hp]),
        List.find?_cons_of_neg _ (by simp [hp])]
      apply ih
      simp only [stateKeys, List.map_cons, List.mem_cons] at h
      rcases h with h | h
      · exact absurd h.symm hp
      · exact h

theorem getSt_append_right (sts more : List (Nat × State)) (id : Nat)
    (h : id ∉ stateKeys sts) :
    getSt (sts ++ more) id = getSt more id := by
  induction sts with
  | nil => rfl
  | cons p rest ih =>
    rcases p with ⟨k, st⟩
    simp only [stateKeys, List.map_cons, List.mem_cons] at h
    push_neg at h
    unfold getSt
    rw [List.cons_append, List.find?_cons_of_neg _ (by simp; exact fun hh => h.1 hh.symm)]
    exact ih (by simpa [stateKeys] using h.2)

theorem addTransition_keys (b : Builder) (src dst : Nat) (m : Matcher) :
    stateKeys (b.addTransition src dst m).states = stateKeys b.states := by
  simp only [Builder.addTransition, stateKeys, List.map_map]
  congr 1
  funext p
  rcases p with ⟨k, st⟩
  simp only [Function.comp]
  split <;> rfl

theorem transOf_addTransition_ne (b : Builder) (src dst : Nat) (m : Matcher)
    (k : Nat) (hk : k ≠ src) :
    transOf (b.addTransition src dst m).states k = transOf b.states k := by
  unfold transOf Builder.addTransition
  rw [getSt_map_keep (fun p => by rcases p with ⟨a, st⟩; simp only; split <;> rfl)]
  rcases h : getSt b.states k with _ | st
  · rfl
  · simp only [Option.map_some']
    rw [if_neg hk]

theorem transOf_addTransition_self (b : Builder) (src dst : Nat) (m : Matcher)
    (h : src ∈ stateKeys b.states) :
    transOf (b.addTransition src dst m).states src =
      transOf b.states src ++ [(m, dst)] := by
  unfold transOf Builder.addTransition
  rw [getSt_map_keep (fun p => by rcases p with ⟨a, st⟩; simp only; split <;> rfl)]
  rcases hg : getSt b.states src with _ | st
  · exact absurd ((getSt_none_iff _ _).mp hg) (by simpa using h)
  · simp

theorem transOf_addTransition_sub (b : Builder) (src dst : Nat) (m : Matcher)
    (k : Nat) : ∀ t ∈ transOf b.states k,
      t ∈ transOf (b.addTransition src dst m).states k := by
  intro t ht
  by_cases hk : k = src
  · subst hk
    by_cases hmem : k ∈ stateKeys b.states
    · rw [transOf_addTransition_self b k dst m hmem]
      exact List.mem_append_left _ ht
    · rw [transOf] at ht
      rw [(getSt_none_iff _ _).mpr hmem] at ht
      simp at ht
  · rw [transOf_addTransition_ne b src dst m k hk]
    exact ht

theorem freshState_keys (b : Builder) :
    stateKeys (b.freshState).2.states = stateKeys b.states ++ [b.counter] := by
  simp [Builder.freshState, stateKeys]

theorem freshState_counter (b : Builder) :
    (b.freshState).2.counter = b.counter + 1 := rfl

theorem freshState_fst (b : Builder) : (b.freshState).1 = b.counter := rfl

theorem transOf_freshState_old (b : Builder) (k : Nat)
    (hk : k ∈ stateKeys b.states) :
    transOf (b.freshState).2.states k = transOf b.states k := by
  unfold transOf Builder.freshState
  rw [getSt_append_left _ _ _ hk]

theorem transOf_freshState_new (b : Builder)
    (h : b.counter ∉ stateKeys b.states) :
    transOf (b.freshState).2.states b.counter = [] := by
  unfold transOf Builder.freshState
  rw [getSt_append_right _ _ _ h]
  simp [getSt]

theorem transOf_freshState_sub (b : Builder) (k : Nat) :
    ∀ t ∈ transOf b.states k, t ∈ transOf (b.freshState).2.states k := by
  intro t ht
  by_cases hk : k ∈ stateKeys b.states
  · rw [transOf_freshState_old b k hk]; exact ht
  · rw [transOf] at ht
    rw [(getSt_none_iff _ _).mpr hk] at ht
    simp at ht

theorem reaches_mono {sts sts' : List (Nat × State)}
    (h : ∀ k, ∀ t ∈ transOf sts k, t ∈ transOf sts' k) {a b : Nat} :
    Reaches sts a b → Reaches sts' a b := by
  intro hr
  induction hr with
  | refl a => exact Reaches.refl a
  | step he _ ih => exact Reaches.step (h _ _ he) ih

theorem refsClosed_addTransition (b : Builder) (src dst : Nat) (m : Matcher)
    (h : RefsClosed b.states) (hdst : dst ∈ stateKeys b.states)
    (hm : ∀ op cp st0, m = Matcher.delimited op cp st0 → st0 ∈ stateKeys b.states) :
    RefsClosed (b.addTransition src dst m).states := by
  intro p hp t ht
  rw [addTransition_keys]
  simp only [Builder.addTransition, List.mem_map] at hp
  obtain ⟨q, hq, hpq⟩ := hp
  rcases q with ⟨k, st⟩
  by_cases hk : k = src
  · simp only [hk, if_pos rfl] at hpq
    subst hpq
    rcases List.mem_append.mp ht with h1 | h1
    · exact h ⟨k, st⟩ (hk ▸ hq) t h1
    · simp only [List.mem_singleton] at h1
      subst h1
      exact ⟨hdst, hm⟩
  · simp only [if_neg hk] at hpq
    subst hpq
    exact h ⟨k, st⟩ hq t ht

theorem acceptEdges_addTransition (b : Builder) (src dst : Nat) (m : Matcher)
    (acc : Nat) (h : AcceptEdgesTo b.states acc) (hm : m ≠ Matcher.accept) :
    AcceptEdgesTo (b.addTransition src dst m).states acc := by
  intro p hp t ht hacc
  simp only [Builder.addTransition, List.mem_map] at hp
  obtain ⟨q, hq, hpq⟩ := hp
  rcases q with ⟨k, st⟩
  by_cases hk : k = src
  · simp only [hk, if_pos rfl] at hpq
    subst hpq
    rcases List.mem_append.mp ht with h1 | h1
    · exact h ⟨k, st⟩ (hk ▸ hq) t h1 hacc
    · simp only [List.mem_singleton] at h1
      subst h1
      exact absurd hacc hm
  · simp only [if_neg hk] at hpq
    subst hpq
    exact h ⟨k, st⟩ hq t ht hacc

theorem bInv_addTransition (acc : Nat) (b : Builder) (src dst : Nat) (m : Matcher)
    (h : BInv acc b) (hsrc : src ≠ acc) (hdst : dst ∈ stateKeys b.states)
    (hm : ∀ op cp st0, m = Matcher.delimited op cp st0 → st0 ∈ stateKeys b.states)
    (hma : m ≠ Matcher.accept) :
    BInv acc (b.addTransition src dst m) := by
  obtain ⟨hlt, hrc, hmem, htr, hae, hnd⟩ := h
  refine ⟨?_, ?_, ?_, ?_, ?_, ?_⟩
  · intro k hk
    rw [addTransition_keys] at hk
    exact hlt k hk
  · exact refsClosed_addTransition b src dst m hrc hdst hm
  · rw [addTransition_keys]; exact hmem
  · rw [transOf_addTransition_ne _ _ _ _ _ (Ne.symm hsrc)]
    exact htr
  · exact acceptEdges_addTransition b src dst m acc hae hma
  · rw [addTransition_keys]; exact hnd

theorem bInv_freshState (acc : Nat) (b : Builder) (h : BInv acc b) :
    BInv acc (b.freshState).2 := by
  obtain ⟨hlt, hrc, hmem, htr, hae, hnd⟩ := h
  have hfresh : b.counter ∉ stateKeys b.states := fun hc => by
    have := hlt _ hc; omega
  refine ⟨?_, ?_, ?_, ?_, ?_, ?_⟩
  · intro k hk
    rw [freshState_keys] at hk
    rw [freshState_counter]
    rcases List.mem_append.mp hk with h1 | h1
    · have := hlt k h1; omega
    · simp only [List.mem_singleton] at h1; omega
  · intro p hp t ht
    rw [freshState_keys]
    simp only [Builder.freshState] at hp
    rcases List.mem_append.mp hp with h1 | h1
    · obtain ⟨h2, h3⟩ := hrc p h1 t ht
      exact ⟨List.mem_append_left _ h2,
        fun op cp st0 hdl => List.mem_append_left _ (h3 op cp st0 hdl)⟩
    · simp only [List.mem_singleton] at h1
      subst h1
      simp at ht
  · rw [freshState_keys]; exact List.mem_append_left _ hmem
  · rw [transOf_freshState_old _ _ hmem]; exact htr
  · intro p hp t ht hacc
    simp only [Builder.freshState] at hp
    rcases List.mem_append.mp hp with h1 | h1
    · exact hae p h1 t ht hacc
    · simp only [List.mem_singleton] at h1
      subst h1
      simp at ht
  · rw [freshState_keys]
    refine List.Nodup.append hnd (List.nodup_singleton _) ?_
    intro x hx hx2
    simp only [List.mem_singleton] at hx2
    subst hx2
    exact hfresh hx

theorem reaches_trans {sts : List (Nat × State)} {a b c : Nat}
    (h1 : Reaches sts a b) (h2 : Reaches sts b c) : Reaches sts a c := by
  induction h1 with
  | refl a => exact h2
  | step he _ ih => exact Reaches.step he (ih h2)

theorem pamDepth_pos (pam : ParsedAstMatcher) : 1 ≤ pamDepth pam := by
  cases pam <;> simp [pamDepth]

theorem pamDepth_le_list {pam : ParsedAstMatcher} :
    ∀ {l : List ParsedAstMatcher}, pam ∈ l → pamDepth pam ≤ pamListDepth l := by
  intro l hl
  induction l with
  | nil => simp at hl
  | cons x rest ih =>
    rcases List.mem_cons.mp hl with h | h
    · subst h
      simp [pamListDepth, Nat.le_max_left]
    · exact (ih h).trans (by simp [pamListDepth, Nat.le_max_right])

theorem bInv_acc_lt (acc : Nat) (b : Builder) (h : BInv acc b) : acc < b.counter :=
  h.1 acc h.2.2.1

theorem linkRest_inv (acc : Nat) (cs : ParsedAstMatcher → Builder → Builder × Nat × Nat)
    (P : ParsedAstMatcher → Prop)
    (hcs : ∀ pam b, P pam → BInv acc b → CSOut acc b (cs pam b))
    (c0 : Nat) (hac : acc < c0) :
    ∀ (fs : List ParsedAstMatcher) (b : Builder) (s e : Nat),
      (∀ f ∈ fs, P f) → BInv acc b →
      s ∈ stateKeys b.states → e ∈ stateKeys b.states →
      c0 ≤ b.counter → c0 ≤ e → Reaches b.states s e →
      BInv acc (linkRest cs fs b s e).1 ∧
      b.counter ≤ (linkRest cs fs b s e).1.counter ∧
      (∀ k ∈ stateKeys b.states, k ∈ stateKeys (linkRest cs fs b s e).1.states) ∧
      (∀ k, ∀ t ∈ transOf b.states k, t ∈ transOf (linkRest cs fs b s e).1.states k) ∧
      (linkRest cs fs b s e).2.1 = s ∧
      (linkRest cs fs b s e).2.2 ∈ stateKeys (linkRest cs fs b s e).1.states ∧
      c0 ≤ (linkRest cs fs b s e).2.2 ∧
      Reaches (linkRest cs fs b s e).1.states s (linkRest cs fs b s e).2.2 := by
  intro fs
  induction fs with
  | nil =>
    intro b s e hP hb hs he hcb hce hre
    exact ⟨hb, le_refl _, fun k hk => hk, fun k t ht => ht, rfl, he, hce, hre⟩
  | cons f fs ih =>
    intro b s e hP hb hs he hcb hce hre
    obtain ⟨hb1, hc1, hk1, ht1, hns, hne, hcns, hcne, hr1⟩ :=
      hcs f b (hP f (List.mem_cons_self _ _)) hb
    rcases hcseq : cs f b with ⟨b1, ns, ne⟩
    rw [hcseq] at hb1 hc1 hk1 ht1 hns hne hcns hcne hr1
    simp only at hb1 hc1 hk1 ht1 hns hne hcns hcne hr1
    have haccb : acc < b.counter := bInv_acc_lt acc b hb
    have hb2 : BInv acc (b1.addTransition e ns Matcher.epsilon) :=
      bInv_addTransition acc b1 e ns _ hb1 (by omega) hns
        (by intro op cp st0 h; cases h) (by intro h; cases h)
    have hk2 : ∀ k ∈ stateKeys b1.states,
        k ∈ stateKeys (b1.addTransition e ns Matcher.epsilon).states := by
      intro k hk; rwa [addTransition_keys]
    have ht2 := transOf_addTransition_sub b1 e ns Matcher.epsilon
    have hedge : (Matcher.epsilon, ns) ∈
        transOf (b1.addTransition e ns Matcher.epsilon).states e := by
      rw [transOf_addTransition_self _ _ _ _ (hk1 e he)]
      exact List.mem_append_right _ (List.mem_singleton.mpr rfl)
    have hrs : Reaches (b1.addTransition e ns Matcher.epsilon).states s ne := by
      refine reaches_trans (reaches_mono ht2 (reaches_mono ht1 hre)) ?_
      exact Reaches.step hedge (reaches_mono ht2 hr1)
    have hcaddc : (b1.addTransition e ns Matcher.epsilon).counter = b1.counter := rfl
    have hrec := ih (b1.addTransition e ns Matcher.epsilon) s ne
      (fun x hx => hP x (List.mem_cons_of_mem _ hx)) hb2
      (hk2 _ (hk1 _ hs)) (hk2 _ hne) (by omega) (by omega)
      hrs
    obtain ⟨rb, rc, rk, rt, rs, rne, rae, rr⟩ := hrec
    have hlr : linkRest cs (f :: fs) b s e =
        linkRest cs fs (b1.addTransition e ns Matcher.epsilon) s ne := by
      rw [linkRest, hcseq]
    rw [hlr]
    refine ⟨rb, ?_, ?_, ?_, rs, rne, rae, rr⟩
    · omega
    · intro k hk
      exact rk k (hk2 k (hk1 k hk))
    · intro k t ht
      exact rt k t (ht2 k t (ht1 k t ht))

theorem csout_simple (acc : Nat) (b : Builder) (m : Matcher)
    (hma : m ≠ Matcher.accept)
    (hmd : ∀ op cp st0, m ≠ Matcher.delimited op cp st0)
    (hb : BInv acc b) :
    CSOut acc b
      (((b.freshState).2.freshState).2.addTransition
         ((b.freshState).2).counter b.counter m,
       ((b.freshState).2).counter, b.counter) := by
  have hb1 : BInv acc (b.freshState).2 := bInv_freshState acc b hb
  have hb2 : BInv acc ((b.freshState).2.freshState).2 := bInv_freshState acc _ hb1
  have hacc : acc < b.counter := bInv_acc_lt acc b hb
  have hc1 : ((b.freshState).2).counter = b.counter + 1 := rfl
  have hkeys1 : stateKeys ((b.freshState).2).states =
      stateKeys b.states ++ [b.counter] := freshState_keys b
  have hkeys2 : stateKeys (((b.freshState).2).freshState).2.states =
      (stateKeys b.states ++ [b.counter]) ++ [b.counter + 1] := by
    rw [freshState_keys, hkeys1, hc1]
  have he2 : b.counter ∈ stateKeys (((b.freshState).2).freshState).2.states := by
    rw [hkeys2]; simp
  have hs2 : b.counter + 1 ∈ stateKeys (((b.freshState).2).freshState).2.states := by
    rw [hkeys2]; simp
  have hb3 : BInv acc ((((b.freshState).2).freshState).2.addTransition
      ((b.freshState).2).counter b.counter m) := by
    refine bInv_addTransition acc _ _ _ m hb2 (by omega) he2 ?_ hma
    intro op cp st0 h
    exact absurd h (hmd op cp st0)
  have hksub : ∀ k ∈ stateKeys b.states,
      k ∈ stateKeys ((((b.freshState).2).freshState).2.addTransition
        ((b.freshState).2).counter b.counter m).states := by
    intro k hk
    rw [addTransition_keys, hkeys2]
    exact List.mem_append_left _ (List.mem_append_left _ hk)
  have htsub : ∀ k, ∀ t ∈ transOf b.states k,
      t ∈ transOf ((((b.freshState).2).freshState).2.addTransition
        ((b.freshState).2).counter b.counter m).states k := by
    intro k t ht
    exact transOf_addTransition_sub _ _ _ _ _ _
      (transOf_freshState_sub _ _ _ (transOf_freshState_sub _ _ _ ht))
  have hedge : (m, b.counter) ∈
      transOf ((((b.freshState).2).freshState).2.addTransition
        ((b.freshState).2).counter b.counter m).states ((b.freshState).2).counter := by
    rw [transOf_addTransition_self _ _ _ _ (by rw [hc1]; exact hs2)]
    exact List.mem_append_right _ (List.mem_singleton.mpr rfl)
  refine ⟨hb3, ?_, hksub, htsub, ?_, ?_, ?_, ?_, ?_⟩
  · show b.counter ≤ b.counter + 2; omega
  · show ((b.freshState).2).counter ∈ _
    rw [addTransition_keys, hc1]; exact hs2
  · show b.counter ∈ _
    rw [addTransition_keys]; exact he2
  · show b.counter ≤ b.counter + 1; omega
  · exact le_refl _
  · exact Reaches.step hedge (Reaches.refl _)

theorem compileStateF_inv (acc : Nat) :
    ∀ (fuel : Nat) (pam : ParsedAstMatcher) (b : Builder),
      pamDepth pam ≤ fuel → BInv acc b →
      CSOut acc b (compileStateF acc fuel pam b) := by
  intro fuel
  induction fuel with
  | zero =>
    intro pam b hd hb
    have := pamDepth_pos pam
    omega
  | succ fuel ih =>
    intro pam b hd hb
    have hacc : acc < b.counter := bInv_acc_lt acc b hb
    cases pam with
    | token t =>
      exact csout_simple acc b (Matcher.token t.ty)
        (by intro h; cases h) (by intro op cp st0 h; cases h) hb
    | any =>
      exact csout_simple acc b Matcher.any
        (by intro h; cases h) (by intro op cp st0 h; cases h) hb
    | endMark =>
      exact csout_simple acc b Matcher.endMark
        (by intro h; cases h) (by intro op cp st0 h; cases h) hb
    | regex pat =>
      exact csout_simple acc b (Matcher.regex pat)
        (by intro h; cases h) (by intro op cp st0 h; cases h) hb
    | plus m =>
      have hdm : pamDepth m ≤ fuel := by
        simp only [pamDepth] at hd; omega
      obtain ⟨hb1, hc1, hk1, ht1, hs1, he1, hcs1, hce1, hr1⟩ := ih m b hdm hb
      rcases hsub : compileStateF acc fuel m b with ⟨b1, s, e⟩
      rw [hsub] at hb1 hc1 hk1 ht1 hs1 he1 hcs1 hce1 hr1
      simp only at hb1 hc1 hk1 ht1 hs1 he1 hcs1 hce1 hr1
      have hres : compileStateF acc (fuel + 1) (ParsedAstMatcher.plus m) b =
          (b1.addTransition e s Matcher.epsilon, s, e) := by
        rw [compileStateF, hsub]
      rw [hres]
      have hb2 : BInv acc (b1.addTransition e s Matcher.epsilon) :=
        bInv_addTransition acc b1 e s _ hb1 (by omega) hs1
          (by intro op cp st0 h; cases h) (by intro h; cases h)
      refine ⟨hb2, ?_, ?_, ?_, ?_, ?_, hcs1, hce1, ?_⟩
      · show b.counter ≤ b1.counter
        omega
      · intro k hk; rw [addTransition_keys]; exact hk1 k hk
      · intro k t ht
        exact transOf_addTransition_sub _ _ _ _ _ _ (ht1 k t ht)
      · show s ∈ _; rw [addTransition_keys]; exact hs1
      · show e ∈ _; rw [addTransition_keys]; exact he1
      · exact reaches_mono (transOf_addTransition_sub _ _ _ _) hr1
    | questionMark m =>
      have hdm : pamDepth m ≤ fuel := by
        simp only [pamDepth] at hd; omega
      obtain ⟨hb1, hc1, hk1, ht1, hs1, he1, hcs1, hce1, hr1⟩ := ih m b hdm hb
      rcases hsub : compileStateF acc fuel m b with ⟨b1, s, e⟩
      rw [hsub] at hb1 hc1 hk1 ht1 hs1 he1 hcs1 hce1 hr1
      simp only at hb1 hc1 hk1 ht1 hs1 he1 hcs1 hce1 hr1
      have hres : compileStateF acc (fuel + 1) (ParsedAstMatcher.questionMark m) b =
          (((b1.freshState).2.addTransition s b1.counter Matcher.epsilon).addTransition
             e b1.counter Matcher.epsilon, s, b1.counter) := by
        rw [compileStateF, hsub]
        rfl
      rw [hres]
      have hbf : BInv acc (b1.freshState).2 := bInv_freshState acc b1 hb1
      have hkf : stateKeys (b1.freshState).2.states =
          stateKeys b1.states ++ [b1.counter] := freshState_keys b1
      have hnew : b1.counter ∈ stateKeys (b1.freshState).2.states := by
        rw [hkf]; simp
      have hbA : BInv acc ((b1.freshState).2.addTransition s b1.counter
          Matcher.epsilon) := by
        refine bInv_addTransition acc _ _ _ _ hbf (by omega) hnew
          (by intro op cp st0 h; cases h) (by intro h; cases h)
      have hbB : BInv acc (((b1.freshState).2.addTransition s b1.counter
          Matcher.epsilon).addTransition e b1.counter Matcher.epsilon) := by
        refine bInv_addTransition acc _ _ _ _ hbA (by omega) ?_
          (by intro op cp st0 h; cases h) (by intro h; cases h)
        rw [addTransition_keys]; exact hnew
      have hsA : s ∈ stateKeys (b1.freshState).2.states := by
        rw [hkf]; exact List.mem_append_left _ hs1
      have hedge : (Matcher.epsilon, b1.counter) ∈
          transOf ((b1.freshState).2.addTransition s b1.counter
            Matcher.epsilon).states s := by
        rw [transOf_addTransition_self _ _ _ _ hsA]
        exact List.mem_append_right _ (List.mem_singleton.mpr rfl)
      refine ⟨hbB, ?_, ?_, ?_, ?_, ?_, hcs1, by
        show b.counter ≤ b1.counter; omega, ?_⟩
      · show b.counter ≤ b1.counter + 1; omega
      · intro k hk
        rw [addTransition_keys, addTransition_keys, hkf]
        exact List.mem_append_left _ (hk1 k hk)
      · intro k t ht
        exact transOf_addTransition_sub _ _ _ _ _ _
          (transOf_addTransition_sub _ _ _ _ _ _
            (transOf_freshState_sub _ _ _ (ht1 k t ht)))
      · show s ∈ _
        rw [addTransition_keys, addTransition_keys]; exact hsA
      · show b1.counter ∈ _
        rw [addTransition_keys, addTransition_keys]; exact hnew
      · exact Reaches.step
          (transOf_addTransition_sub _ _ _ _ _ _ hedge) (Reaches.refl _)
    | star m =>
      have hdm : pamDepth m ≤ fuel := by
        simp only [pamDepth] at hd; omega
      obtain ⟨hb1, hc1, hk1, ht1, hs1, he1, hcs1, hce1, hr1⟩ := ih m b hdm hb
      rcases hsub : compileStateF acc fuel m b with ⟨b1, s, e⟩
      rw [hsub] at hb1 hc1 hk1 ht1 hs1 he1 hcs1 hce1 hr1
      simp only at hb1 hc1 hk1 ht1 hs1 he1 hcs1 hce1 hr1
      have hres : compileStateF acc (fuel + 1) (ParsedAstMatcher.star m) b =
          ((((b1.freshState).2.addTransition s b1.counter Matcher.epsilon).addTransition
              e s Matcher.epsilon).addTransition e b1.counter Matcher.epsilon,
           s, b1.counter) := by
        rw [compileStateF, hsub]
        rfl
      rw [hres]
      have hbf : BInv acc (b1.freshState).2 := bInv_freshState acc b1 hb1
      have hkf : stateKeys (b1.freshState).2.states =
          stateKeys b1.states ++ [b1.counter] := freshState_keys b1
      have hnew : b1.counter ∈ stateKeys (b1.freshState).2.states := by
        rw [hkf]; simp
      have hsA : s ∈ stateKeys (b1.freshState).2.states := by
        rw [hkf]; exact List.mem_append_left _ hs1
      have hbA : BInv acc ((b1.freshState).2.addTransition s b1.counter
          Matcher.epsilon) :=
        bInv_addTransition acc _ _ _ _ hbf (by omega) hnew
          (by intro op cp st0 h; cases h) (by intro h; cases h)
      have hbB : BInv acc (((b1.freshState).2.addTransition s b1.counter
          Matcher.epsilon).addTransition e s Matcher.epsilon) := by
        refine bInv_addTransition acc _ _ _ _ hbA (by omega) ?_
          (by intro op cp st0 h; cases h) (by intro h; cases h)
        rw [addTransition_keys]; exact hsA
      have hbC : BInv acc ((((b1.freshState).2.addTransition s b1.counter
          Matcher.epsilon).addTransition e s Matcher.epsilon).addTransition
          e b1.counter Matcher.epsilon) := by
        refine bInv_addTransition acc _ _ _ _ hbB (by omega) ?_
          (by intro op cp st0 h; cases h) (by intro h; cases h)
        rw [addTransition_keys, addTransition_keys]; exact hnew
      have hedge : (Matcher.epsilon, b1.counter) ∈
          transOf ((b1.freshState).2.addTransition s b1.counter
            Matcher.epsilon).states s := by
        rw [transOf_addTransition_self _ _ _ _ hsA]
        exact List.mem_append_right _ (List.mem_singleton.mpr rfl)
      refine ⟨hbC, ?_, ?_, ?_, ?_, ?_, hcs1, by
        show b.counter ≤ b1.counter; omega, ?_⟩
      · show b.counter ≤ b1.counter + 1; omega
      · intro k hk
        rw [addTransition_keys, addTransition_keys, addTransition_keys, hkf]
        exact List.mem_append_left _ (hk1 k hk)
      · intro k t ht
        exact transOf_addTransition_sub _ _ _ _ _ _
          (transOf_addTransition_sub _ _ _ _ _ _
            (transOf_addTransition_sub _ _ _ _ _ _
              (transOf_freshState_sub _ _ _ (ht1 k t ht))))
      · show s ∈ _
        rw [addTransition_keys, addTransition_keys, addTransition_keys]; exact hsA
      · show b1.counter ∈ _
        rw [addTransition_keys, addTransition_keys, addTransition_keys]; exact hnew
      · exact Reaches.step
          (transOf_addTransition_sub _ _ _ _ _ _
            (transOf_addTransition_sub _ _ _ _ _ _ hedge)) (Reaches.refl _)
    | or ma mb =>
      have hdma : pamDepth ma ≤ fuel := by
        have h1 : pamDepth ma ≤ Nat.max (pamDepth ma) (pamDepth mb) :=
          Nat.le_max_left _ _
        simp only [pamDepth] at hd
        omega
      have hdmb : pamDepth mb ≤ fuel := by
        have h1 : pamDepth mb ≤ Nat.max (pamDepth ma) (pamDepth mb) :=
          Nat.le_max_right _ _
        simp only [pamDepth] at hd
        omega
      have hbf : BInv acc (b.freshState).2 := bInv_freshState acc b hb
      obtain ⟨hb2, hc2, hk2, ht2, hsa, hea, hcsa, hcea, hra⟩ :=
        ih ma (b.freshState).2 hdma hbf
      rcases hsubA : compileStateF acc fuel ma (b.freshState).2 with ⟨b2, sa, ea⟩
      rw [hsubA] at hb2 hc2 hk2 ht2 hsa hea hcsa hcea hra
      simp only at hb2 hc2 hk2 ht2 hsa hea hcsa hcea hra
      obtain ⟨hb3, hc3, hk3, ht3, hsb, heb, hcsb, hceb, hrb⟩ := ih mb b2 hdmb hb2
      rcases hsubB : compileStateF acc fuel mb b2 with ⟨b3, sb, eb⟩
      rw [hsubB] at hb3 hc3 hk3 ht3 hsb heb hcsb hceb hrb
      simp only at hb3 hc3 hk3 ht3 hsb heb hcsb hceb hrb
      have hres : compileStateF acc (fuel + 1) (ParsedAstMatcher.or ma mb) b =
          (((((b3.freshState).2.addTransition b.counter sa
                Matcher.epsilon).addTransition b.counter sb
                Matcher.epsilon).addTransition ea b3.counter
                Matcher.epsilon).addTransition eb b3.counter Matcher.epsilon,
           b.counter, b3.counter) := by
        rw [compileStateF]
        rw [show b.freshState = (b.counter, (b.freshState).2) from rfl]
        simp only
        rw [hsubA, hsubB]
        rfl
      rw [hres]
      have hfc : (b.freshState).2.counter = b.counter + 1 := rfl
      have hbff : BInv acc (b3.freshState).2 := bInv_freshState acc b3 hb3
      have hkff : stateKeys (b3.freshState).2.states =
          stateKeys b3.states ++ [b3.counter] := freshState_keys b3
      have hnew : b3.counter ∈ stateKeys (b3.freshState).2.states := by
        rw [hkff]; simp
      have hsc : b.counter ∈ stateKeys (b.freshState).2.states := by
        rw [freshState_keys]; simp
      have hscf : b.counter ∈ stateKeys (b3.freshState).2.states := by
        rw [hkff]; exact List.mem_append_left _ (hk3 _ (hk2 _ hsc))
      have hsaf : sa ∈ stateKeys (b3.freshState).2.states := by
        rw [hkff]; exact List.mem_append_left _ (hk3 _ hsa)
      have hsbf : sb ∈ stateKeys (b3.freshState).2.states := by
        rw [hkff]; exact List.mem_append_left _ hsb
      have heaf : ea ∈ stateKeys (b3.freshState).2.states := by
        rw [hkff]; exact List.mem_append_left _ (hk3 _ hea)
      have hebf : eb ∈ stateKeys (b3.freshState).2.states := by
        rw [hkff]; exact List.mem_append_left _ heb
      have hbA : BInv acc ((b3.freshState).2.addTransition b.counter sa
          Matcher.epsilon) :=
        bInv_addTransition acc _ _ _ _ hbff (by omega) hsaf
          (by intro op cp st0 h; cases h) (by intro h; cases h)
      have hbB : BInv acc (((b3.freshState).2.addTransition b.counter sa
          Matcher.epsilon).addTransition b.counter sb Matcher.epsilon) := by
        refine bInv_addTransition acc _ _ _ _ hbA (by omega) ?_
          (by intro op cp st0 h; cases h) (by intro h; cases h)
        rw [addTransition_keys]; exact hsbf
      have hbC : BInv acc ((((b3.freshState).2.addTransition b.counter sa
          Matcher.epsilon).addTransition b.counter sb
          Matcher.epsilon).addTransition ea b3.counter Matcher.epsilon) := by
        refine bInv_addTransition acc _ _ _ _ hbB (by omega) ?_
          (by intro op cp st0 h; cases h) (by intro h; cases h)
        rw [addTransition_keys, addTransition_keys]; exact hnew
      have hbD : BInv acc (((((b3.freshState).2.addTransition b.counter sa
          Matcher.epsilon).addTransition b.counter sb
          Matcher.epsilon).addTransition ea b3.counter
          Matcher.epsilon).addTransition eb b3.counter Matcher.epsilon) := by
        refine bInv_addTransition acc _ _ _ _ hbC (by omega) ?_
          (by intro op cp st0 h; cases h) (by intro h; cases h)
        rw [addTransition_keys, addTransition_keys, addTransition_keys]; exact hnew
      have hedge1 : (Matcher.epsilon, sa) ∈
          transOf ((b3.freshState).2.addTransition b.counter sa
            Matcher.epsilon).states b.counter := by
        rw [transOf_addTransition_self _ _ _ _ hscf]
        exact List.mem_append_right _ (List.mem_singleton.mpr rfl)
      have hedge3 : (Matcher.epsilon, b3.counter) ∈
          transOf (((((b3.freshState).2.addTransition b.counter sa
            Matcher.epsilon).addTransition b.counter sb
            Matcher.epsilon)).addTransition ea b3.counter
            Matcher.epsilon).states ea := by
        rw [transOf_addTransition_self]
        · exact List.mem_append_right _ (List.mem_singleton.mpr rfl)
        · rw [addTransition_keys, addTransition_keys]; exact heaf
      refine ⟨hbD, ?_, ?_, ?_, ?_, ?_, le_refl _, by
        show b.counter ≤ b3.counter; omega, ?_⟩
      · show b.counter ≤ b3.counter + 1; omega
      · intro k hk
        rw [addTransition_keys, addTransition_keys, addTransition_keys,
          addTransition_keys, hkff]
        refine List.mem_append_left _ (hk3 _ (hk2 _ ?_))
        rw [freshState_keys]
        exact List.mem_append_left _ hk
      · intro k t ht
        exact transOf_addTransition_sub _ _ _ _ _ _
          (transOf_addTransition_sub _ _ _ _ _ _
            (transOf_addTransition_sub _ _ _ _ _ _
              (transOf_addTransition_sub _ _ _ _ _ _
                (transOf_freshState_sub _ _ _ (ht3 k t
                  (ht2 k t (transOf_freshState_sub _ _ _ ht)))))))
      · show b.counter ∈ _
        rw [addTransition_keys, addTransition_keys, addTransition_keys,
          addTransition_keys]
        exact hscf
      · show b3.counter ∈ _
        rw [addTransition_keys, addTransition_keys, addTransition_keys,
          addTransition_keys]
        exact hnew
      · refine Reaches.step
          (transOf_addTransition_sub _ _ _ _ _ _
            (transOf_addTransition_sub _ _ _ _ _ _
              (transOf_addTransition_sub _ _ _ _ _ _ hedge1))) ?_
        refine reaches_trans ?_ (Reaches.step
          (transOf_addTransition_sub _ _ _ _ _ _ hedge3) (Reaches.refl _))
        exact reaches_mono (fun k t ht => transOf_addTransition_sub _ _ _ _ _ _
          (transOf_addTransition_sub _ _ _ _ _ _
            (transOf_addTransition_sub _ _ _ _ _ _
              (transOf_addTransition_sub _ _ _ _ _ _
                (transOf_freshState_sub _ _ _ (ht3 k t ht))))))
          hra
    | nested content =>
      cases content with
      | nil =>
        have hres : compileStateF acc (fuel + 1)
            (ParsedAstMatcher.nested []) b =
            ((b.freshState).2, b.counter, b.counter) := rfl
        rw [hres]
        have hbf : BInv acc (b.freshState).2 := bInv_freshState acc b hb
        have hnew : b.counter ∈ stateKeys (b.freshState).2.states := by
          rw [freshState_keys]; simp
        refine ⟨hbf, by rw [freshState_counter]; omega, ?_, ?_, hnew, hnew,
          le_refl _, le_refl _, Reaches.refl _⟩
        · intro k hk
          rw [freshState_keys]; exact List.mem_append_left _ hk
        · exact transOf_freshState_sub b
      | cons first rest =>
        have hdl : ∀ f ∈ first :: rest, pamDepth f ≤ fuel := by
          intro f hf
          simp only [pamDepth] at hd
          have := pamDepth_le_list hf
          omega
        obtain ⟨hb1, hc1, hk1, ht1, hs1, he1, hcs1, hce1, hr1⟩ :=
          ih first b (hdl first (List.mem_cons_self _ _)) hb
        rcases hsubF : compileStateF acc fuel first b with ⟨b1, s, e⟩
        rw [hsubF] at hb1 hc1 hk1 ht1 hs1 he1 hcs1 hce1 hr1
        simp only at hb1 hc1 hk1 ht1 hs1 he1 hcs1 hce1 hr1
        have hres : compileStateF acc (fuel + 1)
            (ParsedAstMatcher.nested (first :: rest)) b =
            linkRest (compileStateF acc fuel) rest b1 s e := by
          rw [compileStateF]
          unfold linkList
          rw [hsubF]
        rw [hres]
        obtain ⟨rb, rc, rk, rt, rs, rne, rce, rr⟩ :=
          linkRest_inv acc (compileStateF acc fuel)
            (fun pam => pamDepth pam ≤ fuel)
            (fun pam b hp hbv => ih pam b hp hbv)
            b.counter hacc rest b1 s e
            (fun f hf => hdl f (List.mem_cons_of_mem _ hf))
            hb1 hs1 he1 hc1 hce1 hr1
        refine ⟨rb, by omega, ?_, ?_, ?_, rne, ?_, rce, ?_⟩
        · intro k hk; exact rk k (hk1 k hk)
        · intro k t ht; exact rt k t (ht1 k t ht)
        · rw [rs]; exact rk _ hs1
        · rw [rs]; exact hcs1
        · rw [rs]; exact rr
    | delimited op cp content =>
      cases content with
      | nil =>
        have hres : compileStateF acc (fuel + 1)
            (ParsedAstMatcher.delimited op cp []) b =
            (((b.freshState).2.freshState).2.addTransition
               ((b.freshState).2).counter b.counter
               (Matcher.delimited op.ty (cp.map (·.ty)) acc),
             ((b.freshState).2).counter, b.counter) := rfl
        rw [hres]
        have hbf : BInv acc (b.freshState).2 := bInv_freshState acc b hb
        have hb2 : BInv acc ((b.freshState).2.freshState).2 :=
          bInv_freshState acc _ hbf
        have hc1 : ((b.freshState).2).counter = b.counter + 1 := rfl
        have hkeys2 : stateKeys (((b.freshState).2).freshState).2.states =
            (stateKeys b.states ++ [b.counter]) ++ [b.counter + 1] := by
          rw [freshState_keys, freshState_keys, hc1]
        have he2 : b.counter ∈ stateKeys (((b.freshState).2).freshState).2.states := by
          rw [hkeys2]; simp
        have hs2 : b.counter + 1 ∈
            stateKeys (((b.freshState).2).freshState).2.states := by
          rw [hkeys2]; simp
        have haccm : acc ∈ stateKeys (((b.freshState).2).freshState).2.states :=
          hb2.2.2.1
        have hb3 : BInv acc ((((b.freshState).2).freshState).2.addTransition
            ((b.freshState).2).counter b.counter
            (Matcher.delimited op.ty (cp.map (·.ty)) acc)) := by
          refine bInv_addTransition acc _ _ _ _ hb2 (by omega) he2 ?_
            (by intro h; cases h)
          intro op2 cp2 st0 h
          cases h
          exact haccm
        have hedge : (Matcher.delimited op.ty (cp.map (·.ty)) acc, b.counter) ∈
            transOf ((((b.freshState).2).freshState).2.addTransition
              ((b.freshState).2).counter b.counter
              (Matcher.delimited op.ty (cp.map (·.ty)) acc)).states
              ((b.freshState).2).counter := by
          rw [transOf_addTransition_self _ _ _ _ (by rw [hc1]; exact hs2)]
          exact List.mem_append_right _ (List.mem_singleton.mpr rfl)
        refine ⟨hb3, ?_, ?_, ?_, ?_, ?_, ?_, le_refl _, ?_⟩
        · show b.counter ≤ b.counter + 2; omega
        · intro k hk
          rw [addTransition_keys, hkeys2]
          exact List.mem_append_left _ (List.mem_append_left _ hk)
        · intro k t ht
          exact transOf_addTransition_sub _ _ _ _ _ _
            (transOf_freshState_sub _ _ _ (transOf_freshState_sub _ _ _ ht))
        · show ((b.freshState).2).counter ∈ _
          rw [addTransition_keys, hc1]; exact hs2
        · show b.counter ∈ _
          rw [addTransition_keys]; exact he2
        · show b.counter ≤ b.counter + 1; omega
        · exact Reaches.step hedge (Reaches.refl _)
      | cons first rest =>
        have hdl : ∀ f ∈ first :: rest, pamDepth f ≤ fuel := by
          intro f hf
          simp only [pamDepth] at hd
          have := pamDepth_le_list hf
          omega
        obtain ⟨hb1, hc1, hk1, ht1, hs1, he1, hcs1, hce1, hr1⟩ :=
          ih first b (hdl first (List.mem_cons_self _ _)) hb
        rcases hsubF : compileStateF acc fuel first b with ⟨b1, s0, e0⟩
        rw [hsubF] at hb1 hc1 hk1 ht1 hs1 he1 hcs1 hce1 hr1
        simp only at hb1 hc1 hk1 ht1 hs1 he1 hcs1 hce1 hr1
        obtain ⟨rb, rc, rk, rt, rs, rne, rce, rr⟩ :=
          linkRest_inv acc (compileStateF acc fuel)
            (fun pam => pamDepth pam ≤ fuel)
            (fun pam b hp hbv => ih pam b hp hbv)
            b.counter hacc rest b1 s0 e0
            (fun f hf => hdl f (List.mem_cons_of_mem _ hf))
            hb1 hs1 he1 hc1 hce1 hr1
        rcases hsubL : linkRest (compileStateF acc fuel) rest b1 s0 e0
          with ⟨bl, sl, el⟩
        rw [hsubL] at rb rc rk rt rs rne rce rr
        simp only at rb rc rk rt rs rne rce rr
        have hbl1 : BInv acc (bl.addTransition el acc Matcher.epsilon) :=
          bInv_addTransition acc bl el acc _ rb (by omega) rb.2.2.1
            (by intro op2 cp2 st0 h; cases h) (by intro h; cases h)
        have hres : compileStateF acc (fuel + 1)
            (ParsedAstMatcher.delimited op cp (first :: rest)) b =
            ((((bl.addTransition el acc
                 Matcher.epsilon).freshState).2.freshState).2.addTransition
               ((bl.addTransition el acc Matcher.epsilon).freshState).2.counter
               (bl.addTransition el acc Matcher.epsilon).counter
               (Matcher.delimited op.ty (cp.map (·.ty)) sl),
             ((bl.addTransition el acc Matcher.epsilon).freshState).2.counter,
             (bl.addTransition el acc Matcher.epsilon).counter) := by
          rw [compileStateF]
          unfold linkList
          rw [hsubF]
          simp only
          rw [hsubL]
          rfl
        rw [hres]
        set bA := bl.addTransition el acc Matcher.epsilon with hbA
        have hcA : bA.counter = bl.counter := rfl
        have hbf : BInv acc (bA.freshState).2 := bInv_freshState acc bA hbl1
        have hb2 : BInv acc ((bA.freshState).2.freshState).2 :=
          bInv_freshState acc _ hbf
        have hcf : ((bA.freshState).2).counter = bA.counter + 1 := rfl
        have hkeys2 : stateKeys (((bA.freshState).2).freshState).2.states =
            (stateKeys bA.states ++ [bA.counter]) ++ [bA.counter + 1] := by
          rw [freshState_keys, freshState_keys, hcf]
        have he2 : bA.counter ∈ stateKeys (((bA.freshState).2).freshState).2.states := by
          rw [hkeys2]; simp
        have hs2 : bA.counter + 1 ∈
            stateKeys (((bA.freshState).2).freshState).2.states := by
          rw [hkeys2]; simp
        have hs0m : sl ∈ stateKeys (((bA.freshState).2).freshState).2.states := by
          rw [hkeys2]
          refine List.mem_append_left _ (List.mem_append_left _ ?_)
          rw [hbA, addTransition_keys]
          rw [rs]
          exact rk _ hs1
        have hb3 : BInv acc ((((bA.freshState).2).freshState).2.addTransition
            ((bA.freshState).2).counter bA.counter
            (Matcher.delimited op.ty (cp.map (·.ty)) sl)) := by
          refine bInv_addTransition acc _ _ _ _ hb2 (by omega) he2 ?_
            (by intro h; cases h)
          intro op2 cp2 st0 h
          cases h
          exact hs0m
        have hedge : (Matcher.delimited op.ty (cp.map (·.ty)) sl, bA.counter) ∈
            transOf ((((bA.freshState).2).freshState).2.addTransition
              ((bA.freshState).2).counter bA.counter
              (Matcher.delimited op.ty (cp.map (·.ty)) sl)).states
              ((bA.freshState).2).counter := by
          rw [transOf_addTransition_self _ _ _ _ (by rw [hcf]; exact hs2)]
          exact List.mem_append_right _ (List.mem_singleton.mpr rfl)
        refine ⟨hb3, ?_, ?_, ?_, ?_, ?_, ?_, ?_, ?_⟩
        · show b.counter ≤ bA.counter + 2
          have : bA.counter = bl.counter := rfl
          omega
        · intro k hk
          rw [addTransition_keys, hkeys2]
          refine List.mem_append_left _ (List.mem_append_left _ ?_)
          rw [hbA, addTransition_keys]
          exact rk k (hk1 k hk)
        · intro k t ht
          refine transOf_addTransition_sub _ _ _ _ _ _
            (transOf_freshState_sub _ _ _ (transOf_freshState_sub _ _ _ ?_))
          rw [hbA]
          exact transOf_addTransition_sub _ _ _ _ _ _ (rt k t (ht1 k t ht))
        · show ((bA.freshState).2).counter ∈ _
          rw [addTransition_keys, hcf]
          exact hs2
        · show bA.counter ∈ _
          rw [addTransition_keys]
          exact he2
        · show b.counter ≤ bA.counter + 1
          rw [hcA]; omega
        · show b.counter ≤ bA.counter
          rw [hcA]; omega
        · exact Reaches.step hedge (Reaches.refl _)

theorem bInv_new (acc c0 : Nat) (h : acc < c0) : BInv acc (Builder.new acc c0) := by
  refine ⟨?_, ?_, ?_, ?_, ?_, ?_⟩
  · intro k hk
    simp only [Builder.new, stateKeys, List.map_cons, List.map_nil,
      List.mem_singleton] at hk
    show k < c0
    omega
  · intro p hp t ht
    simp only [Builder.new, List.mem_singleton] at hp
    subst hp
    simp only [List.mem_singleton] at ht
    subst ht
    refine ⟨by simp [stateKeys, Builder.new], ?_⟩
    intro op cp st0 hdl
    cases hdl
  · simp [Builder.new, stateKeys]
  · simp [Builder.new, transOf, getSt]
  · intro p hp t ht hacc
    simp only [Builder.new, List.mem_singleton] at hp
    subst hp
    simp only [List.mem_singleton] at ht
    subst ht
    rfl
  · simp [Builder.new, stateKeys]

theorem parseQueryAstM_inv (acc : Nat) (q : List ParsedAstMatcher) (b : Builder)
    (hb : BInv acc b) : CSOut acc b (parseQueryAstM acc q b) := by
  cases q with
  | nil =>
    have hres : parseQueryAstM acc [] b = ((b.freshState).2, b.counter, b.counter) := rfl
    rw [hres]
    have hbf : BInv acc (b.freshState).2 := bInv_freshState acc b hb
    have hnew : b.counter ∈ stateKeys (b.freshState).2.states := by
      rw [freshState_keys]; simp
    refine ⟨hbf, by rw [freshState_counter]; omega, ?_, ?_, hnew, hnew,
      le_refl _, le_refl _, Reaches.refl _⟩
    · intro k hk
      rw [freshState_keys]; exact List.mem_append_left _ hk
    · exact transOf_freshState_sub b
  | cons first rest =>
    have hacc : acc < b.counter := bInv_acc_lt acc b hb
    have hdl : ∀ f ∈ first :: rest,
        pamDepth f ≤ pamListDepth (first :: rest) := by
      intro f hf
      exact pamDepth_le_list hf
    obtain ⟨hb1, hc1, hk1, ht1, hs1, he1, hcs1, hce1, hr1⟩ :=
      compileStateF_inv acc (pamListDepth (first :: rest)) first b
        (hdl first (List.mem_cons_self _ _)) hb
    rcases hsubF : compileStateF acc (pamListDepth (first :: rest)) first b
      with ⟨b1, s, e⟩
    rw [hsubF] at hb1 hc1 hk1 ht1 hs1 he1 hcs1 hce1 hr1
    simp only at hb1 hc1 hk1 ht1 hs1 he1 hcs1 hce1 hr1
    have hres : parseQueryAstM acc (first :: rest) b =
        linkRest (compileStateF acc (pamListDepth (first :: rest))) rest
          (compileStateF acc (pamListDepth (first :: rest)) first b).1
          (compileStateF acc (pamListDepth (first :: rest)) first b).2.1
          (compileStateF acc (pamListDepth (first :: rest)) first b).2.2 := rfl
    rw [hsubF] at hres
    simp only at hres
    rw [hres]
    obtain ⟨rb, rc, rk, rt, rs, rne, rce, rr⟩ :=
      linkRest_inv acc (compileStateF acc (pamListDepth (first :: rest)))
        (fun pam => pamDepth pam ≤ pamListDepth (first :: rest))
        (fun pam b' hp hbv => compileStateF_inv acc _ pam b' hp hbv)
        b.counter hacc rest b1 s e
        (fun f hf => hdl f (List.mem_cons_of_mem _ hf))
        hb1 hs1 he1 hc1 hce1 hr1
    refine ⟨rb, by omega, ?_, ?_, ?_, rne, ?_, rce, ?_⟩
    · intro k hk; exact rk k (hk1 k hk)
    · intro k t ht; exact rt k t (ht1 k t ht)
    · rw [rs]; exact rk _ hs1
    · rw [rs]; exact hcs1
    · rw [rs]; exact rr

theorem compileRaw_minv (q : List ParsedAstMatcher) (acc c0 : Nat)
    (h : acc < c0) : MInv acc (compileRaw q acc c0) := by
  have hb0 : BInv acc (Builder.new acc c0) := bInv_new acc c0 h
  obtain ⟨hb1, hc1, hk1, ht1, hs1, he1, hcs1, hce1, hr1⟩ :=
    parseQueryAstM_inv acc q (Builder.new acc c0) hb0
  rcases hsub : parseQueryAstM acc q (Builder.new acc c0) with ⟨b, s, e⟩
  rw [hsub] at hb1 hc1 hk1 ht1 hs1 he1 hcs1 hce1 hr1
  simp only at hb1 hc1 hk1 ht1 hs1 he1 hcs1 hce1 hr1
  have hacc : acc < b.counter := bInv_acc_lt acc b hb1
  have hres : compileRaw q acc c0 =
      ⟨(parseQueryAstM acc q (Builder.new acc c0)).2.1,
       ((parseQueryAstM acc q (Builder.new acc c0)).1.addTransition
         (parseQueryAstM acc q (Builder.new acc c0)).2.2 acc
         Matcher.epsilon).states⟩ := rfl
  rw [hsub] at hres
  simp only at hres
  rw [hres]
  have hbA : BInv acc (b.addTransition e acc Matcher.epsilon) := by
    have hc0 : (Builder.new acc c0).counter = c0 := rfl
    refine bInv_addTransition acc b e acc _ hb1 (by omega) hb1.2.2.1
      (by intro op cp st0 hdl; cases hdl) (by intro hdl; cases hdl)
  obtain ⟨blt, brc, bmem, btr, bae, bnd⟩ := hbA
  have hedge : (Matcher.epsilon, acc) ∈
      transOf (b.addTransition e acc Matcher.epsilon).states e := by
    rw [transOf_addTransition_self _ _ _ _ he1]
    exact List.mem_append_right _ (List.mem_singleton.mpr rfl)
  refine ⟨brc, ?_, bmem, btr, bae, ?_, bnd⟩
  · show s ∈ _
    rw [addTransition_keys]; exact hs1
  · show Reaches _ s acc
    refine reaches_trans (reaches_mono (transOf_addTransition_sub _ _ _ _) hr1) ?_
    exact Reaches.step hedge (Reaches.refl _)

theorem dedup_mem (t : Matcher × Nat) :
    ∀ (l seen : List (Matcher × Nat)),
      t ∈ dedupTransGo l seen ↔ (t ∈ l ∧ t ∉ seen) := by
  intro l
  induction l with
  | nil => intro seen; simp [dedupTransGo]
  | cons x rest ih =>
    intro seen
    unfold dedupTransGo
    by_cases hx : x ∈ seen
    · rw [if_pos hx, ih]
      constructor
      · rintro ⟨h1, h2⟩
        exact ⟨List.mem_cons_of_mem _ h1, h2⟩
      · rintro ⟨h1, h2⟩
        rcases List.mem_cons.mp h1 with h | h
        · subst h; exact absurd hx h2
        · exact ⟨h, h2⟩
    · rw [if_neg hx]
      by_cases ht : t = x
      · subst ht
        constructor
        · intro _
          exact ⟨List.mem_cons_self _ _, hx⟩
        · intro _
          exact List.mem_cons_self _ _
      · constructor
        · intro h
          rcases List.mem_cons.mp h with h | h
          · exact absurd h ht
          · obtain ⟨h1, h2⟩ := (ih _).mp h
            refine ⟨List.mem_cons_of_mem _ h1, fun hc => h2 (List.mem_cons_of_mem _ hc)⟩
        · rintro ⟨h1, h2⟩
          rcases List.mem_cons.mp h1 with h | h
          · exact absurd h ht
          · refine List.mem_cons_of_mem _ ((ih _).mpr ⟨h, ?_⟩)
            intro hc
            rcases List.mem_cons.mp hc with h3 | h3
            · exact ht h3
            · exact h2 h3

theorem stateKeys_pass4 (sts : List (Nat × State)) :
    stateKeys (pass4 sts) = stateKeys sts := by
  simp only [pass4, stateKeys, List.map_map]
  congr 1

theorem transOf_pass4 (sts : List (Nat × State)) (k : Nat) :
    transOf (pass4 sts) k = dedupTransGo (transOf sts k) [] := by
  unfold transOf pass4
  rw [getSt_map_keep (fun p => by rcases p with ⟨a, st⟩; rfl)]
  rcases h : getSt sts k with _ | st
  · rfl
  · rfl

theorem minv_pass4 (acc : Nat) (m : Machine) (h : MInv acc m) :
    MInv acc ⟨m.initial, pass4 m.states⟩ := by
  obtain ⟨hrc, hin, hacc, htr, hae, hre, hnd⟩ := h
  refine ⟨?_, ?_, ?_, ?_, ?_, ?_, ?_⟩
  · intro p hp t ht
    simp only [pass4, List.mem_map] at hp
    obtain ⟨⟨k, st⟩, hq, hpq⟩ := hp
    subst hpq
    simp only at ht
    obtain ⟨h1, _⟩ := (dedup_mem t st.transitions []).mp ht
    obtain ⟨h2, h3⟩ := hrc ⟨k, st⟩ hq t h1
    rw [stateKeys_pass4]
    exact ⟨h2, h3⟩
  · show m.initial ∈ _
    rw [stateKeys_pass4]; exact hin
  · show acc ∈ _
    rw [stateKeys_pass4]; exact hacc
  · show transOf (pass4 m.states) acc = _
    rw [transOf_pass4, htr]
    rfl
  · intro p hp t ht htacc
    simp only [pass4, List.mem_map] at hp
    obtain ⟨⟨k, st⟩, hq, hpq⟩ := hp
    subst hpq
    simp only at ht
    obtain ⟨h1, _⟩ := (dedup_mem t st.transitions []).mp ht
    exact hae ⟨k, st⟩ hq t h1 htacc
  · show Reaches _ m.initial acc
    refine reaches_mono ?_ hre
    intro k t ht
    rw [transOf_pass4]
    exact (dedup_mem t _ []).mpr ⟨ht, by simp⟩
  · show (stateKeys (pass4 m.states)).Nodup
    rw [stateKeys_pass4]; exact hnd

theorem mem_insertSorted (x y : Nat) :
    ∀ (l : List Nat), y ∈ insertSorted x l ↔ (y = x ∨ y ∈ l) := by
  intro l
  induction l with
  | nil => simp [insertSorted]
  | cons a rest ih =>
    unfold insertSorted
    split
    · simp
    · simp only [List.mem_cons, ih]
      tauto

theorem mem_sortNat (y : Nat) : ∀ (l : List Nat), y ∈ sortNat l ↔ y ∈ l := by
  intro l
  induction l with
  | nil => simp [sortNat]
  | cons a rest ih =>
    unfold sortNat
    rw [mem_insertSorted, ih]
    simp

theorem mem_machineIds (y : Nat) (sts : List (Nat × State)) :
    y ∈ machineIds sts ↔ y ∈ stateKeys sts := by
  unfold machineIds
  rw [mem_sortNat]
  rfl

theorem mergeInner_ok (sts : List (Nat × State)) (acc i : Nat)
    (hi : i ∈ stateKeys sts) :
    ∀ (js : List Nat) (remap : List (Nat × Nat)),
      RemapOk sts acc remap →
      RemapOk sts acc (mergeInner sts acc i js remap) := by
  intro js
  induction js with
  | nil => intro remap h; exact h
  | cons j rest ih =>
    intro remap h
    unfold mergeInner
    split
    · exact ih remap h
    · split
      · refine ih _ ?_
        intro p hp
        rcases List.mem_append.mp hp with h1 | h1
        · exact h p h1
        · simp only [List.mem_singleton] at h1
          subst h1
          rename_i hguard hset
          refine ⟨?_, hi, hset⟩
          intro hj
          simp only [Bool.or_eq_true, decide_eq_true_eq] at hguard
          exact hguard (Or.inl hj)
      · exact ih remap h

theorem mergeOuter_ok (sts : List (Nat × State)) (acc : Nat) :
    ∀ (is : List Nat) (remap : List (Nat × Nat)),
      (∀ i ∈ is, i ∈ stateKeys sts) →
      RemapOk sts acc remap →
      RemapOk sts acc (mergeOuter sts acc is remap) := by
  intro is
  induction is with
  | nil => intro remap _ h; exact h
  | cons i rest ih =>
    intro remap his h
    unfold mergeOuter
    split
    · exact ih remap (fun x hx => his x (List.mem_cons_of_mem _ hx)) h
    · refine ih _ (fun x hx => his x (List.mem_cons_of_mem _ hx)) ?_
      exact mergeInner_ok sts acc i (his i (List.mem_cons_self _ _)) rest remap h

theorem applyRemap_of_nokey (remap : List (Nat × Nat)) (t : Nat)
    (h : ∀ p ∈ remap, p.1 ≠ t) : applyRemap remap t = t := by
  unfold applyRemap
  have hn : remap.find? (fun p => p.1 = t) = none := by
    rw [List.find?_eq_none]
    intro p hp
    simp only [decide_eq_true_eq]
    exact h p hp
  rw [hn]
  rfl

theorem applyRemap_cases (remap : List (Nat × Nat)) (t : Nat) :
    applyRemap remap t = t ∨ (t, applyRemap remap t) ∈ remap := by
  unfold applyRemap
  rcases h : remap.find? (fun p => p.1 = t) with _ | p
  · left; rw [h]; rfl
  · right
    rw [h]
    simp only [Option.map_some', Option.getD_some]
    have hmem := List.mem_of_find?_eq_some h
    have hpr := List.find?_some h
    simp only [decide_eq_true_eq] at hpr
    rw [← hpr]
    exact hmem

theorem stateKeys_applyRemapSts (remap : List (Nat × Nat))
    (sts : List (Nat × State)) :
    stateKeys (applyRemapSts remap sts) = stateKeys sts := by
  simp only [applyRemapSts, stateKeys, List.map_map]
  congr 1

theorem applyRemapSts_eq (remap : List (Nat × Nat)) (sts : List (Nat × State)) :
    applyRemapSts remap sts = sts.map (fun p =>
      (p.1, ⟨p.2.id, p.2.transitions.map (fun t =>
        (remapMatcher remap t.1, applyRemap remap t.2))⟩)) := by
  unfold applyRemapSts
  congr 1
  funext p
  rcases p with ⟨k, st⟩
  dsimp only
  congr 1
  congr 1
  refine congrArg (fun f => List.map f st.transitions) (funext ?_)
  intro t
  rcases t with ⟨m, b⟩
  cases m <;> rfl

theorem transOf_applyRemapSts (remap : List (Nat × Nat))
    (sts : List (Nat × State)) (k : Nat) :
    transOf (applyRemapSts remap sts) k =
      (transOf sts k).map (fun t =>
        (remapMatcher remap t.1, applyRemap remap t.2)) := by
  rw [applyRemapSts_eq]
  unfold transOf
  rw [getSt_map_keep (fun p => by rcases p with ⟨a, st⟩; rfl)]
  rcases h : getSt sts k with _ | st <;>
    simp only [h, Option.map_none', Option.map_some', Option.getD_none,
      Option.getD_some] <;> rfl

theorem transSetEq_mem {a b : List (Matcher × Nat)} (h : transSetEq a b = true) :
    (∀ t ∈ a, t ∈ b) ∧ (∀ t ∈ b, t ∈ a) := by
  unfold transSetEq at h
  simp only [Bool.and_eq_true, List.all_eq_true, decide_eq_true_eq] at h
  exact h

theorem pass5_sim (sts : List (Nat × State)) (acc : Nat)
    (remap : List (Nat × Nat)) (hok : RemapOk sts acc remap) :
    ∀ {x y : Nat}, Reaches sts x y →
      Reaches (applyRemapSts remap sts) (applyRemap remap x)
        (applyRemap remap y) := by
  intro x y hr
  induction hr with
  | refl a => exact Reaches.refl _
  | step he hr ih =>
    rename_i a b c m
    have hmem : (m, b) ∈ transOf sts (applyRemap remap a) := by
      rcases applyRemap_cases remap a with hc | hc
      · rwa [hc]
      · obtain ⟨_, _, hset⟩ := hok _ hc
        exact (transSetEq_mem hset).2 _ he
    have hmm : (remapMatcher remap m, applyRemap remap b) ∈
        transOf (applyRemapSts remap sts) (applyRemap remap a) := by
      rw [transOf_applyRemapSts]
      exact List.mem_map.mpr ⟨(m, b), hmem, rfl⟩
    exact Reaches.step hmm ih

theorem minv_pass5 (acc : Nat) (m : Machine) (h : MInv acc m) :
    MInv acc (pass5 acc m) := by
  obtain ⟨hrc, hin, hacc, htr, hae, hre, hnd⟩ := h
  have hok : RemapOk m.states acc
      (mergeOuter m.states acc (machineIds m.states) []) := by
    refine mergeOuter_ok m.states acc (machineIds m.states) [] ?_ ?_
    · intro i hi
      exact (mem_machineIds i m.states).mp hi
    · intro p hp
      simp at hp
  set remap := mergeOuter m.states acc (machineIds m.states) [] with hremap
  have haccfix : applyRemap remap acc = acc := by
    refine applyRemap_of_nokey remap acc ?_
    intro p hp
    exact (hok p hp).1
  have himg : ∀ t, t ∈ stateKeys m.states →
      applyRemap remap t ∈ stateKeys m.states := by
    intro t ht
    rcases applyRemap_cases remap t with hc | hc
    · rwa [hc]
    · exact (hok _ hc).2.1
  have hres : pass5 acc m =
      ⟨applyRemap remap m.initial, applyRemapSts remap m.states⟩ := rfl
  rw [hres]
  refine ⟨?_, ?_, ?_, ?_, ?_, ?_, ?_⟩
  · intro p hp t ht
    rw [applyRemapSts_eq] at hp
    simp only [List.mem_map] at hp
    obtain ⟨⟨k, st⟩, hq, hpq⟩ := hp
    subst hpq
    simp only [List.mem_map] at ht
    obtain ⟨t0, ht0, hte⟩ := ht
    obtain ⟨h2, h3⟩ := hrc ⟨k, st⟩ hq t0 ht0
    rw [stateKeys_applyRemapSts]
    constructor
    · rw [← hte]
      exact himg _ h2
    · intro op cp st0 hdl
      rw [← hte] at hdl
      simp only at hdl
      rcases t0 with ⟨m0, b0⟩
      cases m0 with
      | delimited op2 cp2 s2 =>
        simp only [remapMatcher] at hdl
        obtain ⟨he1, he2, he3⟩ := Matcher.delimited.inj hdl
        subst he3
        exact himg _ (h3 op2 cp2 s2 rfl)
      | token ty => simp [remapMatcher] at hdl
      | any => simp [remapMatcher] at hdl
      | endMark => simp [remapMatcher] at hdl
      | regex pat => simp [remapMatcher] at hdl
      | epsilon => simp [remapMatcher] at hdl
      | accept => simp [remapMatcher] at hdl
  · show applyRemap remap m.initial ∈ _
    rw [stateKeys_applyRemapSts]
    exact himg _ hin
  · show acc ∈ _
    rw [stateKeys_applyRemapSts]
    exact hacc
  · show transOf (applyRemapSts remap m.states) acc = _
    rw [transOf_applyRemapSts, htr]
    simp [haccfix, remapMatcher]
  · intro p hp t ht htacc
    rw [applyRemapSts_eq] at hp
    simp only [List.mem_map] at hp
    obtain ⟨⟨k, st⟩, hq, hpq⟩ := hp
    subst hpq
    simp only [List.mem_map] at ht
    obtain ⟨t0, ht0, hte⟩ := ht
    rw [← hte] at htacc ⊢
    simp only at htacc ⊢
    rcases t0 with ⟨m0, b0⟩
    cases m0 with
    | accept =>
      have := hae ⟨k, st⟩ hq (Matcher.accept, b0) ht0 rfl
      simp only at this
      rw [this, haccfix]
    | delimited op2 cp2 s2 => simp [remapMatcher] at htacc
    | token ty => simp [remapMatcher] at htacc
    | any => simp [remapMatcher] at htacc
    | endMark => simp [remapMatcher] at htacc
    | regex pat => simp [remapMatcher] at htacc
    | epsilon => simp [remapMatcher] at htacc
  · show Reaches _ (applyRemap remap m.initial) acc
    have := pass5_sim m.states acc remap hok hre
    rwa [haccfix] at this
  · show (stateKeys (applyRemapSts remap m.states)).Nodup
    rw [stateKeys_applyRemapSts]
    exact hnd

theorem getSt_mem {sts : List (Nat × State)} {id : Nat} {st : State}
    (h : getSt sts id = some st) : (id, st) ∈ sts := by
  unfold getSt at h
  rcases hf : sts.find? (fun p => p.1 = id) with _ | p
  · rw [hf] at h; cases h
  · rw [hf] at h
    simp only [Option.map_some', Option.some.injEq] at h
    have hmem := List.mem_of_find?_eq_some hf
    have hpr := List.find?_some hf
    simp only [decide_eq_true_eq] at hpr
    rcases p with ⟨k, st'⟩
    simp only at hpr h
    subst hpr
    subst h
    exact hmem

theorem reaches_inv {sts : List (Nat × State)} {a c : Nat}
    (h : Reaches sts a c) (hne : a ≠ c) :
    ∃ mt b, (mt, b) ∈ transOf sts a ∧ Reaches sts b c := by
  cases h with
  | refl => exact absurd rfl hne
  | step he hr => exact ⟨_, _, he, hr⟩

theorem pass1_eq (acc : Nat) (ids : List Nat) (sts0 : List (Nat × State)) :
    pass1 acc ids sts0 = ids.foldl (pass1Step acc) sts0 := rfl

theorem pass1Step_states_eq (acc id : Nat) (sts : List (Nat × State))
    (stid : Nat) (newId : Nat)
    (hne : ¬ id = acc)
    (hget : getSt sts id = some ⟨stid, [(Matcher.epsilon, newId)]⟩) :
    pass1Step acc sts id = sts.map (fun p =>
      (p.1, ⟨p.2.id, p.2.transitions.map (redirectEdge id newId)⟩)) := by
  unfold pass1Step
  rw [if_neg hne, hget]
  dsimp only
  refine congrArg (fun f => List.map f sts) (funext ?_)
  intro p
  rcases p with ⟨k, st⟩
  dsimp only
  congr 2

theorem transOf_redirect (id newId : Nat) (sts : List (Nat × State)) (k : Nat) :
    transOf (sts.map (fun p =>
      (p.1, ⟨p.2.id, p.2.transitions.map (redirectEdge id newId)⟩))) k =
    (transOf sts k).map (redirectEdge id newId) := by
  unfold transOf
  rw [getSt_map_keep (fun p => by rcases p with ⟨a, st⟩; rfl)]
  rcases h : getSt sts k with _ | st <;>
    simp only [h, Option.map_none', Option.map_some', Option.getD_none,
      Option.getD_some]
  rfl

theorem stateKeys_redirect (id newId : Nat) (sts : List (Nat × State)) :
    stateKeys (sts.map (fun p =>
      (p.1, ⟨p.2.id, p.2.transitions.map (redirectEdge id newId)⟩))) =
    stateKeys sts := by
  simp only [stateKeys, List.map_map]
  congr 1

theorem pass1_reach (sts : List (Nat × State)) (id newId acc0 : Nat)
    (hne : ¬ id = acc0)
    (htid : transOf sts id = [(Matcher.epsilon, newId)]) :
    ∀ x y, Reaches sts x y → y = acc0 →
      Reaches (sts.map (fun p =>
        (p.1, ⟨p.2.id, p.2.transitions.map (redirectEdge id newId)⟩))) x acc0 := by
  intro x y h
  induction h with
  | refl a =>
    intro hy
    subst hy
    exact Reaches.refl _
  | step he hr ih =>
    rename_i a b c mt
    intro hy
    subst hy
    have ihb := ih rfl
    by_cases hb : b = id
    · have hedge : (mt, newId) ∈ transOf (sts.map (fun p =>
          (p.1, ⟨p.2.id, p.2.transitions.map (redirectEdge id newId)⟩))) a := by
        rw [transOf_redirect]
        refine List.mem_map.mpr ⟨(mt, b), he, ?_⟩
        unfold redirectEdge
        simp [hb]
      have htid2 : transOf (sts.map (fun p =>
          (p.1, ⟨p.2.id, p.2.transitions.map (redirectEdge id newId)⟩))) id =
          [(Matcher.epsilon, newId)] := by
        rw [transOf_redirect, htid]
        simp only [List.map_cons, List.map_nil]
        congr 1
        unfold redirectEdge
        by_cases hni : newId = id <;> simp [hni]
      have ihb2 : Reaches (sts.map (fun p =>
          (p.1, ⟨p.2.id, p.2.transitions.map (redirectEdge id newId)⟩))) id c := by
        rw [hb] at ihb; exact ihb
      obtain ⟨mt2, b2, hb2, hr2⟩ := reaches_inv ihb2 hne
      rw [htid2] at hb2
      simp only [List.mem_singleton, Prod.mk.injEq] at hb2
      rw [hb2.2] at hr2
      exact Reaches.step hedge hr2
    · have hedge2 : (mt, b) ∈ transOf (sts.map (fun p =>
          (p.1, ⟨p.2.id, p.2.transitions.map (redirectEdge id newId)⟩))) a := by
        rw [transOf_redirect]
        refine List.mem_map.mpr ⟨(mt, b), he, ?_⟩
        unfold redirectEdge
        simp [hb]
      exact Reaches.step hedge2 ihb

theorem pass1Step_minv (acc initial : Nat) (sts : List (Nat × State)) (id : Nat)
    (h : MInv acc ⟨initial, sts⟩) : MInv acc ⟨initial, pass1Step acc sts id⟩ := by
  obtain ⟨hrc, hin, hacc, htr, hae, hre, hnd⟩ := h
  simp only at hrc hin hacc htr hae hre hnd
  by_cases hne : id = acc
  · unfold pass1Step
    rw [if_pos hne]
    exact ⟨hrc, hin, hacc, htr, hae, hre, hnd⟩
  · rcases hget : getSt sts id with _ | st
    · unfold pass1Step
      rw [if_neg hne, hget]
      exact ⟨hrc, hin, hacc, htr, hae, hre, hnd⟩
    · rcases st with ⟨stid, trans⟩
      match trans, hget with
      | [], hget =>
        unfold pass1Step
        rw [if_neg hne, hget]
        exact ⟨hrc, hin, hacc, htr, hae, hre, hnd⟩
      | (Matcher.token ty, t) :: rest, hget =>
        unfold pass1Step
        rw [if_neg hne, hget]
        exact ⟨hrc, hin, hacc, htr, hae, hre, hnd⟩
      | (Matcher.delimited o c s, t) :: rest, hget =>
        unfold pass1Step
        rw [if_neg hne, hget]
        exact ⟨hrc, hin, hacc, htr, hae, hre, hnd⟩
      | (Matcher.any, t) :: rest, hget =>
        unfold pass1Step
        rw [if_neg hne, hget]
        exact ⟨hrc, hin, hacc, htr, hae, hre, hnd⟩
      | (Matcher.endMark, t) :: rest, hget =>
        unfold pass1Step
        rw [if_neg hne, hget]
        exact ⟨hrc, hin, hacc, htr, hae, hre, hnd⟩
      | (Matcher.regex pat, t) :: rest, hget =>
        unfold pass1Step
        rw [if_neg hne, hget]
        exact ⟨hrc, hin, hacc, htr, hae, hre, hnd⟩
      | (Matcher.accept, t) :: rest, hget =>
        unfold pass1Step
        rw [if_neg hne, hget]
        exact ⟨hrc, hin, hacc, htr, hae, hre, hnd⟩
      | (Matcher.epsilon, t) :: x :: rest, hget =>
        unfold pass1Step
        rw [if_neg hne, hget]
        exact ⟨hrc, hin, hacc, htr, hae, hre, hnd⟩
      | [(Matcher.epsilon, newId)], hget =>
        have hres := pass1Step_states_eq acc id sts stid newId hne hget
        rw [hres]
        have hpair : (id, (⟨stid, [(Matcher.epsilon, newId)]⟩ : State)) ∈ sts :=
          getSt_mem hget
        have htid : transOf sts id = [(Matcher.epsilon, newId)] := by
          unfold transOf
          rw [hget]
          rfl
        have hnew : newId ∈ stateKeys sts :=
          (hrc _ hpair (Matcher.epsilon, newId) (by simp)).1
        refine ⟨?_, ?_, ?_, ?_, ?_, ?_, ?_⟩
        · intro p hp t ht
          simp only [List.mem_map] at hp
          obtain ⟨⟨k, st⟩, hq, hpq⟩ := hp
          subst hpq
          simp only [List.mem_map] at ht
          obtain ⟨t0, ht0, hte⟩ := ht
          obtain ⟨h2, h3⟩ := hrc ⟨k, st⟩ hq t0 ht0
          rw [stateKeys_redirect]
          subst hte
          unfold redirectEdge
          by_cases htid2 : t0.2 = id
          · rw [if_pos htid2]
            exact ⟨hnew, fun op cp st0 hdl => h3 op cp st0 hdl⟩
          · rw [if_neg htid2]
            exact ⟨h2, h3⟩
        · show initial ∈ _
          rw [stateKeys_redirect]; exact hin
        · show acc ∈ _
          rw [stateKeys_redirect]; exact hacc
        · show transOf _ acc = _
          rw [transOf_redirect, htr]
          simp only [List.map_cons, List.map_nil, redirectEdge]
          rw [if_neg (by simpa using Ne.symm hne)]
        · intro p hp t ht htacc
          simp only [List.mem_map] at hp
          obtain ⟨⟨k, st⟩, hq, hpq⟩ := hp
          subst hpq
          simp only [List.mem_map] at ht
          obtain ⟨t0, ht0, hte⟩ := ht
          subst hte
          unfold redirectEdge at htacc ⊢
          by_cases htid2 : t0.2 = id
          · rw [if_pos htid2] at htacc ⊢
            simp only at htacc ⊢
            have := hae ⟨k, st⟩ hq t0 ht0 htacc
            rw [htid2] at this
            exact absurd this hne
          · rw [if_neg htid2] at htacc ⊢
            exact hae ⟨k, st⟩ hq t0 ht0 htacc
        · show Reaches _ initial acc
          exact pass1_reach sts id newId acc hne htid initial acc hre rfl
        · show (stateKeys _).Nodup
          rw [stateKeys_redirect]; exact hnd

theorem transOf_mem {sts : List (Nat × State)} {k : Nat} {t : Matcher × Nat}
    (h : t ∈ transOf sts k) :
    ∃ st, getSt sts k = some st ∧ t ∈ st.transitions := by
  unfold transOf at h
  rcases hg : getSt sts k with _ | st
  · rw [hg] at h; simp at h
  · rw [hg] at h
    exact ⟨st, rfl, by simpa using h⟩

theorem pass2_eq (acc : Nat) (ids : List Nat) (sts0 : List (Nat × State)) :
    pass2 acc ids sts0 = ids.foldl (pass2Step acc) sts0 := rfl

theorem pass2map_states_eq (acc id : Nat) (sts : List (Nat × State))
    (st : State) (hne : ¬ id = acc) (hget : getSt sts id = some st) :
    pass2Step acc sts id = sts.map (fun p =>
      if p.1 = id then
        (p.1, ⟨p.2.id,
          (st.transitions.filter fun t => t.1 ≠ Matcher.epsilon) ++
          (st.transitions.flatMap fun t =>
            if t.1 = Matcher.epsilon then transOf sts t.2 else [])⟩)
      else p) := by
  unfold pass2Step
  rw [if_neg hne, hget]

theorem stateKeys_pass2map (id : Nat) (tr : List (Matcher × Nat))
    (sts : List (Nat × State)) :
    stateKeys (sts.map (fun p =>
      if p.1 = id then (p.1, ⟨p.2.id, tr⟩) else p)) = stateKeys sts := by
  simp only [stateKeys, List.map_map]
  refine congrArg (fun f => List.map f sts) (funext ?_)
  intro p
  simp only [Function.comp]
  split <;> rfl

theorem transOf_pass2map_ne (id : Nat) (tr : List (Matcher × Nat))
    (sts : List (Nat × State)) (k : Nat) (hk : k ≠ id) :
    transOf (sts.map (fun p =>
      if p.1 = id then (p.1, ⟨p.2.id, tr⟩) else p)) k = transOf sts k := by
  unfold transOf
  rw [getSt_map_keep (fun p => by
    rcases p with ⟨a, st⟩
    simp only
    split <;> rfl)]
  rcases h : getSt sts k with _ | st
  · rfl
  · simp only [Option.map_some', Option.getD_some]
    rw [if_neg hk]

theorem transOf_pass2map_self (id : Nat) (tr : List (Matcher × Nat))
    (sts : List (Nat × State)) (st0 : State) (hget : getSt sts id = some st0) :
    transOf (sts.map (fun p =>
      if p.1 = id then (p.1, ⟨p.2.id, tr⟩) else p)) id = tr := by
  unfold transOf
  rw [getSt_map_keep (fun p => by
    rcases p with ⟨a, st⟩
    simp only
    split <;> rfl)]
  rw [hget]
  simp

theorem pass2_reach (sts : List (Nat × State)) (id acc0 : Nat) (st0 : State)
    (hne0 : ¬ id = acc0) (hget0 : getSt sts id = some st0)
    (htracc0 : transOf sts acc0 = [(Matcher.accept, acc0)]) :
    ∀ x y, Reaches sts x y → y = acc0 →
      Reaches (sts.map (fun p =>
        if p.1 = id then
          (p.1, ⟨p.2.id,
            (st0.transitions.filter fun t => t.1 ≠ Matcher.epsilon) ++
            (st0.transitions.flatMap fun t =>
              if t.1 = Matcher.epsilon then transOf sts t.2 else [])⟩)
        else p)) x acc0 := by
  intro x y h
  induction h with
  | refl a =>
    intro hy; subst hy; exact Reaches.refl _
  | step he hr ih =>
    rename_i a b c mt
    intro hy
    have ihb := ih hy
    have htid : transOf sts id = st0.transitions := by
      unfold transOf; rw [hget0]; rfl
    by_cases ha : a = id
    · have htnew := transOf_pass2map_self id
        ((st0.transitions.filter fun t => t.1 ≠ Matcher.epsilon) ++
         (st0.transitions.flatMap fun t =>
           if t.1 = Matcher.epsilon then transOf sts t.2 else []))
        sts st0 hget0
      have hea : (mt, b) ∈ transOf sts id := by
        rw [← ha]; exact he
      by_cases hmt : mt = Matcher.epsilon
      · by_cases hb : b = id
        · rw [ha]
          rw [hb] at ihb
          exact ihb
        · by_cases hbacc : b = acc0
          · have hmem : (Matcher.accept, acc0) ∈ transOf sts b := by
              rw [hbacc, htracc0]
              exact List.mem_singleton.mpr rfl
            have hinl : (Matcher.accept, acc0) ∈
                st0.transitions.flatMap fun t =>
                  if t.1 = Matcher.epsilon then transOf sts t.2 else [] := by
              refine List.mem_flatMap.mpr ⟨(Matcher.epsilon, b), ?_, ?_⟩
              · rw [htid, hmt] at hea
                exact hea
              · simp only [if_pos rfl]
                exact hmem
            have hstep : (Matcher.accept, acc0) ∈ transOf (sts.map (fun p =>
                if p.1 = id then
                  (p.1, ⟨p.2.id,
                    (st0.transitions.filter fun t => t.1 ≠ Matcher.epsilon) ++
                    (st0.transitions.flatMap fun t =>
                      if t.1 = Matcher.epsilon then transOf sts t.2 else [])⟩)
                else p)) id := by
              rw [htnew]
              exact List.mem_append_right _ hinl
            rw [ha]
            exact Reaches.step hstep (Reaches.refl _)
          · have hbacc2 : ¬ b = acc0 := hbacc
            obtain ⟨mt2, b2, hb2, hr2⟩ := reaches_inv ihb hbacc2
            rw [transOf_pass2map_ne _ _ _ _ hb] at hb2
            have hinl : (mt2, b2) ∈
                st0.transitions.flatMap fun t =>
                  if t.1 = Matcher.epsilon then transOf sts t.2 else [] := by
              refine List.mem_flatMap.mpr ⟨(Matcher.epsilon, b), ?_, ?_⟩
              · rw [htid, hmt] at hea
                exact hea
              · simp only [if_pos rfl]
                exact hb2
            have hstep : (mt2, b2) ∈ transOf (sts.map (fun p =>
                if p.1 = id then
                  (p.1, ⟨p.2.id,
                    (st0.transitions.filter fun t => t.1 ≠ Matcher.epsilon) ++
                    (st0.transitions.flatMap fun t =>
                      if t.1 = Matcher.epsilon then transOf sts t.2 else [])⟩)
                else p)) id := by
              rw [htnew]
              exact List.mem_append_right _ hinl
            rw [ha]
            exact Reaches.step hstep hr2
      · have hkept : (mt, b) ∈
            st0.transitions.filter fun t => t.1 ≠ Matcher.epsilon := by
          refine List.mem_filter.mpr ⟨by rw [← htid]; exact hea, by simpa using hmt⟩
        have hstep : (mt, b) ∈ transOf (sts.map (fun p =>
            if p.1 = id then
              (p.1, ⟨p.2.id,
                (st0.transitions.filter fun t => t.1 ≠ Matcher.epsilon) ++
                (st0.transitions.flatMap fun t =>
                  if t.1 = Matcher.epsilon then transOf sts t.2 else [])⟩)
            else p)) id := by
          rw [htnew]
          exact List.mem_append_left _ hkept
        rw [ha]
        exact Reaches.step hstep ihb
    · have hstep : (mt, b) ∈ transOf (sts.map (fun p =>
          if p.1 = id then
            (p.1, ⟨p.2.id,
              (st0.transitions.filter fun t => t.1 ≠ Matcher.epsilon) ++
              (st0.transitions.flatMap fun t =>
                if t.1 = Matcher.epsilon then transOf sts t.2 else [])⟩)
          else p)) a := by
        rw [transOf_pass2map_ne _ _ _ _ ha]
        exact he
      exact Reaches.step hstep ihb

theorem pass2Step_minv (acc initial : Nat) (sts : List (Nat × State)) (id : Nat)
    (h : MInv acc ⟨initial, sts⟩) : MInv acc ⟨initial, pass2Step acc sts id⟩ := by
  obtain ⟨hrc, hin, hacc, htr, hae, hre, hnd⟩ := h
  simp only at hrc hin hacc htr hae hre hnd
  by_cases hne : id = acc
  · unfold pass2Step
    rw [if_pos hne]
    exact ⟨hrc, hin, hacc, htr, hae, hre, hnd⟩
  · rcases hget : getSt sts id with _ | st
    · unfold pass2Step
      rw [if_neg hne, hget]
      exact ⟨hrc, hin, hacc, htr, hae, hre, hnd⟩
    · have hres := pass2map_states_eq acc id sts st hne hget
      rw [hres]
      have hpair : (id, st) ∈ sts := getSt_mem hget
      have hedges : ∀ t ∈ (st.transitions.filter fun t => t.1 ≠ Matcher.epsilon) ++
          (st.transitions.flatMap fun t =>
            if t.1 = Matcher.epsilon then transOf sts t.2 else []),
          ∃ (k0 : Nat) (st0 : State), (k0, st0) ∈ sts ∧ t ∈ st0.transitions := by
        intro t ht
        rcases List.mem_append.mp ht with h1 | h1
        · exact ⟨id, st, hpair, (List.mem_filter.mp h1).1⟩
        · obtain ⟨t1, ht1, ht2⟩ := List.mem_flatMap.mp h1
          by_cases hmt : t1.1 = Matcher.epsilon
          · rw [if_pos hmt] at ht2
            obtain ⟨stT, hgT, hmT⟩ := transOf_mem ht2
            exact ⟨t1.2, stT, getSt_mem hgT, hmT⟩
          · rw [if_neg hmt] at ht2
            simp at ht2
      refine ⟨?_, ?_, ?_, ?_, ?_, ?_, ?_⟩
      · intro p hp t ht
        rw [stateKeys_pass2map]
        simp only [List.mem_map] at hp
        obtain ⟨⟨k, st'⟩, hq, hpq⟩ := hp
        by_cases hk : k = id
        · rw [if_pos (by simpa using hk)] at hpq
          subst hpq
          simp only at ht
          obtain ⟨k0, st0, hq0, ht0⟩ := hedges t ht
          exact hrc ⟨k0, st0⟩ hq0 t ht0
        · rw [if_neg (by simpa using hk)] at hpq
          subst hpq
          exact hrc ⟨k, st'⟩ hq t ht
      · show initial ∈ _
        rw [stateKeys_pass2map]; exact hin
      · show acc ∈ _
        rw [stateKeys_pass2map]; exact hacc
      · show transOf _ acc = _
        rw [transOf_pass2map_ne _ _ _ _ (fun hc => hne hc.symm)]
        exact htr
      · intro p hp t ht htacc
        simp only [List.mem_map] at hp
        obtain ⟨⟨k, st'⟩, hq, hpq⟩ := hp
        by_cases hk : k = id
        · rw [if_pos (by simpa using hk)] at hpq
          subst hpq
          simp only at ht
          obtain ⟨k0, st0, hq0, ht0⟩ := hedges t ht
          exact hae ⟨k0, st0⟩ hq0 t ht0 htacc
        · rw [if_neg (by simpa using hk)] at hpq
          subst hpq
          exact hae ⟨k, st'⟩ hq t ht htacc
      · show Reaches _ initial acc
        exact pass2_reach sts id acc st hne hget htr initial acc hre rfl
      · show (stateKeys _).Nodup
        rw [stateKeys_pass2map]; exact hnd

theorem foldl_minv {f : List (Nat × State) → Nat → List (Nat × State)}
    {acc initial : Nat}
    (hf : ∀ sts a, MInv acc ⟨initial, sts⟩ → MInv acc ⟨initial, f sts a⟩) :
    ∀ (ids : List Nat) (sts : List (Nat × State)),
      MInv acc ⟨initial, sts⟩ → MInv acc ⟨initial, List.foldl f sts ids⟩ := by
  intro ids
  induction ids with
  | nil => intro sts h; exact h
  | cons i rest ih =>
    intro sts h
    simp only [List.foldl_cons]
    exact ih _ (hf sts i h)

theorem minv_pass1 (acc initial : Nat) (ids : List Nat)
    (sts : List (Nat × State)) (h : MInv acc ⟨initial, sts⟩) :
    MInv acc ⟨initial, pass1 acc ids sts⟩ := by
  rw [pass1_eq]
  exact foldl_minv (fun sts' a h' => pass1Step_minv acc initial sts' a h') ids sts h

theorem minv_pass2 (acc initial : Nat) (ids : List Nat)
    (sts : List (Nat × State)) (h : MInv acc ⟨initial, sts⟩) :
    MInv acc ⟨initial, pass2 acc ids sts⟩ := by
  rw [pass2_eq]
  exact foldl_minv (fun sts' a h' => pass2Step_minv acc initial sts' a h') ids sts h

theorem flatMap_len_le {α β : Type} (f : α → List β) (k : Nat)
    (hf : ∀ a, (f a).length ≤ k) :
    ∀ (l : List α), (l.flatMap f).length ≤ k * l.length := by
  intro l
  induction l with
  | nil => simp
  | cons x rest ih =>
    rw [List.flatMap_cons, List.length_append]
    have := hf x
    simp only [List.length_cons]
    calc (f x).length + (rest.flatMap f).length ≤ k + k * rest.length := by omega
      _ = k * (rest.length + 1) := by ring

theorem contains_dec (l : List Nat) (a : Nat) : l.contains a = decide (a ∈ l) := by
  induction l with
  | nil => rfl
  | cons x rest ih => simp [List.contains_cons, ih, List.mem_cons]

theorem succIds_len (st : State) :
    (succIds st).length ≤ 2 * st.transitions.length := by
  unfold succIds
  refine flatMap_len_le _ 2 ?_ st.transitions
  intro a
  rcases a with ⟨mt, tt⟩
  cases mt <;> simp

theorem sum_filter_le (w : (Nat × State) → Nat) (q : (Nat × State) → Bool) :
    ∀ (l : List (Nat × State)),
      ((l.filter q).map w).sum ≤ (l.map w).sum := by
  intro l
  induction l with
  | nil => simp
  | cons x rest ih =>
    rw [List.filter_cons]
    by_cases hx : q x = true
    · rw [if_pos hx]
      simp only [List.map_cons, List.sum_cons]
      omega
    · rw [if_neg hx]
      simp only [List.map_cons, List.sum_cons]
      omega

theorem sum_filter_drop (w : (Nat × State) → Nat) (id : Nat) (st : State) :
    ∀ (l : List (Nat × State)), (id, st) ∈ l →
      ((l.filter (fun p => !(p.1 = id))).map w).sum + w (id, st) ≤ (l.map w).sum := by
  intro l
  induction l with
  | nil => intro h; simp at h
  | cons x rest ih =>
    intro hmem
    rw [List.filter_cons]
    by_cases hx : (!(x.1 = id)) = true
    · simp only [Bool.not_eq_true', decide_eq_false_iff_not] at hx
      have hxne : x ≠ (id, st) := by
        intro hc; subst hc; exact hx rfl
      have hmem2 : (id, st) ∈ rest := by
        rcases List.mem_cons.mp hmem with h | h
        · exact absurd h.symm hxne
        · exact h
      rw [if_pos (by simpa using hx)]
      simp only [List.map_cons, List.sum_cons]
      have := ih hmem2
      omega
    · rw [if_neg hx]
      simp only [List.map_cons, List.sum_cons]
      rcases List.mem_cons.mp hmem with h | h
      · subst h
        have := sum_filter_le w (fun p => !(p.1 = id)) rest
        omega
      · have := ih h
        have h2 := sum_filter_le w (fun p => !(p.1 = id)) rest
        omega

theorem contains_append_one (visited : List Nat) (id x : Nat) :
    (visited ++ [id]).contains x = (visited.contains x || decide (x = id)) := by
  rw [contains_dec, contains_dec]
  by_cases h1 : x ∈ visited <;> by_cases h2 : x = id <;>
    simp [h1, h2, List.mem_append]

theorem restSum_insert (sts : List (Nat × State)) (visited : List Nat)
    (id : Nat) (st : State) (hnv : visited.contains id = false)
    (hget : getSt sts id = some st) :
    restSum sts (visited ++ [id]) + (2 * st.transitions.length + 1) ≤
      restSum sts visited := by
  unfold restSum
  have hfe : sts.filter (fun p => !((visited ++ [id]).contains p.1)) =
      (sts.filter (fun p => !(visited.contains p.1))).filter
        (fun p => !(p.1 = id)) := by
    rw [List.filter_filter]
    refine congrArg (fun f => List.filter f sts) (funext ?_)
    intro p
    rw [contains_append_one]
    cases hv : visited.contains p.1 <;> cases hd : decide (p.1 = id) <;> simp [hv, hd]
  rw [hfe]
  refine le_trans ?_ (sum_filter_drop (fun p => 2 * p.2.transitions.length + 1)
    id st (sts.filter (fun p => !(visited.contains p.1))) ?_)
  · rfl
  · refine List.mem_filter.mpr ⟨getSt_mem hget, ?_⟩
    have hcd := contains_dec visited id
    rw [hcd] at hnv
    simpa using hnv

theorem reachGo_spec (sts : List (Nat × State)) :
    ∀ (fuel : Nat) (queue visited : List Nat),
      queue.length + restSum sts visited ≤ fuel →
      (∀ id ∈ visited, ∀ st, getSt sts id = some st →
        ∀ s ∈ succIds st, s ∈ visited ∨ s ∈ queue ∨ getSt sts s = none) →
      (∀ v ∈ visited, v ∈ reachGo sts fuel queue visited) ∧
      (∀ q ∈ queue, q ∈ stateKeys sts → q ∈ reachGo sts fuel queue visited) ∧
      (∀ id ∈ reachGo sts fuel queue visited, ∀ st, getSt sts id = some st →
        ∀ s ∈ succIds st, s ∈ reachGo sts fuel queue visited ∨
          getSt sts s = none) := by
  intro fuel
  induction fuel with
  | zero =>
    intro queue visited hpot hinv
    have hq : queue = [] := by
      cases queue with
      | nil => rfl
      | cons a l => simp at hpot
    subst hq
    unfold reachGo
    refine ⟨fun v hv => hv, by simp, ?_⟩
    intro id hid st hget s hs
    rcases hinv id hid st hget s hs with h | h | h
    · exact Or.inl h
    · simp at h
    · exact Or.inr h
  | succ fuel ih =>
    intro queue visited hpot hinv
    cases queue with
    | nil =>
      unfold reachGo
      refine ⟨fun v hv => hv, by simp, ?_⟩
      intro id hid st hget s hs
      rcases hinv id hid st hget s hs with h | h | h
      · exact Or.inl h
      · simp at h
      · exact Or.inr h
    | cons id rest =>
      have hres0 : reachGo sts (fuel + 1) (id :: rest) visited =
          if visited.contains id then reachGo sts fuel rest visited
          else match getSt sts id with
            | none => reachGo sts fuel rest visited
            | some st => reachGo sts fuel (rest ++ succIds st)
                (visited ++ [id]) := rfl
      by_cases hc : visited.contains id
      · have hres : reachGo sts (fuel + 1) (id :: rest) visited =
            reachGo sts fuel rest visited := by
          rw [hres0, if_pos hc]
        rw [hres]
        simp only [List.length_cons] at hpot
        have hinv2 : ∀ id2 ∈ visited, ∀ st, getSt sts id2 = some st →
            ∀ s ∈ succIds st, s ∈ visited ∨ s ∈ rest ∨ getSt sts s = none := by
          intro id2 hid2 st hget s hs
          rcases hinv id2 hid2 st hget s hs with h | h | h
          · exact Or.inl h
          · rcases List.mem_cons.mp h with h2 | h2
            · subst h2
              exact Or.inl (by simpa using hc)
            · exact Or.inr (Or.inl h2)
          · exact Or.inr (Or.inr h)
        obtain ⟨r1, r2, r3⟩ := ih rest visited (by omega) hinv2
        refine ⟨r1, ?_, r3⟩
        intro q hq hqk
        rcases List.mem_cons.mp hq with h | h
        · subst h
          exact r1 q (by simpa using hc)
        · exact r2 q h hqk
      · rcases hget : getSt sts id with _ | st
        · have hres : reachGo sts (fuel + 1) (id :: rest) visited =
              reachGo sts fuel rest visited := by
            rw [hres0, if_neg (by simpa using hc), hget]
          rw [hres]
          simp only [List.length_cons] at hpot
          have hinv2 : ∀ id2 ∈ visited, ∀ st, getSt sts id2 = some st →
              ∀ s ∈ succIds st, s ∈ visited ∨ s ∈ rest ∨ getSt sts s = none := by
            intro id2 hid2 st hget2 s hs
            rcases hinv id2 hid2 st hget2 s hs with h | h | h
            · exact Or.inl h
            · rcases List.mem_cons.mp h with h2 | h2
              · subst h2
                exact Or.inr (Or.inr hget)
              · exact Or.inr (Or.inl h2)
            · exact Or.inr (Or.inr h)
          obtain ⟨r1, r2, r3⟩ := ih rest visited (by omega) hinv2
          refine ⟨r1, ?_, r3⟩
          intro q hq hqk
          rcases List.mem_cons.mp hq with h | h
          · subst h
            exact absurd ((getSt_none_iff sts q).mp hget) (by simpa using hqk)
          · exact r2 q h hqk
        · have hres : reachGo sts (fuel + 1) (id :: rest) visited =
              reachGo sts fuel (rest ++ succIds st) (visited ++ [id]) := by
            rw [hres0, if_neg (by simpa using hc), hget]
          rw [hres]
          simp only [List.length_cons] at hpot
          have hpots := restSum_insert sts visited id st (by simpa using hc) hget
          have hlen := succIds_len st
          have hinv2 : ∀ id2 ∈ visited ++ [id], ∀ st2, getSt sts id2 = some st2 →
              ∀ s ∈ succIds st2, s ∈ visited ++ [id] ∨
                s ∈ rest ++ succIds st ∨ getSt sts s = none := by
            intro id2 hid2 st2 hget2 s hs
            rcases List.mem_append.mp hid2 with h | h
            · rcases hinv id2 h st2 hget2 s hs with h2 | h2 | h2
              · exact Or.inl (List.mem_append_left _ h2)
              · rcases List.mem_cons.mp h2 with h3 | h3
                · subst h3
                  exact Or.inl (List.mem_append_right _ (List.mem_singleton.mpr rfl))
                · exact Or.inr (Or.inl (List.mem_append_left _ h3))
              · exact Or.inr (Or.inr h2)
            · simp only [List.mem_singleton] at h
              subst h
              rw [hget] at hget2
              cases hget2
              exact Or.inr (Or.inl (List.mem_append_right _ hs))
          obtain ⟨r1, r2, r3⟩ := ih (rest ++ succIds st) (visited ++ [id])
            (by rw [List.length_append]; omega) hinv2
          refine ⟨?_, ?_, r3⟩
          · intro v hv
            exact r1 v (List.mem_append_left _ hv)
          · intro q hq hqk
            rcases List.mem_cons.mp hq with h | h
            · subst h
              exact r1 q (List.mem_append_right _ (List.mem_singleton.mpr rfl))
            · exact r2 q (List.mem_append_left _ h) hqk

theorem transCount_eq (sts : List (Nat × State)) :
    2 * transCount sts + sts.length =
      ((sts.map (fun p => 2 * p.2.transitions.length + 1))).sum := by
  unfold transCount
  induction sts with
  | nil => simp
  | cons x rest ih =>
    simp only [List.map_cons, List.sum_cons, List.length_cons]
    omega

theorem restSum_nil (sts : List (Nat × State)) :
    restSum sts [] = 2 * transCount sts + sts.length := by
  unfold restSum
  rw [transCount_eq]
  congr 1
  congr 1
  rw [List.filter_eq_self.mpr]
  intro p _
  rfl

theorem getSt_of_mem_nodup {sts : List (Nat × State)} {k : Nat} {st : State}
    (hnd : (stateKeys sts).Nodup) (hmem : (k, st) ∈ sts) :
    getSt sts k = some st := by
  induction sts with
  | nil => simp at hmem
  | cons p rest ih =>
    rcases p with ⟨k0, st0⟩
    simp only [stateKeys, List.map_cons, List.nodup_cons] at hnd
    rcases List.mem_cons.mp hmem with h | h
    · rw [← h]
      unfold getSt
      rw [List.find?_cons_of_pos _ (by simp)]
      rfl
    · have hne : k0 ≠ k := by
        intro hc
        subst hc
        exact hnd.1 (List.mem_map.mpr ⟨(k0, st), h, rfl⟩)
      unfold getSt
      rw [List.find?_cons_of_neg _ (by simp [hne])]
      exact ih (by simpa [stateKeys] using hnd.2) h

theorem getSt_filter_keep (keep : List Nat) (k : Nat)
    (hk : keep.contains k = true) :
    ∀ (sts : List (Nat × State)),
      getSt (sts.filter (fun p => keep.contains p.1)) k = getSt sts k := by
  intro sts
  induction sts with
  | nil => rfl
  | cons p rest ih =>
    rcases p with ⟨k0, st0⟩
    by_cases hke : k0 = k
    · subst hke
      rw [List.filter_cons, if_pos (by simpa using hk)]
      unfold getSt
      rw [List.find?_cons_of_pos _ (by simp),
        List.find?_cons_of_pos _ (by simp)]
    · rw [List.filter_cons]
      by_cases hkp : keep.contains k0 = true
      · rw [if_pos (by simpa using hkp)]
        unfold getSt
        rw [List.find?_cons_of_neg _ (by simp [hke]),
          List.find?_cons_of_neg _ (by simp [hke])]
        exact ih
      · rw [if_neg (by simpa using hkp)]
        unfold getSt at ih ⊢
        rw [List.find?_cons_of_neg _ (by simp [hke])]
        exact ih

theorem succIds_target {st : State} {mt : Matcher} {t : Nat}
    (h : (mt, t) ∈ st.transitions) : t ∈ succIds st := by
  unfold succIds
  exact List.mem_flatMap.mpr ⟨(mt, t), h, List.mem_cons_self _ _⟩

theorem succIds_start {st : State} {op : StandardTokenType}
    {cp : Option StandardTokenType} {s t : Nat}
    (h : (Matcher.delimited op cp s, t) ∈ st.transitions) : s ∈ succIds st := by
  unfold succIds
  refine List.mem_flatMap.mpr ⟨(Matcher.delimited op cp s, t), h, ?_⟩
  exact List.mem_cons_of_mem _ (List.mem_singleton.mpr rfl)

theorem minv_pass3 (acc : Nat) (m : Machine) (h : MInv acc m) :
    MInv acc ⟨m.initial, pass3 m.initial m.states⟩ := by
  obtain ⟨hrc, hin, hacc, htr, hae, hre, hnd⟩ := h
  have hpot : 1 + restSum m.states [] ≤ pruneFuel m.states := by
    rw [restSum_nil]
    unfold pruneFuel
    omega
  obtain ⟨r1, r2, r3⟩ := reachGo_spec m.states (pruneFuel m.states)
    [m.initial] [] (by simpa using hpot) (by intro id hid; simp at hid)
  set keep := reachGo m.states (pruneFuel m.states) [m.initial] [] with hkeep
  have hini : m.initial ∈ keep :=
    r2 m.initial (List.mem_singleton.mpr rfl) hin
  have hsucc_mem : ∀ x, x ∈ keep → ∀ st, getSt m.states x = some st →
      ∀ s ∈ succIds st, s ∈ stateKeys m.states → s ∈ keep := by
    intro x hx st hget s hs hsk
    rcases r3 x hx st hget s hs with h2 | h2
    · exact h2
    · exact absurd hsk ((getSt_none_iff _ _).mp h2)
  have hkeeps : ∀ x y, Reaches m.states x y → x ∈ keep → y ∈ keep := by
    intro x y hr
    induction hr with
    | refl a => intro hx; exact hx
    | step he hr ih =>
      rename_i a b c mt
      intro ha
      obtain ⟨st, hget, hmem⟩ := transOf_mem he
      have hbk : b ∈ stateKeys m.states :=
        (hrc (a, st) (getSt_mem hget) (mt, b) hmem).1
      exact ih (hsucc_mem a ha st hget b (succIds_target hmem) hbk)
  have hacck : acc ∈ keep := hkeeps m.initial acc hre hini
  have hres : pass3 m.initial m.states =
      m.states.filter (fun p => keep.contains p.1) := by
    unfold pass3
    rw [← hkeep]
  rw [hres]
  have hmemkeys : ∀ k, k ∈ stateKeys m.states → k ∈ keep →
      k ∈ stateKeys (m.states.filter (fun p => keep.contains p.1)) := by
    intro k hk hkk
    rcases hg : getSt m.states k with _ | st
    · exact absurd hk ((getSt_none_iff _ _).mp hg)
    · have hp : (k, st) ∈ m.states := getSt_mem hg
      refine List.mem_map.mpr ⟨(k, st), ?_, rfl⟩
      refine List.mem_filter.mpr ⟨hp, ?_⟩
      rw [contains_dec]
      simpa using hkk
  have htrf : ∀ k, k ∈ keep →
      transOf (m.states.filter (fun p => keep.contains p.1)) k =
        transOf m.states k := by
    intro k hkk
    unfold transOf
    rw [getSt_filter_keep keep k (by rw [contains_dec]; simpa using hkk)]
  refine ⟨?_, ?_, ?_, ?_, ?_, ?_, ?_⟩
  · intro p hp t ht
    have hp2 := List.mem_filter.mp hp
    obtain ⟨hmem, hcond⟩ := hp2
    have hpk : p.1 ∈ keep := by
      rw [contains_dec] at hcond
      simpa using hcond
    rcases p with ⟨k, st⟩
    have hget : getSt m.states k = some st := getSt_of_mem_nodup hnd hmem
    obtain ⟨h2, h3⟩ := hrc ⟨k, st⟩ hmem t ht
    rcases t with ⟨mt, tt⟩
    constructor
    · refine hmemkeys _ h2 ?_
      exact hsucc_mem k hpk st hget tt (succIds_target ht) h2
    · intro op cp st0 hdl
      have h4 := h3 op cp st0 hdl
      refine hmemkeys _ h4 ?_
      refine hsucc_mem k hpk st hget st0 ?_ h4
      simp only at hdl
      subst hdl
      exact succIds_start ht
  · show m.initial ∈ _
    exact hmemkeys _ hin hini
  · show acc ∈ _
    exact hmemkeys _ hacc hacck
  · show transOf _ acc = _
    rw [htrf acc hacck]
    exact htr
  · intro p hp t ht htacc
    have hp2 := List.mem_filter.mp hp
    exact hae p hp2.1 t ht htacc
  · show Reaches _ m.initial acc
    have hsim : ∀ x y, Reaches m.states x y → x ∈ keep →
        Reaches (m.states.filter (fun p => keep.contains p.1)) x y := by
      intro x y hr
      induction hr with
      | refl a => intro _; exact Reaches.refl _
      | step he hr ih =>
        rename_i a b c mt
        intro ha
        obtain ⟨st, hget, hmem⟩ := transOf_mem he
        have hbk : b ∈ stateKeys m.states :=
          (hrc (a, st) (getSt_mem hget) (mt, b) hmem).1
        have hb : b ∈ keep :=
          hsucc_mem a ha st hget b (succIds_target hmem) hbk
        have hstep : (mt, b) ∈
            transOf (m.states.filter (fun p => keep.contains p.1)) a := by
          rw [htrf a ha]
          exact he
        exact Reaches.step hstep (ih hb)
    exact hsim m.initial acc hre hini
  · show (stateKeys _).Nodup
    refine List.Nodup.sublist ?_ hnd
    exact List.Sublist.map _ (List.filter_sublist _)

theorem insertSorted_nodup (x : Nat) :
    ∀ (l : List Nat), x ∉ l → l.Nodup → (insertSorted x l).Nodup := by
  intro l
  induction l with
  | nil => intro _ _; simp [insertSorted]
  | cons a rest ih =>
    intro hx hnd
    unfold insertSorted
    simp only [List.mem_cons, not_or] at hx
    simp only [List.nodup_cons] at hnd
    split
    · simp only [List.nodup_cons, List.mem_cons, not_or]
      exact ⟨⟨hx.1, hx.2⟩, hnd.1, hnd.2⟩
    · simp only [List.nodup_cons]
      constructor
      · intro hc
        rcases (mem_insertSorted x a rest).mp hc with h | h
        · exact hx.1 h.symm
        · exact hnd.1 h
      · exact ih hx.2 hnd.2

theorem sortNat_nodup : ∀ (l : List Nat), l.Nodup → (sortNat l).Nodup := by
  intro l
  induction l with
  | nil => intro _; simp [sortNat]
  | cons a rest ih =>
    intro hnd
    simp only [List.nodup_cons] at hnd
    unfold sortNat
    refine insertSorted_nodup a _ ?_ (ih hnd.2)
    intro hc
    exact hnd.1 ((mem_sortNat a rest).mp hc)

theorem applyRemap_enumFrom (ids : List Nat) (hnd : ids.Nodup) :
    ∀ (n i : Nat) (h : i < ids.length),
      applyRemap ((ids.enumFrom n).map (fun p => (p.2, p.1)))
        (ids.get ⟨i, h⟩) = n + i := by
  induction ids with
  | nil => intro n i h; simp at h
  | cons o rest ih =>
    intro n i h
    cases i with
    | zero =>
      unfold applyRemap
      simp only [List.enumFrom, List.map_cons]
      rw [List.find?_cons_of_pos _ (by simp)]
      simp
    | succ i =>
      simp only [List.nodup_cons] at hnd
      have hget : (o :: rest).get ⟨i + 1, h⟩ =
          rest.get ⟨i, by simpa using h⟩ := rfl
      rw [hget]
      have hne : o ≠ rest.get ⟨i, by simpa using h⟩ := by
        intro hc
        exact hnd.1 (hc ▸ List.get_mem rest i _)
      unfold applyRemap
      simp only [List.enumFrom, List.map_cons]
      rw [List.find?_cons_of_neg _ (by simp only [decide_eq_true_eq]; exact hne)]
      have hih := ih hnd.2 (n + 1) i (by simpa using h)
      unfold applyRemap at hih
      rw [hih]
      omega

theorem normalize_eq (m : Machine) :
    normalize m = ⟨applyRemap ((machineIds m.states).enum.map
        (fun p => (p.2, p.1))) m.initial,
      (machineIds m.states).filterMap (fun old =>
        match getSt m.states old with
        | none => none
        | some st =>
          some (applyRemap ((machineIds m.states).enum.map
              (fun p => (p.2, p.1))) old,
            ⟨applyRemap ((machineIds m.states).enum.map
              (fun p => (p.2, p.1))) old,
             st.transitions.map (fun t =>
               (remapMatcher ((machineIds m.states).enum.map
                  (fun p => (p.2, p.1))) t.1,
                applyRemap ((machineIds m.states).enum.map
                  (fun p => (p.2, p.1))) t.2))⟩))⟩ := by
  unfold normalize
  dsimp only
  congr 1
  refine congrArg (fun f => List.filterMap f (machineIds m.states)) (funext ?_)
  intro old
  rcases hg : getSt m.states old with _ | st
  · rfl
  · simp only [Option.some.injEq, Prod.mk.injEq, State.mk.injEq, true_and]
    refine congrArg (fun f => List.map f st.transitions) (funext ?_)
    intro t
    rcases t with ⟨mt, tt⟩
    cases mt <;> rfl

theorem nodup_map_inj {f : Nat → Nat} :
    ∀ (l : List Nat), (∀ x ∈ l, ∀ y ∈ l, f x = f y → x = y) → l.Nodup →
      (l.map f).Nodup := by
  intro l
  induction l with
  | nil => intro _ _; simp
  | cons a rest ih =>
    intro hinj hnd
    simp only [List.nodup_cons] at hnd
    simp only [List.map_cons, List.nodup_cons]
    constructor
    · intro hc
      obtain ⟨x, hx, hfx⟩ := List.mem_map.mp hc
      have := hinj x (List.mem_cons_of_mem _ hx) a (List.mem_cons_self _ _) hfx
      subst this
      exact hnd.1 hx
    · exact ih (fun x hx y hy => hinj x (List.mem_cons_of_mem _ hx) y
        (List.mem_cons_of_mem _ hy)) hnd.2

theorem minv_optimize (acc : Nat) (m : Machine) (h : MInv acc m) :
    MInv acc (optimize acc m) := by
  have h0 : MInv acc ⟨m.initial, m.states⟩ := h
  have h1 := minv_pass1 acc m.initial (machineIds m.states) m.states h0
  have h2 := minv_pass2 acc m.initial (machineIds m.states) _ h1
  have h3 := minv_pass3 acc ⟨m.initial, pass2 acc (machineIds m.states)
    (pass1 acc (machineIds m.states) m.states)⟩ h2
  have h4 := minv_pass4 acc ⟨m.initial, pass3 m.initial (pass2 acc
    (machineIds m.states) (pass1 acc (machineIds m.states) m.states))⟩ h3
  have h5 := minv_pass5 acc ⟨m.initial, pass4 (pass3 m.initial (pass2 acc
    (machineIds m.states) (pass1 acc (machineIds m.states) m.states)))⟩ h4
  exact h5

theorem minv_optimize5 (acc : Nat) (m : Machine) (h : MInv acc m) :
    MInv acc (optimize5 acc m) :=
  minv_optimize acc _ (minv_optimize acc _ (minv_optimize acc _
    (minv_optimize acc _ (minv_optimize acc m h))))

theorem foldl_inv {β : Type} (g : List (Nat × State) → β)
    (f : List (Nat × State) → Nat → List (Nat × State))
    (hf : ∀ sts a, g (f sts a) = g sts) :
    ∀ (ids : List Nat) (sts : List (Nat × State)),
      g (List.foldl f sts ids) = g sts := by
  intro ids
  induction ids with
  | nil => intro sts; rfl
  | cons i rest ih =>
    intro sts
    simp only [List.foldl_cons]
    rw [ih, hf]

theorem pass1_len (acc : Nat) (ids : List Nat) (sts : List (Nat × State)) :
    (pass1 acc ids sts).length = sts.length := by
  unfold pass1
  apply foldl_inv (g := List.length)
  intro sts' id
  split
  · rfl
  · split <;> simp

theorem pass2_len (acc : Nat) (ids : List Nat) (sts : List (Nat × State)) :
    (pass2 acc ids sts).length = sts.length := by
  unfold pass2
  apply foldl_inv (g := List.length)
  intro sts' id
  split
  · rfl
  · split <;> simp

theorem pass1_keys (acc : Nat) (ids : List Nat) (sts : List (Nat × State)) :
    stateKeys (pass1 acc ids sts) = stateKeys sts := by
  unfold pass1
  apply foldl_inv (g := stateKeys)
  intro sts' id
  split
  · rfl
  · split
    · simp [stateKeys, List.map_map]
    · rfl

theorem pass2_keys (acc : Nat) (ids : List Nat) (sts : List (Nat × State)) :
    stateKeys (pass2 acc ids sts) = stateKeys sts := by
  unfold pass2
  apply foldl_inv (g := stateKeys)
  intro sts' id
  split
  · rfl
  · split
    · rfl
    · simp [stateKeys, List.map_map]
      intro a b hab
      split <;> rfl

theorem pass4_len (sts : List (Nat × State)) :
    (pass4 sts).length = sts.length := by
  simp [pass4]

theorem pass4_keys (sts : List (Nat × State)) :
    stateKeys (pass4 sts) = stateKeys sts := by
  simp [pass4, stateKeys, List.map_map]

theorem applyRemapSts_len (remap : List (Nat × Nat)) (sts : List (Nat × State)) :
    (applyRemapSts remap sts).length = sts.length := by
  simp [applyRemapSts]

theorem applyRemapSts_keys (remap : List (Nat × Nat)) (sts : List (Nat × State)) :
    stateKeys (applyRemapSts remap sts) = stateKeys sts := by
  simp [applyRemapSts, stateKeys, List.map_map]

theorem pass3_len (initial : Nat) (sts : List (Nat × State)) :
    (pass3 initial sts).length ≤ sts.length := by
  simpa [pass3] using List.length_filter_le _ sts

theorem pass3_keys (initial : Nat) (sts : List (Nat × State)) :
    ∀ k ∈ stateKeys (pass3 initial sts), k ∈ stateKeys sts := by
  intro k hk
  simp only [pass3, stateKeys, List.mem_map] at hk ⊢
  obtain ⟨p, hp, hpk⟩ := hk
  exact ⟨p, List.mem_of_mem_filter hp, hpk⟩

theorem optimize_states_le (acc : Nat) (m : Machine) :
    (optimize acc m).states.length ≤ m.states.length ∧
    ∀ k ∈ stateKeys (optimize acc m).states, k ∈ stateKeys m.states := by
  unfold optimize pass5
  constructor
  · simp only [applyRemapSts_len]
    calc (pass4 (pass3 m.initial (pass2 acc (machineIds m.states)
          (pass1 acc (machineIds m.states) m.states)))).length
        = (pass3 m.initial (pass2 acc (machineIds m.states)
          (pass1 acc (machineIds m.states) m.states))).length := pass4_len _
      _ ≤ (pass2 acc (machineIds m.states)
          (pass1 acc (machineIds m.states) m.states)).length := pass3_len _ _
      _ = m.states.length := by rw [pass2_len, pass1_len]
  · intro k hk
    simp only [applyRemapSts_keys, pass4_keys] at hk
    have := pass3_keys m.initial _ k hk
    rwa [pass2_keys, pass1_keys] at this

theorem flattenList_append (a b : List Ast) :
    flattenList (a ++ b) = flattenList a ++ flattenList b := by
  induction a with
  | nil => rfl
  | cons x rest ih =>
    cases x with
    | token t => simp [flattenList, ih]
    | delimited op cp content => simp [flattenList, ih]

theorem parseF_nil (opts : LexOptions) (fuel : Nat) (recur insideTp : Bool)
    (res : List Ast) : parseF opts fuel recur insideTp [] res = (res, []) := by
  cases fuel with
  | zero => rfl
  | succ f => rfl

theorem parseF_flatten (opts : LexOptions) (hTp : opts.typeParameterParsing = false) :
    ∀ (fuel : Nat) (recur : Bool) (toks : List StandardToken) (res : List Ast),
      flattenList (parseF opts fuel recur false toks res).1 ++
        (parseF opts fuel recur false toks res).2 = flattenList res ++ toks := by
  intro fuel
  induction fuel with
  | zero => intro recur toks res; simp [parseF]
  | succ f ih =>
    intro recur toks res
    cases toks with
    | nil => simp [parseF]
    | cons tok rest =>
      have htoken : ∀ rcr, flattenList (parseF opts f rcr false rest (res ++ [Ast.token tok])).1 ++
          (parseF opts f rcr false rest (res ++ [Ast.token tok])).2 =
          flattenList res ++ tok :: rest := by
        intro rcr
        have ho := ih rcr rest (res ++ [Ast.token tok])
        rw [flattenList_append] at ho
        simpa [flattenList] using ho
      cases htok : tok.ty with
      | symbol c =>
        simp only [parseF, htok, isOpenTypeParam, isCloseTypeParam, hTp,
          Bool.and_false, Bool.false_and, Bool.or_false, Bool.false_eq_true,
          if_false, ite_false]
        split_ifs with hbr hop
        · simp
        · rcases hinner : (parseF opts f true false rest []) with ⟨content, rest'⟩
          have hi := ih true rest []
          rw [hinner] at hi
          simp only [flattenList] at hi
          cases rest' with
          | nil =>
            simp only [hinner, parseF_nil, flattenList_append, flattenList,
              flattenOne, List.append_nil, List.nil_append]
            simp only [List.nil_append] at hi
            simp [← hi, List.append_assoc]
          | cons cp rest'' =>
            simp only [hinner]
            have ho := ih recur rest'' (res ++ [Ast.delimited tok (some cp) content])
            rw [flattenList_append] at ho
            rw [ho]
            simp only [List.nil_append] at hi
            simp [flattenList, flattenOne, ← hi, List.append_assoc]
        · exact htoken recur
      | identifier s => simpa [parseF, htok] using htoken recur
      | integer n => simpa [parseF, htok] using htoken recur
      | float fl => simpa [parseF, htok] using htoken recur
      | stringLiteral st => simpa [parseF, htok] using htoken recur
      | regex re => simpa [parseF, htok] using htoken recur

theorem parseF_len (opts : LexOptions) (hTp : opts.typeParameterParsing = false) :
    ∀ (fuel : Nat) (recur : Bool) (toks : List StandardToken) (res : List Ast),
      (parseF opts fuel recur false toks res).2.length ≤ toks.length := by
  intro fuel
  induction fuel with
  | zero => intro recur toks res; simp [parseF]
  | succ f ih =>
    intro recur toks res
    cases toks with
    | nil => simp [parseF]
    | cons tok rest =>
      cases htok : tok.ty with
      | symbol c =>
        simp only [parseF, htok, isOpenTypeParam, isCloseTypeParam, hTp,
          Bool.and_false, Bool.false_and, Bool.or_false, Bool.false_eq_true,
          if_false, ite_false]
        split_ifs with hbr hop
        · simp
        · rcases hinner : (parseF opts f true false rest []) with ⟨content, rest'⟩
          have hlin := ih true rest []
          rw [hinner] at hlin
          cases rest' with
          | nil => simp [parseF_nil]
          | cons cp rest'' =>
            simp only
            have ho := ih recur rest'' (res ++ [Ast.delimited tok (some cp) content])
            simp only [List.length_cons] at hlin
            calc (parseF opts f recur false rest''
                  (res ++ [Ast.delimited tok (some cp) content])).2.length
                ≤ rest''.length := ho
              _ ≤ rest.length := by omega
              _ ≤ (tok :: rest).length := by simp
        · exact (ih recur rest (res ++ [Ast.token tok])).trans (by simp)
      | identifier s =>
        simp only [parseF, htok]
        exact (ih recur rest (res ++ [Ast.token tok])).trans (by simp)
      | integer n =>
        simp only [parseF, htok]
        exact (ih recur rest (res ++ [Ast.token tok])).trans (by simp)
      | float fl =>
        simp only [parseF, htok]
        exact (ih recur rest (res ++ [Ast.token tok])).trans (by simp)
      | stringLiteral st =>
        simp only [parseF, htok]
        exact (ih recur rest (res ++ [Ast.token tok])).trans (by simp)
      | regex re =>
        simp only [parseF, htok]
        exact (ih recur rest (res ++ [Ast.token tok])).trans (by simp)

theorem parseF_complete (opts : LexOptions) (hTp : opts.typeParameterParsing = false) :
    ∀ (fuel : Nat) (toks : List StandardToken) (res : List Ast),
      toks.length < fuel →
      (parseF opts fuel false false toks res).2 = [] := by
  intro fuel
  induction fuel with
  | zero => intro toks res h; omega
  | succ f ih =>
    intro toks res h
    cases toks with
    | nil => simp [parseF]
    | cons tok rest =>
      simp only [List.length_cons] at h
      cases htok : tok.ty with
      | symbol c =>
        simp only [parseF, htok, isOpenTypeParam, isCloseTypeParam, hTp,
          Bool.and_false, Bool.false_and, Bool.or_false, Bool.false_eq_true,
          if_false, ite_false, Bool.false_and]
        split_ifs with hop
        · rcases hinner : (parseF opts f true false rest []) with ⟨content, rest'⟩
          have hlin := parseF_len opts hTp f true rest []
          rw [hinner] at hlin
          cases rest' with
          | nil => simp [parseF_nil]
          | cons cp rest'' =>
            simp only [List.length_cons] at hlin
            exact ih rest'' _ (by omega)
        · exact ih rest _ (by omega)
      | identifier s => simp only [parseF, htok]; exact ih rest _ (by omega)
      | integer n => simp only [parseF, htok]; exact ih rest _ (by omega)
      | float fl => simp only [parseF, htok]; exact ih rest _ (by omega)
      | stringLiteral st => simp only [parseF, htok]; exact ih rest _ (by omega)
      | regex re => simp only [parseF, htok]; exact ih rest _ (by omega)

theorem readString_std (it : Iter) : ((readString it).1).isStandard = true := by
  unfold readString
  rcases readStringContent it with ⟨c, it'⟩
  rfl

theorem readRegex_std (it : Iter) : ((readRegex it).1).isStandard = true := by
  unfold readRegex
  rcases readStringContent it with ⟨c, it'⟩
  rfl

theorem readIdentifier_std (opts : LexOptions) (it : Iter) :
    ((readIdentifier opts it).1).isStandard = true := by
  unfold readIdentifier
  rcases it.nextNewSpan with _ | ⟨c, it1⟩
  · rfl
  · simp only
    split <;> split <;> rfl

theorem readNumber_std (opts : LexOptions) (it : Iter) :
    ((readNumber opts it).1).isStandard = true := by
  unfold readNumber
  dsimp only
  repeat' split
  all_goals rfl

theorem readParen_std (it : Iter) : ((readParen it).1).isStandard = true := by
  unfold readParen
  rcases it.nextNewSpan with _ | ⟨c, it'⟩
  · rfl
  · rfl

theorem readOther_std (res : List SpanToken) (hadWs : Bool) (it : Iter)
    (h : ∀ t ∈ res, t.isStandard = true) :
    ((readOther res hadWs it).2.1).isStandard = true ∧
    (∀ t ∈ (readOther res hadWs it).1, t.isStandard = true) := by
  unfold readOther
  rcases it.nextNewSpan with _ | ⟨c, it'⟩
  · exact ⟨rfl, h⟩
  · simp only
    split
    · split
      · rename_i oldC spn heq
        refine ⟨rfl, fun t ht => h t ?_⟩
        exact List.Sublist.subset (List.dropLast_sublist _) ht
      · exact ⟨rfl, h⟩
    · exact ⟨rfl, h⟩

theorem mapM_toStandard (toks : List SpanToken)
    (h : ∀ t ∈ toks, t.isStandard = true) :
    ∃ sts, toks.mapM toStandard = some sts := by
  induction toks with
  | nil => exact ⟨[], rfl⟩
  | cons t rest ih =>
    obtain ⟨sts, hsts⟩ := ih (fun x hx => h x (List.mem_cons_of_mem _ hx))
    have ht := h t (List.mem_cons_self _ _)
    rcases t with ⟨ty, sp⟩
    cases ty with
    | standard st =>
      refine ⟨⟨st, sp⟩ :: sts, ?_⟩
      rw [List.mapM_cons, hsts]
      rfl
    | special s => simp [SpanToken.isStandard] at ht

theorem appendStd (res : List SpanToken) (tok : SpanToken)
    (hres : ∀ t ∈ res, t.isStandard = true) (htok : tok.isStandard = true) :
    ∀ t ∈ res ++ [tok], t.isStandard = true := by
  intro t ht
  rcases List.mem_append.mp ht with h1 | h1
  · exact hres t h1
  · simp only [List.mem_singleton] at h1
    subst h1
    exact htok

theorem tokenizeF_standard (opts : LexOptions) :
    ∀ (fuel : Nat) (recur : Bool) (it : Iter) (res : List SpanToken)
      (hadWs : Bool) (toks : List SpanToken) (it' : Iter),
      tokenizeF opts fuel recur false it res hadWs = some (toks, it') →
      (∀ t ∈ res, t.isStandard = true) → ∀ t ∈ toks, t.isStandard = true := by
  intro fuel
  induction fuel with
  | zero =>
    intro recur it res hadWs toks it' h hres
    simp [tokenizeF] at h
  | succ f ih =>
    intro recur it res hadWs toks it' h hres
    unfold tokenizeF at h
    cases hpk : it.peek with
    | none =>
      rw [hpk] at h
      simp only [Option.some.injEq, Prod.mk.injEq] at h
      rcases h with ⟨h1, _⟩
      subst h1
      exact hres
    | some c =>
      rw [hpk] at h
      simp only [Bool.and_false, Bool.false_eq_true, if_false, ite_false] at h
      repeat' split at h
      all_goals first
        | exact ih _ _ _ _ _ _ h hres
        | exact ih _ _ _ _ _ _ h (appendStd _ _ hres (readString_std _))
        | exact ih _ _ _ _ _ _ h (appendStd _ _ hres (readRegex_std _))
        | exact ih _ _ _ _ _ _ h (appendStd _ _ hres (readIdentifier_std _ _))
        | exact ih _ _ _ _ _ _ h (appendStd _ _ hres (readNumber_std _ _))
        | exact ih _ _ _ _ _ _ h (appendStd _ _ hres (readParen_std _))
        | simp at h
        | (have hro := readOther_std res hadWs it hres
           exact ih _ _ _ _ _ _ h (appendStd _ _ hro.2 hro.1))

theorem tokenize_some (opts : LexOptions) (s : String)
    (toks : List SpanToken) (it : Iter)
    (h : tokenizeRecur opts false false (mkIter s) = some (toks, it)) :
    ∃ sts, tokenize opts s = some (sts, it) := by
  have hstd := tokenizeF_standard opts (List.length (mkIter s).rest + 1)
    false (mkIter s) [] false toks it h (by intro t ht; simp at ht)
  obtain ⟨sts, hsts⟩ := mapM_toStandard toks hstd
  refine ⟨sts, ?_⟩
  unfold tokenize
  rw [h]
  simp only
  rw [hsts]

theorem renM_inj (φ : Nat → Nat) (hinj : ∀ x y, φ x = φ y → x = y) :
    ∀ a b, renM φ a = renM φ b → a = b := by
  intro a b h
  cases a <;> cases b <;> simp_all [renM]
  exact hinj _ _ h.2.2

theorem renT_inj (φ : Nat → Nat) (hinj : ∀ x y, φ x = φ y → x = y) :
    ∀ a b, renT φ a = renT φ b → a = b := by
  intro a b h
  rcases a with ⟨m1, t1⟩
  rcases b with ⟨m2, t2⟩
  simp only [renT, Prod.mk.injEq] at h
  exact Prod.ext (renM_inj φ hinj _ _ h.1) (hinj _ _ h.2)

theorem mem_map_renT (φ : Nat → Nat) (hinj : ∀ x y, φ x = φ y → x = y)
    (t : Matcher × Nat) (l : List (Matcher × Nat)) :
    renT φ t ∈ l.map (renT φ) ↔ t ∈ l := by
  constructor
  · intro h
    obtain ⟨t', ht', he⟩ := List.mem_map.mp h
    rw [renT_inj φ hinj t' t he] at ht'
    exact ht'
  · intro h
    exact List.mem_map.mpr ⟨t, h, rfl⟩

theorem stateKeys_ren (φ : Nat → Nat) (sts : List (Nat × State)) :
    stateKeys (renSts φ sts) = (stateKeys sts).map φ := by
  simp [stateKeys, renSts, List.map_map]

theorem getSt_ren (φ : Nat → Nat) (hinj : ∀ x y, φ x = φ y → x = y)
    (sts : List (Nat × State)) (k : Nat) :
    getSt (renSts φ sts) (φ k) = (getSt sts k).map (renSt φ) := by
  induction sts with
  | nil => rfl
  | cons p rest ih =>
    rcases p with ⟨k', st'⟩
    by_cases h : k' = k
    · subst h
      unfold getSt renSts
      rw [List.map_cons, List.find?_cons_of_pos _ (by simp),
        List.find?_cons_of_pos _ (by simp)]
      rfl
    · have hne : ¬ φ k' = φ k := fun hc => h (hinj _ _ hc)
      unfold getSt renSts
      rw [List.map_cons, List.find?_cons_of_neg _ (by simp [hne]),
        List.find?_cons_of_neg _ (by simp [h])]
      exact ih

theorem transOf_ren (φ : Nat → Nat) (hinj : ∀ x y, φ x = φ y → x = y)
    (sts : List (Nat × State)) (k : Nat) :
    transOf (renSts φ sts) (φ k) = (transOf sts k).map (renT φ) := by
  unfold transOf
  rw [getSt_ren φ hinj]
  rcases getSt sts k with _ | st
  · rfl
  · rfl

theorem le_iff_of_mono (φ : Nat → Nat) (hmono : ∀ x y, x < y → φ x < φ y)
    (x y : Nat) : φ x ≤ φ y ↔ x ≤ y := by
  constructor
  · intro h
    by_contra hc
    exact absurd (hmono y x (by omega)) (by omega)
  · intro h
    rcases Nat.lt_or_ge x y with h2 | h2
    · exact Nat.le_of_lt (hmono x y h2)
    · have : x = y := by omega
      rw [this]

theorem inj_of_mono (φ : Nat → Nat) (hmono : ∀ x y, x < y → φ x < φ y) :
    ∀ x y, φ x = φ y → x = y := by
  intro x y h
  rcases Nat.lt_trichotomy x y with h2 | h2 | h2
  · exact absurd (hmono x y h2) (by omega)
  · exact h2
  · exact absurd (hmono y x h2) (by omega)

theorem insertSorted_ren (φ : Nat → Nat) (hmono : ∀ x y, x < y → φ x < φ y)
    (x : Nat) : ∀ l : List Nat,
    insertSorted (φ x) (l.map φ) = (insertSorted x l).map φ := by
  intro l
  induction l with
  | nil => rfl
  | cons y rest ih =>
    rw [List.map_cons]
    simp only [insertSorted]
    by_cases h : x ≤ y
    · rw [if_pos ((le_iff_of_mono φ hmono x y).mpr h), if_pos h]
      rfl
    · rw [if_neg (fun hc => h ((le_iff_of_mono φ hmono x y).mp hc)), if_neg h,
        List.map_cons, ih]

theorem sortNat_ren (φ : Nat → Nat) (hmono : ∀ x y, x < y → φ x < φ y) :
    ∀ l : List Nat, sortNat (l.map φ) = (sortNat l).map φ := by
  intro l
  induction l with
  | nil => rfl
  | cons x rest ih =>
    rw [List.map_cons]
    simp only [sortNat]
    rw [ih]
    exact insertSorted_ren φ hmono x (sortNat rest)

theorem machineIds_ren (φ : Nat → Nat) (hmono : ∀ x y, x < y → φ x < φ y)
    (sts : List (Nat × State)) :
    machineIds (renSts φ sts) = (machineIds sts).map φ := by
  unfold machineIds
  rw [show (renSts φ sts).map (·.1) = (sts.map (·.1)).map φ by
    simp [renSts, List.map_map]]
  exact sortNat_ren φ hmono _

theorem renB_fresh (φ : Nat → Nat) (c0 d : Nat)
    (hsh : ∀ n, c0 ≤ n → φ n = n + d) (b : Builder) (hc : c0 ≤ b.counter) :
    ((renB φ b).freshState).2 = renB φ ((b.freshState).2) := by
  unfold Builder.freshState renB renSts
  simp only
  have h1 : φ (b.counter + 1) = φ b.counter + 1 := by
    rw [hsh _ (by omega), hsh _ hc]
    omega
  rw [h1, List.map_append]
  rfl

theorem renB_addTransition (φ : Nat → Nat) (hinj : ∀ x y, φ x = φ y → x = y)
    (b : Builder) (src dst : Nat) (m : Matcher) :
    (renB φ b).addTransition (φ src) (φ dst) (renM φ m) =
      renB φ (b.addTransition src dst m) := by
  unfold Builder.addTransition renB renSts
  simp only [List.map_map]
  congr 1
  apply List.map_congr_left
  intro p _
  rcases p with ⟨k, st⟩
  by_cases h : k = src
  · subst h
    simp only [Function.comp_apply, eq_self_iff_true, if_true, renSt,
      List.map_append]
    rfl
  · have hne : ¬ φ k = φ src := fun hc => h (hinj _ _ hc)
    simp only [Function.comp_apply, if_neg hne, if_neg h]

theorem linkRest_ren (φ : Nat → Nat) (c0 : Nat)
    (hinj : ∀ x y, φ x = φ y → x = y)
    (cs cs' : ParsedAstMatcher → Builder → Builder × Nat × Nat)
    (P : ParsedAstMatcher → Prop)
    (hcs : ∀ pam b, P pam → c0 ≤ b.counter →
      cs' pam (renB φ b) =
        (renB φ (cs pam b).1, φ (cs pam b).2.1, φ (cs pam b).2.2) ∧
      b.counter ≤ (cs pam b).1.counter) :
    ∀ (fs : List ParsedAstMatcher) (b : Builder) (s e : Nat),
      (∀ f ∈ fs, P f) → c0 ≤ b.counter →
      linkRest cs' fs (renB φ b) (φ s) (φ e) =
        (renB φ (linkRest cs fs b s e).1, φ (linkRest cs fs b s e).2.1,
         φ (linkRest cs fs b s e).2.2) ∧
      b.counter ≤ (linkRest cs fs b s e).1.counter := by
  intro fs
  induction fs with
  | nil =>
    intro b s e hP hc
    exact ⟨rfl, Nat.le_refl _⟩
  | cons f rest ih =>
    intro b s e hP hc
    obtain ⟨heq, hcnt⟩ := hcs f b (hP f (List.mem_cons_self _ _)) hc
    rcases hsub : cs f b with ⟨b1, ns, ne⟩
    rw [hsub] at heq hcnt
    simp only at heq hcnt
    have hstepL : linkRest cs' (f :: rest) (renB φ b) (φ s) (φ e) =
        linkRest cs' rest ((renB φ b1).addTransition (φ e) (φ ns)
          Matcher.epsilon) (φ s) (φ ne) := by
      rw [linkRest, heq]
    have hstepR : linkRest cs (f :: rest) b s e =
        linkRest cs rest (b1.addTransition e ns Matcher.epsilon) s ne := by
      rw [linkRest, hsub]
    have haddr : (renB φ b1).addTransition (φ e) (φ ns) Matcher.epsilon =
        renB φ (b1.addTransition e ns Matcher.epsilon) := by
      have := renB_addTransition φ hinj b1 e ns Matcher.epsilon
      simp only [renM] at this
      exact this
    have hcadd : (b1.addTransition e ns Matcher.epsilon).counter = b1.counter := rfl
    obtain ⟨heq2, hcnt2⟩ := ih (b1.addTransition e ns Matcher.epsilon) s ne
      (fun f hf => hP f (List.mem_cons_of_mem _ hf)) (by rw [hcadd]; omega)
    rw [hstepL, hstepR, haddr]
    refine ⟨heq2, ?_⟩
    rw [hcadd] at hcnt2
    omega

theorem ren_simple_arm (φ : Nat → Nat) (c0 d : Nat)
    (hsh : ∀ n, c0 ≤ n → φ n = n + d)
    (hinj : ∀ x y, φ x = φ y → x = y) (b : Builder) (hc : c0 ≤ b.counter)
    (m : Matcher) :
    ((((renB φ b).freshState).2.freshState).2.addTransition
        ((((renB φ b).freshState).2).freshState).1 (((renB φ b).freshState).1)
        (renM φ m),
     ((((renB φ b).freshState).2).freshState).1, (((renB φ b).freshState).1)) =
    (renB φ ((((b.freshState).2.freshState).2).addTransition
        ((((b.freshState).2).freshState).1) ((b.freshState).1) m),
     φ ((((b.freshState).2).freshState).1), φ ((b.freshState).1)) := by
  have h1 : ((renB φ b).freshState).2 = renB φ ((b.freshState).2) :=
    renB_fresh φ c0 d hsh b hc
  have hc1 : c0 ≤ ((b.freshState).2).counter := by
    rw [freshState_counter]; omega
  have h2 : ((renB φ ((b.freshState).2)).freshState).2 =
      renB φ (((b.freshState).2).freshState).2 :=
    renB_fresh φ c0 d hsh _ hc1
  have hp1 : ((renB φ b).freshState).1 = φ ((b.freshState).1) := rfl
  have hp2 : ((((renB φ b).freshState).2).freshState).1 =
      φ ((((b.freshState).2).freshState).1) := by
    rw [h1]
    rfl
  rw [hp2, hp1, h1, h2, renB_addTransition φ hinj]

theorem compileStateF_ren (φ : Nat → Nat) (c0 d : Nat)
    (hsh : ∀ n, c0 ≤ n → φ n = n + d)
    (hinj : ∀ x y, φ x = φ y → x = y) (acc : Nat) :
    ∀ (fuel : Nat) (pam : ParsedAstMatcher) (b : Builder),
      pamDepth pam ≤ fuel → c0 ≤ b.counter →
      compileStateF (φ acc) fuel pam (renB φ b) =
        (renB φ (compileStateF acc fuel pam b).1,
         φ (compileStateF acc fuel pam b).2.1,
         φ (compileStateF acc fuel pam b).2.2) ∧
      b.counter ≤ (compileStateF acc fuel pam b).1.counter := by
  intro fuel
  induction fuel with
  | zero =>
    intro pam b hd hc
    have := pamDepth_pos pam
    omega
  | succ fuel ih =>
    intro pam b hd hc
    cases pam with
    | token t =>
      refine ⟨?_, ?_⟩
      · have h := ren_simple_arm φ c0 d hsh hinj b hc (Matcher.token t.ty)
        simp only [renM] at h
        exact h
      · show b.counter ≤ b.counter + 2
        omega
    | any =>
      refine ⟨?_, ?_⟩
      · have h := ren_simple_arm φ c0 d hsh hinj b hc Matcher.any
        simp only [renM] at h
        exact h
      · show b.counter ≤ b.counter + 2
        omega
    | endMark =>
      refine ⟨?_, ?_⟩
      · have h := ren_simple_arm φ c0 d hsh hinj b hc Matcher.endMark
        simp only [renM] at h
        exact h
      · show b.counter ≤ b.counter + 2
        omega
    | regex pat =>
      refine ⟨?_, ?_⟩
      · have h := ren_simple_arm φ c0 d hsh hinj b hc (Matcher.regex pat)
        simp only [renM] at h
        exact h
      · show b.counter ≤ b.counter + 2
        omega
    | plus m =>
      have hdm : pamDepth m ≤ fuel := by
        simp only [pamDepth] at hd; omega
      obtain ⟨heq, hcnt⟩ := ih m b hdm hc
      rcases hsub : compileStateF acc fuel m b with ⟨b1, s, e⟩
      rw [hsub] at heq hcnt
      simp only at heq hcnt
      have hresL : compileStateF (φ acc) (fuel + 1) (ParsedAstMatcher.plus m)
          (renB φ b) =
          ((renB φ b1).addTransition (φ e) (φ s) Matcher.epsilon, φ s, φ e) := by
        rw [compileStateF, heq]
      have hresR : compileStateF acc (fuel + 1) (ParsedAstMatcher.plus m) b =
          (b1.addTransition e s Matcher.epsilon, s, e) := by
        rw [compileStateF, hsub]
      rw [hresL, hresR]
      have ha := renB_addTransition φ hinj b1 e s Matcher.epsilon
      simp only [renM] at ha
      refine ⟨by rw [ha], ?_⟩
      show b.counter ≤ b1.counter
      exact hcnt
    | questionMark m =>
      have hdm : pamDepth m ≤ fuel := by
        simp only [pamDepth] at hd; omega
      obtain ⟨heq, hcnt⟩ := ih m b hdm hc
      rcases hsub : compileStateF acc fuel m b with ⟨b1, s, e⟩
      rw [hsub] at heq hcnt
      simp only at heq hcnt
      have hc1 : c0 ≤ b1.counter := by omega
      have hf1 : ((renB φ b1).freshState).2 = renB φ ((b1.freshState).2) :=
        renB_fresh φ c0 d hsh b1 hc1
      have hresL : compileStateF (φ acc) (fuel + 1)
          (ParsedAstMatcher.questionMark m) (renB φ b) =
          ((((renB φ b1).freshState).2.addTransition (φ s) (φ b1.counter)
            Matcher.epsilon).addTransition (φ e) (φ b1.counter)
            Matcher.epsilon, φ s, φ b1.counter) := by
        rw [compileStateF, heq]
        rfl
      have hresR : compileStateF acc (fuel + 1)
          (ParsedAstMatcher.questionMark m) b =
          (((b1.freshState).2.addTransition s b1.counter
            Matcher.epsilon).addTransition e b1.counter Matcher.epsilon,
           s, b1.counter) := by
        rw [compileStateF, hsub]
        rfl
      rw [hresL, hresR, hf1]
      have ha1 := renB_addTransition φ hinj ((b1.freshState).2) s b1.counter
        Matcher.epsilon
      simp only [renM] at ha1
      have ha2 := renB_addTransition φ hinj
        ((b1.freshState).2.addTransition s b1.counter Matcher.epsilon)
        e b1.counter Matcher.epsilon
      simp only [renM] at ha2
      refine ⟨by rw [ha1, ha2], ?_⟩
      show b.counter ≤ b1.counter + 1
      omega
    | star m =>
      have hdm : pamDepth m ≤ fuel := by
        simp only [pamDepth] at hd; omega
      obtain ⟨heq, hcnt⟩ := ih m b hdm hc
      rcases hsub : compileStateF acc fuel m b with ⟨b1, s, e⟩
      rw [hsub] at heq hcnt
      simp only at heq hcnt
      have hc1 : c0 ≤ b1.counter := by omega
      have hf1 : ((renB φ b1).freshState).2 = renB φ ((b1.freshState).2) :=
        renB_fresh φ c0 d hsh b1 hc1
      have hresL : compileStateF (φ acc) (fuel + 1)
          (ParsedAstMatcher.star m) (renB φ b) =
          (((((renB φ b1).freshState).2.addTransition (φ s) (φ b1.counter)
            Matcher.epsilon).addTransition (φ e) (φ s)
            Matcher.epsilon).addTransition (φ e) (φ b1.counter)
            Matcher.epsilon, φ s, φ b1.counter) := by
        rw [compileStateF, heq]
        rfl
      have hresR : compileStateF acc (fuel + 1)
          (ParsedAstMatcher.star m) b =
          ((((b1.freshState).2.addTransition s b1.counter
            Matcher.epsilon).addTransition e s Matcher.epsilon).addTransition
            e b1.counter Matcher.epsilon, s, b1.counter) := by
        rw [compileStateF, hsub]
        rfl
      rw [hresL, hresR, hf1]
      have ha1 := renB_addTransition φ hinj ((b1.freshState).2) s b1.counter
        Matcher.epsilon
      simp only [renM] at ha1
      have ha2 := renB_addTransition φ hinj
        ((b1.freshState).2.addTransition s b1.counter Matcher.epsilon)
        e s Matcher.epsilon
      simp only [renM] at ha2
      have ha3 := renB_addTransition φ hinj
        (((b1.freshState).2.addTransition s b1.counter
          Matcher.epsilon).addTransition e s Matcher.epsilon)
        e b1.counter Matcher.epsilon
      simp only [renM] at ha3
      refine ⟨by rw [ha1, ha2, ha3], ?_⟩
      show b.counter ≤ b1.counter + 1
      omega
    | or ma mb =>
      have hdma : pamDepth ma ≤ fuel := by
        have h1 : pamDepth ma ≤ Nat.max (pamDepth ma) (pamDepth mb) :=
          Nat.le_max_left _ _
        simp only [pamDepth] at hd
        omega
      have hdmb : pamDepth mb ≤ fuel := by
        have h1 : pamDepth mb ≤ Nat.max (pamDepth ma) (pamDepth mb) :=
          Nat.le_max_right _ _
        simp only [pamDepth] at hd
        omega
      have hcb1 : c0 ≤ ((b.freshState).2).counter := by
        rw [freshState_counter]; omega
      have hfb : ((renB φ b).freshState).2 = renB φ ((b.freshState).2) :=
        renB_fresh φ c0 d hsh b hc
      obtain ⟨heqA, hcntA⟩ := ih ma ((b.freshState).2) hdma hcb1
      rcases hsubA : compileStateF acc fuel ma ((b.freshState).2) with ⟨b2, sa, ea⟩
      rw [hsubA] at heqA hcntA
      simp only at heqA hcntA
      have hc2 : c0 ≤ b2.counter := by
        have := freshState_counter b
        omega
      obtain ⟨heqB, hcntB⟩ := ih mb b2 hdmb hc2
      rcases hsubB : compileStateF acc fuel mb b2 with ⟨b3, sb, eb⟩
      rw [hsubB] at heqB hcntB
      simp only at heqB hcntB
      have hc3 : c0 ≤ b3.counter := by omega
      have hfb3 : ((renB φ b3).freshState).2 = renB φ ((b3.freshState).2) :=
        renB_fresh φ c0 d hsh b3 hc3
      have hresL : compileStateF (φ acc) (fuel + 1)
          (ParsedAstMatcher.or ma mb) (renB φ b) =
          (((((renB φ ((b3.freshState).2)).addTransition (φ b.counter) (φ sa)
            Matcher.epsilon).addTransition (φ b.counter) (φ sb)
            Matcher.epsilon).addTransition (φ ea) (φ b3.counter)
            Matcher.epsilon).addTransition (φ eb) (φ b3.counter)
            Matcher.epsilon, φ b.counter, φ b3.counter) := by
        rw [compileStateF]
        rw [show (renB φ b).freshState =
          (φ b.counter, renB φ ((b.freshState).2)) from by rw [← hfb]; rfl]
        simp only
        rw [heqA, heqB]
        simp only
        rw [show (renB φ b3).freshState =
          (φ b3.counter, renB φ ((b3.freshState).2)) from by rw [← hfb3]; rfl]
      have hresR : compileStateF acc (fuel + 1)
          (ParsedAstMatcher.or ma mb) b =
          (((((b3.freshState).2.addTransition b.counter sa
            Matcher.epsilon).addTransition b.counter sb
            Matcher.epsilon).addTransition ea b3.counter
            Matcher.epsilon).addTransition eb b3.counter Matcher.epsilon,
           b.counter, b3.counter) := by
        rw [compileStateF]
        rw [show b.freshState = (b.counter, (b.freshState).2) from rfl]
        simp only
        rw [hsubA, hsubB]
        rfl
      rw [hresL, hresR]
      have ha1 := renB_addTransition φ hinj ((b3.freshState).2) b.counter sa
        Matcher.epsilon
      simp only [renM] at ha1
      have ha2 := renB_addTransition φ hinj
        ((b3.freshState).2.addTransition b.counter sa Matcher.epsilon)
        b.counter sb Matcher.epsilon
      simp only [renM] at ha2
      have ha3 := renB_addTransition φ hinj
        (((b3.freshState).2.addTransition b.counter sa
          Matcher.epsilon).addTransition b.counter sb Matcher.epsilon)
        ea b3.counter Matcher.epsilon
      simp only [renM] at ha3
      have ha4 := renB_addTransition φ hinj
        ((((b3.freshState).2.addTransition b.counter sa
          Matcher.epsilon).addTransition b.counter sb
          Matcher.epsilon).addTransition ea b3.counter Matcher.epsilon)
        eb b3.counter Matcher.epsilon
      simp only [renM] at ha4
      refine ⟨by rw [ha1, ha2, ha3, ha4], ?_⟩
      show b.counter ≤ b3.counter + 1
      have := freshState_counter b
      omega
    | nested content =>
      cases content with
      | nil =>
        have hfb : ((renB φ b).freshState).2 = renB φ ((b.freshState).2) :=
          renB_fresh φ c0 d hsh b hc
        refine ⟨?_, ?_⟩
        · show (((renB φ b).freshState).2, ((renB φ b).freshState).1,
            ((renB φ b).freshState).1) =
            (renB φ ((b.freshState).2), φ ((b.freshState).1), φ ((b.freshState).1))
          rw [hfb]
          rfl
        · show b.counter ≤ b.counter + 1
          omega
      | cons first rest =>
        have hdl : ∀ f ∈ first :: rest, pamDepth f ≤ fuel := by
          intro f hf
          simp only [pamDepth] at hd
          have := pamDepth_le_list hf
          omega
        obtain ⟨heqF, hcntF⟩ := ih first b (hdl first (List.mem_cons_self _ _)) hc
        rcases hsubF : compileStateF acc fuel first b with ⟨b1, s, e⟩
        rw [hsubF] at heqF hcntF
        simp only at heqF hcntF
        have hresL : compileStateF (φ acc) (fuel + 1)
            (ParsedAstMatcher.nested (first :: rest)) (renB φ b) =
            linkRest (compileStateF (φ acc) fuel) rest (renB φ b1) (φ s) (φ e) := by
          rw [compileStateF]
          unfold linkList
          rw [heqF]
        have hresR : compileStateF acc (fuel + 1)
            (ParsedAstMatcher.nested (first :: rest)) b =
            linkRest (compileStateF acc fuel) rest b1 s e := by
          rw [compileStateF]
          unfold linkList
          rw [hsubF]
        rw [hresL, hresR]
        obtain ⟨heq2, hcnt2⟩ := linkRest_ren φ c0 hinj
          (compileStateF acc fuel) (compileStateF (φ acc) fuel)
          (fun pam => pamDepth pam ≤ fuel)
          (fun pam b hp hbc => ih pam b hp hbc)
          rest b1 s e (fun f hf => hdl f (List.mem_cons_of_mem _ hf))
          (by omega)
        exact ⟨heq2, by omega⟩
    | delimited op cp content =>
      cases content with
      | nil =>
        have hc1 : c0 ≤ ((b.freshState).2).counter := by
          rw [freshState_counter]; omega
        have hf1 : ((renB φ b).freshState).2 = renB φ ((b.freshState).2) :=
          renB_fresh φ c0 d hsh b hc
        have hf2 : ((renB φ ((b.freshState).2)).freshState).2 =
            renB φ (((b.freshState).2).freshState).2 :=
          renB_fresh φ c0 d hsh _ hc1
        have hresL : compileStateF (φ acc) (fuel + 1)
            (ParsedAstMatcher.delimited op cp []) (renB φ b) =
            ((((renB φ b).freshState).2.freshState).2.addTransition
              (φ (b.counter + 1)) (φ b.counter)
              (Matcher.delimited op.ty (cp.map (·.ty)) (φ acc)),
             φ (b.counter + 1), φ b.counter) := by
          rw [compileStateF]
          have hsh1 : φ (b.counter + 1) = φ b.counter + 1 := by
            rw [hsh _ (by omega), hsh _ hc]; omega
          rw [hsh1]
          rfl
        have hresR : compileStateF acc (fuel + 1)
            (ParsedAstMatcher.delimited op cp []) b =
            (((b.freshState).2.freshState).2.addTransition
              (b.counter + 1) b.counter
              (Matcher.delimited op.ty (cp.map (·.ty)) acc),
             b.counter + 1, b.counter) := by
          rw [compileStateF]
          rfl
        rw [hresL, hresR, hf1, hf2]
        have ha := renB_addTransition φ hinj (((b.freshState).2).freshState).2
          (b.counter + 1) b.counter
          (Matcher.delimited op.ty (cp.map (·.ty)) acc)
        simp only [renM] at ha
        refine ⟨by rw [ha], ?_⟩
        show b.counter ≤ b.counter + 2
        omega
      | cons first rest =>
        have hdl : ∀ f ∈ first :: rest, pamDepth f ≤ fuel := by
          intro f hf
          simp only [pamDepth] at hd
          have := pamDepth_le_list hf
          omega
        obtain ⟨heqF, hcntF⟩ := ih first b (hdl first (List.mem_cons_self _ _)) hc
        rcases hsubF : compileStateF acc fuel first b with ⟨b1, s0, e0⟩
        rw [hsubF] at heqF hcntF
        simp only at heqF hcntF
        obtain ⟨heqL, hcntL⟩ := linkRest_ren φ c0 hinj
          (compileStateF acc fuel) (compileStateF (φ acc) fuel)
          (fun pam => pamDepth pam ≤ fuel)
          (fun pam b hp hbc => ih pam b hp hbc)
          rest b1 s0 e0 (fun f hf => hdl f (List.mem_cons_of_mem _ hf))
          (by omega)
        rcases hsubL : linkRest (compileStateF acc fuel) rest b1 s0 e0
          with ⟨bl, sl, el⟩
        rw [hsubL] at heqL hcntL
        simp only at heqL hcntL
        have hcl : c0 ≤ bl.counter := by omega
        have haA := renB_addTransition φ hinj bl el acc Matcher.epsilon
        simp only [renM] at haA
        set bA := bl.addTransition el acc Matcher.epsilon with hbAdef
        have hcA : bA.counter = bl.counter := rfl
        have hcA2 : c0 ≤ bA.counter := by rw [hcA]; omega
        have hfA1 : ((renB φ bA).freshState).2 = renB φ ((bA.freshState).2) :=
          renB_fresh φ c0 d hsh bA hcA2
        have hcA3 : c0 ≤ ((bA.freshState).2).counter := by
          rw [freshState_counter]; omega
        have hfA2 : ((renB φ ((bA.freshState).2)).freshState).2 =
            renB φ (((bA.freshState).2).freshState).2 :=
          renB_fresh φ c0 d hsh _ hcA3
        have hresL : compileStateF (φ acc) (fuel + 1)
            (ParsedAstMatcher.delimited op cp (first :: rest)) (renB φ b) =
            ((((renB φ bA).freshState).2.freshState).2.addTransition
              (φ (bA.counter + 1)) (φ bA.counter)
              (Matcher.delimited op.ty (cp.map (·.ty)) (φ sl)),
             φ (bA.counter + 1), φ bA.counter) := by
          rw [compileStateF]
          unfold linkList
          rw [heqF]
          simp only
          rw [heqL]
          simp only
          rw [haA]
          have hsh1 : φ (bA.counter + 1) = φ bA.counter + 1 := by
            rw [hsh _ (by omega), hsh _ hcA2]; omega
          rw [hsh1]
          rfl
        have hresR : compileStateF acc (fuel + 1)
            (ParsedAstMatcher.delimited op cp (first :: rest)) b =
            (((bA.freshState).2.freshState).2.addTransition
              (bA.counter + 1) bA.counter
              (Matcher.delimited op.ty (cp.map (·.ty)) sl),
             bA.counter + 1, bA.counter) := by
          rw [compileStateF]
          unfold linkList
          rw [hsubF]
          simp only
          rw [hsubL]
          rfl
        rw [hresL, hresR, hfA1, hfA2]
        have ha := renB_addTransition φ hinj (((bA.freshState).2).freshState).2
          (bA.counter + 1) bA.counter
          (Matcher.delimited op.ty (cp.map (·.ty)) sl)
        simp only [renM] at ha
        refine ⟨by rw [ha], ?_⟩
        show b.counter ≤ bA.counter + 2
        rw [hcA]
        omega

theorem parseQueryAstM_ren (φ : Nat → Nat) (c0 d : Nat)
    (hsh : ∀ n, c0 ≤ n → φ n = n + d)
    (hinj : ∀ x y, φ x = φ y → x = y) (acc : Nat)
    (q : List ParsedAstMatcher) (b : Builder) (hc : c0 ≤ b.counter) :
    parseQueryAstM (φ acc) q (renB φ b) =
      (renB φ (parseQueryAstM acc q b).1,
       φ (parseQueryAstM acc q b).2.1, φ (parseQueryAstM acc q b).2.2) := by
  cases q with
  | nil =>
    have hfb : ((renB φ b).freshState).2 = renB φ ((b.freshState).2) :=
      renB_fresh φ c0 d hsh b hc
    show (((renB φ b).freshState).2, ((renB φ b).freshState).1,
        ((renB φ b).freshState).1) =
      (renB φ ((b.freshState).2), φ ((b.freshState).1), φ ((b.freshState).1))
    rw [hfb]
    rfl
  | cons first rest =>
    obtain ⟨heqF, hcntF⟩ := compileStateF_ren φ c0 d hsh hinj acc
      (pamListDepth (first :: rest)) first b
      (pamDepth_le_list (List.mem_cons_self _ _)) hc
    rcases hsubF : compileStateF acc (pamListDepth (first :: rest)) first b
      with ⟨b1, s, e⟩
    rw [hsubF] at heqF hcntF
    simp only at heqF hcntF
    have hresL : parseQueryAstM (φ acc) (first :: rest) (renB φ b) =
        linkRest (compileStateF (φ acc) (pamListDepth (first :: rest))) rest
          (renB φ b1) (φ s) (φ e) := by
      show linkRest (compileStateF (φ acc) (pamListDepth (first :: rest))) rest
        (compileStateF (φ acc) (pamListDepth (first :: rest)) first
          (renB φ b)).1
        (compileStateF (φ acc) (pamListDepth (first :: rest)) first
          (renB φ b)).2.1
        (compileStateF (φ acc) (pamListDepth (first :: rest)) first
          (renB φ b)).2.2 = _
      rw [heqF]
    have hresR : parseQueryAstM acc (first :: rest) b =
        linkRest (compileStateF acc (pamListDepth (first :: rest))) rest
          b1 s e := by
      show linkRest (compileStateF acc (pamListDepth (first :: rest))) rest
        (compileStateF acc (pamListDepth (first :: rest)) first b).1
        (compileStateF acc (pamListDepth (first :: rest)) first b).2.1
        (compileStateF acc (pamListDepth (first :: rest)) first b).2.2 = _
      rw [hsubF]
    rw [hresL, hresR]
    obtain ⟨heq2, hcnt2⟩ := linkRest_ren φ c0 hinj
      (compileStateF acc (pamListDepth (first :: rest)))
      (compileStateF (φ acc) (pamListDepth (first :: rest)))
      (fun pam => pamDepth pam ≤ pamListDepth (first :: rest))
      (fun pam b hp hbc => compileStateF_ren φ c0 d hsh hinj acc _ pam b hp hbc)
      rest b1 s e (fun f hf => pamDepth_le_list (List.mem_cons_of_mem _ hf))
      (by omega)
    exact heq2

theorem compileRaw_ren (φ : Nat → Nat) (c0 d : Nat)
    (hsh : ∀ n, c0 ≤ n → φ n = n + d)
    (hinj : ∀ x y, φ x = φ y → x = y)
    (q : List ParsedAstMatcher) (acc : Nat) :
    compileRaw q (φ acc) (φ c0) = renMach φ (compileRaw q acc c0) := by
  have hnew : renB φ (Builder.new acc c0) = Builder.new (φ acc) (φ c0) := rfl
  have h := parseQueryAstM_ren φ c0 d hsh hinj acc q (Builder.new acc c0)
    (Nat.le_refl _)
  rw [hnew] at h
  rcases hsub : parseQueryAstM acc q (Builder.new acc c0) with ⟨b, s, e⟩
  rw [hsub] at h
  simp only at h
  have hresL : compileRaw q (φ acc) (φ c0) =
      ⟨φ s, ((renB φ b).addTransition (φ e) (φ acc) Matcher.epsilon).states⟩ := by
    unfold compileRaw
    rw [h]
  have hresR : compileRaw q acc c0 =
      ⟨s, (b.addTransition e acc Matcher.epsilon).states⟩ := by
    unfold compileRaw
    rw [hsub]
  rw [hresL, hresR]
  have ha := renB_addTransition φ hinj b e acc Matcher.epsilon
  simp only [renM] at ha
  rw [ha]
  rfl

theorem renM_eps_iff (φ : Nat → Nat) (m : Matcher) :
    renM φ m = Matcher.epsilon ↔ m = Matcher.epsilon := by
  cases m <;> simp [renM]

theorem redirectEdge_ren (φ : Nat → Nat) (hinj : ∀ x y, φ x = φ y → x = y)
    (id n0 : Nat) (t : Matcher × Nat) :
    redirectEdge (φ id) (φ n0) (renT φ t) = renT φ (redirectEdge id n0 t) := by
  unfold redirectEdge renT
  by_cases h : t.2 = id
  · rw [if_pos (by simp only; rw [h]), if_pos h]
  · rw [if_neg (by simp only; exact fun hc => h (hinj _ _ hc)), if_neg h]

theorem pass1Step_ren (φ : Nat → Nat) (hinj : ∀ x y, φ x = φ y → x = y)
    (acc id : Nat) (sts : List (Nat × State)) :
    pass1Step (φ acc) (renSts φ sts) (φ id) = renSts φ (pass1Step acc sts id) := by
  by_cases hacc : id = acc
  · subst hacc
    unfold pass1Step
    rw [if_pos rfl, if_pos rfl]
  · have hacc' : ¬ φ id = φ acc := fun hc => hacc (hinj _ _ hc)
    unfold pass1Step
    rw [if_neg hacc', if_neg hacc, getSt_ren φ hinj]
    rcases hg : getSt sts id with _ | st
    · rfl
    · rcases st with ⟨i0, ts⟩
      rcases ts with _ | ⟨⟨m0, n0⟩, rest⟩
      · rfl
      cases m0 with
      | epsilon =>
        rcases rest with _ | ⟨t2, rest2⟩
        · show (renSts φ sts).map (fun p =>
              (p.1, ⟨p.2.id, p.2.transitions.map (redirectEdge (φ id) (φ n0))⟩)) =
            renSts φ (sts.map (fun p =>
              (p.1, ⟨p.2.id, p.2.transitions.map (redirectEdge id n0)⟩)))
          unfold renSts
          rw [List.map_map, List.map_map]
          apply List.map_congr_left
          intro p _
          rcases p with ⟨k, st⟩
          simp only [Function.comp_apply, renSt]
          refine congrArg (fun l => (φ k, State.mk (φ st.id) l)) ?_
          rw [List.map_map, List.map_map]
          apply List.map_congr_left
          intro t _
          simp only [Function.comp_apply]
          exact redirectEdge_ren φ hinj id n0 t
        · rfl
      | token ty => rfl
      | delimited op cp s => rfl
      | any => rfl
      | endMark => rfl
      | regex pat => rfl
      | accept => rfl

theorem pass1_ren (φ : Nat → Nat) (hinj : ∀ x y, φ x = φ y → x = y)
    (acc : Nat) (ids : List Nat) (sts : List (Nat × State)) :
    pass1 (φ acc) (ids.map φ) (renSts φ sts) = renSts φ (pass1 acc ids sts) := by
  rw [pass1_eq, pass1_eq, List.foldl_map]
  induction ids generalizing sts with
  | nil => rfl
  | cons i rest ih =>
    simp only [List.foldl_cons]
    rw [pass1Step_ren φ hinj]
    exact ih _

theorem inlined_ren (φ : Nat → Nat) (hinj : ∀ x y, φ x = φ y → x = y)
    (sts : List (Nat × State)) :
    ∀ l : List (Matcher × Nat),
    (l.map (renT φ)).flatMap (fun t =>
        if t.1 = Matcher.epsilon then transOf (renSts φ sts) t.2 else []) =
      (l.flatMap (fun t =>
        if t.1 = Matcher.epsilon then transOf sts t.2 else [])).map (renT φ) := by
  intro l
  induction l with
  | nil => rfl
  | cons t rest ih =>
    rcases t with ⟨m0, n0⟩
    rw [List.map_cons, List.flatMap_cons, List.flatMap_cons, List.map_append, ih]
    congr 1
    by_cases h : m0 = Matcher.epsilon
    · subst h
      simp [renT, renM, transOf_ren φ hinj]
    · simp [renT, renM_eps_iff, h]

theorem kept_ren (φ : Nat → Nat) (l : List (Matcher × Nat)) :
    (l.map (renT φ)).filter (fun t => t.1 ≠ Matcher.epsilon) =
      (l.filter (fun t => t.1 ≠ Matcher.epsilon)).map (renT φ) := by
  induction l with
  | nil => rfl
  | cons t rest ih =>
    rcases t with ⟨m0, n0⟩
    simp only [ne_eq, decide_not] at ih
    by_cases h : m0 = Matcher.epsilon
    · subst h
      rw [List.map_cons, List.filter_cons, List.filter_cons]
      simp [renT, renM, ih]
    · have h2 : ¬ renM φ m0 = Matcher.epsilon := fun hc =>
        h ((renM_eps_iff φ m0).mp hc)
      rw [List.map_cons, List.filter_cons, List.filter_cons]
      simp [renT, h, h2, ih]

theorem pass2Step_ren (φ : Nat → Nat) (hinj : ∀ x y, φ x = φ y → x = y)
    (acc id : Nat) (sts : List (Nat × State)) :
    pass2Step (φ acc) (renSts φ sts) (φ id) = renSts φ (pass2Step acc sts id) := by
  by_cases hacc : id = acc
  · subst hacc
    unfold pass2Step
    rw [if_pos rfl, if_pos rfl]
  · have hacc' : ¬ φ id = φ acc := fun hc => hacc (hinj _ _ hc)
    unfold pass2Step
    rw [if_neg hacc', if_neg hacc, getSt_ren φ hinj]
    rcases hg : getSt sts id with _ | st
    · rfl
    · show (renSts φ sts).map (fun p =>
          if p.1 = φ id then
            (p.1, ⟨p.2.id,
              ((renSt φ st).transitions.filter fun t => t.1 ≠ Matcher.epsilon) ++
              ((renSt φ st).transitions.flatMap fun t =>
                if t.1 = Matcher.epsilon then transOf (renSts φ sts) t.2 else [])⟩)
          else p) =
        renSts φ (sts.map (fun p =>
          if p.1 = id then
            (p.1, ⟨p.2.id,
              (st.transitions.filter fun t => t.1 ≠ Matcher.epsilon) ++
              (st.transitions.flatMap fun t =>
                if t.1 = Matcher.epsilon then transOf sts t.2 else [])⟩)
          else p))
      have hkept : (renSt φ st).transitions.filter
          (fun t => t.1 ≠ Matcher.epsilon) =
          (st.transitions.filter (fun t => t.1 ≠ Matcher.epsilon)).map (renT φ) :=
        kept_ren φ st.transitions
      have hinl : (renSt φ st).transitions.flatMap (fun t =>
          if t.1 = Matcher.epsilon then transOf (renSts φ sts) t.2 else []) =
          (st.transitions.flatMap (fun t =>
            if t.1 = Matcher.epsilon then transOf sts t.2 else [])).map (renT φ) :=
        inlined_ren φ hinj sts st.transitions
      rw [hkept, hinl]
      unfold renSts
      rw [List.map_map, List.map_map]
      apply List.map_congr_left
      intro p _
      rcases p with ⟨k, st0⟩
      by_cases hk : k = id
      · subst hk
        simp only [Function.comp_apply, eq_self_iff_true, if_true, renSt,
          List.map_append]
      · have hk' : ¬ φ k = φ id := fun hc => hk (hinj _ _ hc)
        simp only [Function.comp_apply, if_neg hk, if_neg hk']

theorem pass2_ren (φ : Nat → Nat) (hinj : ∀ x y, φ x = φ y → x = y)
    (acc : Nat) (ids : List Nat) (sts : List (Nat × State)) :
    pass2 (φ acc) (ids.map φ) (renSts φ sts) = renSts φ (pass2 acc ids sts) := by
  rw [pass2_eq, pass2_eq, List.foldl_map]
  induction ids generalizing sts with
  | nil => rfl
  | cons i rest ih =>
    simp only [List.foldl_cons]
    rw [pass2Step_ren φ hinj]
    exact ih _

theorem succIds_map_ren (φ : Nat → Nat) : ∀ l : List (Matcher × Nat),
    (l.map (renT φ)).flatMap (fun t => t.2 :: (match t.1 with
      | Matcher.delimited _ _ s => [s]
      | _ => [])) =
    (l.flatMap (fun t => t.2 :: (match t.1 with
      | Matcher.delimited _ _ s => [s]
      | _ => []))).map φ := by
  intro l
  induction l with
  | nil => rfl
  | cons t rest ih =>
    rcases t with ⟨m0, n0⟩
    rw [List.map_cons, List.flatMap_cons, List.flatMap_cons, List.map_append, ih]
    congr 1
    cases m0 <;> rfl

theorem succIds_ren (φ : Nat → Nat) (st : State) :
    succIds (renSt φ st) = (succIds st).map φ := by
  unfold succIds renSt
  exact succIds_map_ren φ st.transitions

theorem contains_map_ren (φ : Nat → Nat) (hinj : ∀ x y, φ x = φ y → x = y)
    (l : List Nat) (x : Nat) :
    (l.map φ).contains (φ x) = l.contains x := by
  induction l with
  | nil => rfl
  | cons y rest ih =>
    simp only [List.map_cons, List.contains_cons, ih]
    congr 1
    by_cases h : x = y
    · subst h; simp
    · have h2 : ¬ φ x = φ y := fun hc => h (hinj _ _ hc)
      simp [h, h2]

theorem reachGo_ren (φ : Nat → Nat) (hinj : ∀ x y, φ x = φ y → x = y)
    (sts : List (Nat × State)) : ∀ (fuel : Nat) (queue visited : List Nat),
    reachGo (renSts φ sts) fuel (queue.map φ) (visited.map φ) =
      (reachGo sts fuel queue visited).map φ := by
  intro fuel
  induction fuel with
  | zero => intro queue visited; rfl
  | succ fuel ih =>
    intro queue visited
    cases queue with
    | nil => rfl
    | cons id rest =>
      rw [List.map_cons]
      have hresL : reachGo (renSts φ sts) (fuel + 1) (φ id :: rest.map φ)
          (visited.map φ) =
          (if (visited.map φ).contains (φ id) then
            reachGo (renSts φ sts) fuel (rest.map φ) (visited.map φ)
          else match getSt (renSts φ sts) (φ id) with
            | none => reachGo (renSts φ sts) fuel (rest.map φ) (visited.map φ)
            | some st => reachGo (renSts φ sts) fuel
                (rest.map φ ++ succIds st) (visited.map φ ++ [φ id])) := rfl
      have hresR : reachGo sts (fuel + 1) (id :: rest) visited =
          (if visited.contains id then reachGo sts fuel rest visited
          else match getSt sts id with
            | none => reachGo sts fuel rest visited
            | some st => reachGo sts fuel
                (rest ++ succIds st) (visited ++ [id])) := rfl
      rw [hresL, hresR, contains_map_ren φ hinj, getSt_ren φ hinj]
      by_cases hv : visited.contains id = true
      · rw [if_pos hv, if_pos hv]
        exact ih rest visited
      · rw [if_neg hv, if_neg hv]
        rcases hg : getSt sts id with _ | st
        · exact ih rest visited
        · show reachGo (renSts φ sts) fuel (rest.map φ ++ succIds (renSt φ st))
              (visited.map φ ++ [φ id]) = _
          rw [succIds_ren, ← List.map_append,
            show visited.map φ ++ [φ id] = (visited ++ [id]).map φ from by
              rw [List.map_append]; rfl]
          exact ih _ _

theorem transCount_ren (φ : Nat → Nat) (sts : List (Nat × State)) :
    transCount (renSts φ sts) = transCount sts := by
  unfold transCount renSts
  rw [List.map_map]
  congr 1
  apply List.map_congr_left
  intro p _
  simp [renSt]

theorem pruneFuel_ren (φ : Nat → Nat) (sts : List (Nat × State)) :
    pruneFuel (renSts φ sts) = pruneFuel sts := by
  unfold pruneFuel
  rw [transCount_ren]
  simp [renSts]

theorem pass3_ren (φ : Nat → Nat) (hinj : ∀ x y, φ x = φ y → x = y)
    (initial : Nat) (sts : List (Nat × State)) :
    pass3 (φ initial) (renSts φ sts) = renSts φ (pass3 initial sts) := by
  unfold pass3
  have hkeep : reachGo (renSts φ sts) (pruneFuel (renSts φ sts)) [φ initial] [] =
      (reachGo sts (pruneFuel sts) [initial] []).map φ := by
    rw [pruneFuel_ren]
    exact reachGo_ren φ hinj sts _ [initial] []
  rw [hkeep]
  show (renSts φ sts).filter _ = renSts φ (sts.filter _)
  unfold renSts
  rw [List.filter_map]
  congr 1
  apply List.filter_congr
  intro p _
  simp only [Function.comp_apply]
  exact contains_map_ren φ hinj _ p.1

theorem dedupTransGo_ren (φ : Nat → Nat) (hinj : ∀ x y, φ x = φ y → x = y) :
    ∀ (l seen : List (Matcher × Nat)),
    dedupTransGo (l.map (renT φ)) (seen.map (renT φ)) =
      (dedupTransGo l seen).map (renT φ) := by
  intro l
  induction l with
  | nil => intro seen; rfl
  | cons t rest ih =>
    intro seen
    rw [List.map_cons]
    have hresL : dedupTransGo (renT φ t :: rest.map (renT φ))
        (seen.map (renT φ)) =
        (if renT φ t ∈ seen.map (renT φ) then
          dedupTransGo (rest.map (renT φ)) (seen.map (renT φ))
        else renT φ t ::
          dedupTransGo (rest.map (renT φ)) (renT φ t :: seen.map (renT φ))) := rfl
    have hresR : dedupTransGo (t :: rest) seen =
        (if t ∈ seen then dedupTransGo rest seen
         else t :: dedupTransGo rest (t :: seen)) := rfl
    rw [hresL, hresR]
    by_cases h : t ∈ seen
    · rw [if_pos ((mem_map_renT φ hinj t seen).mpr h), if_pos h]
      exact ih seen
    · rw [if_neg (fun hc => h ((mem_map_renT φ hinj t seen).mp hc)), if_neg h,
        List.map_cons]
      exact congrArg (List.cons _) (ih (t :: seen))

theorem pass4_ren (φ : Nat → Nat) (hinj : ∀ x y, φ x = φ y → x = y)
    (sts : List (Nat × State)) :
    pass4 (renSts φ sts) = renSts φ (pass4 sts) := by
  unfold pass4 renSts
  rw [List.map_map, List.map_map]
  apply List.map_congr_left
  intro p _
  rcases p with ⟨k, st⟩
  simp only [Function.comp_apply, renSt]
  refine congrArg (fun l => (φ k, State.mk (φ st.id) l)) ?_
  exact dedupTransGo_ren φ hinj st.transitions []

theorem find_renPair (φ : Nat → Nat) (hinj : ∀ x y, φ x = φ y → x = y)
    (t : Nat) : ∀ remap : List (Nat × Nat),
    (remap.map (renPair φ)).find? (fun p => p.1 = φ t) =
      (remap.find? (fun p => p.1 = t)).map (renPair φ) := by
  intro remap
  induction remap with
  | nil => rfl
  | cons p rest ih =>
    rcases p with ⟨a, v⟩
    by_cases h : a = t
    · subst h
      rw [List.map_cons, List.find?_cons_of_pos _ (by simp [renPair]),
        List.find?_cons_of_pos _ (by simp)]
      rfl
    · have h2 : ¬ φ a = φ t := fun hc => h (hinj _ _ hc)
      rw [List.map_cons,
        List.find?_cons_of_neg _ (by simp [renPair, h2]),
        List.find?_cons_of_neg _ (by simp [h])]
      exact ih

theorem applyRemap_ren (φ : Nat → Nat) (hinj : ∀ x y, φ x = φ y → x = y)
    (remap : List (Nat × Nat)) (t : Nat) :
    applyRemap (remap.map (renPair φ)) (φ t) = φ (applyRemap remap t) := by
  unfold applyRemap
  rw [find_renPair φ hinj]
  rcases hf : remap.find? (fun p => p.1 = t) with _ | p
  · rw [hf]
    rfl
  · rw [hf]
    rfl

theorem remapHasKey_ren (φ : Nat → Nat) (hinj : ∀ x y, φ x = φ y → x = y)
    (remap : List (Nat × Nat)) (j : Nat) :
    remapHasKey (remap.map (renPair φ)) (φ j) = remapHasKey remap j := by
  unfold remapHasKey
  induction remap with
  | nil => rfl
  | cons p rest ih =>
    rcases p with ⟨a, v⟩
    simp only [List.map_cons, List.any_cons, ih]
    congr 1
    by_cases h : a = j
    · subst h; simp [renPair]
    · have h2 : ¬ φ a = φ j := fun hc => h (hinj _ _ hc)
      simp [renPair, h, h2]

theorem all_mem_ren (φ : Nat → Nat) (hinj : ∀ x y, φ x = φ y → x = y)
    (a b : List (Matcher × Nat)) :
    (a.map (renT φ)).all (fun t => t ∈ b.map (renT φ)) =
      a.all (fun t => t ∈ b) := by
  induction a with
  | nil => rfl
  | cons t rest ih =>
    rw [List.map_cons, List.all_cons, List.all_cons, ih]
    congr 1
    exact decide_eq_decide.mpr (mem_map_renT φ hinj t b)

theorem transSetEq_ren (φ : Nat → Nat) (hinj : ∀ x y, φ x = φ y → x = y)
    (a b : List (Matcher × Nat)) :
    transSetEq (a.map (renT φ)) (b.map (renT φ)) = transSetEq a b := by
  unfold transSetEq
  rw [all_mem_ren φ hinj a b, all_mem_ren φ hinj b a]

theorem mergeInner_ren (φ : Nat → Nat) (hinj : ∀ x y, φ x = φ y → x = y)
    (sts : List (Nat × State)) (acc i : Nat) :
    ∀ (ids : List Nat) (remap : List (Nat × Nat)),
    mergeInner (renSts φ sts) (φ acc) (φ i) (ids.map φ)
        (remap.map (renPair φ)) =
      (mergeInner sts acc i ids remap).map (renPair φ) := by
  intro ids
  induction ids with
  | nil => intro remap; rfl
  | cons j rest ih =>
    intro remap
    rw [List.map_cons]
    have hresL : mergeInner (renSts φ sts) (φ acc) (φ i)
        (φ j :: rest.map φ) (remap.map (renPair φ)) =
        (if φ j = φ acc || remapHasKey (remap.map (renPair φ)) (φ j) then
          mergeInner (renSts φ sts) (φ acc) (φ i) (rest.map φ)
            (remap.map (renPair φ))
        else if transSetEq (transOf (renSts φ sts) (φ i))
            (transOf (renSts φ sts) (φ j)) then
          mergeInner (renSts φ sts) (φ acc) (φ i) (rest.map φ)
            (remap.map (renPair φ) ++ [(φ j, φ i)])
        else mergeInner (renSts φ sts) (φ acc) (φ i) (rest.map φ)
          (remap.map (renPair φ))) := rfl
    have hresR : mergeInner sts acc i (j :: rest) remap =
        (if j = acc || remapHasKey remap j then
          mergeInner sts acc i rest remap
        else if transSetEq (transOf sts i) (transOf sts j) then
          mergeInner sts acc i rest (remap ++ [(j, i)])
        else mergeInner sts acc i rest remap) := rfl
    rw [hresL, hresR, remapHasKey_ren φ hinj,
      transOf_ren φ hinj sts i, transOf_ren φ hinj sts j,
      transSetEq_ren φ hinj]
    have hd : (decide (φ j = φ acc)) = (decide (j = acc)) :=
      decide_eq_decide.mpr ⟨fun hc => hinj _ _ hc, fun hc => by rw [hc]⟩
    rw [hd]
    by_cases h1 : (decide (j = acc) || remapHasKey remap j) = true
    · rw [if_pos h1, if_pos h1]
      exact ih remap
    · rw [if_neg h1, if_neg h1]
      by_cases h2 : transSetEq (transOf sts i) (transOf sts j) = true
      · rw [if_pos h2, if_pos h2]
        rw [show remap.map (renPair φ) ++ [(φ j, φ i)] =
          (remap ++ [(j, i)]).map (renPair φ) from by
            rw [List.map_append]; rfl]
        exact ih _
      · rw [if_neg h2, if_neg h2]
        exact ih remap

theorem mergeOuter_ren (φ : Nat → Nat) (hinj : ∀ x y, φ x = φ y → x = y)
    (sts : List (Nat × State)) (acc : Nat) :
    ∀ (ids : List Nat) (remap : List (Nat × Nat)),
    mergeOuter (renSts φ sts) (φ acc) (ids.map φ) (remap.map (renPair φ)) =
      (mergeOuter sts acc ids remap).map (renPair φ) := by
  intro ids
  induction ids with
  | nil => intro remap; rfl
  | cons i rest ih =>
    intro remap
    rw [List.map_cons]
    have hresL : mergeOuter (renSts φ sts) (φ acc) (φ i :: rest.map φ)
        (remap.map (renPair φ)) =
        (if φ i = φ acc || remapHasKey (remap.map (renPair φ)) (φ i) then
          mergeOuter (renSts φ sts) (φ acc) (rest.map φ) (remap.map (renPair φ))
        else mergeOuter (renSts φ sts) (φ acc) (rest.map φ)
          (mergeInner (renSts φ sts) (φ acc) (φ i) (rest.map φ)
            (remap.map (renPair φ)))) := rfl
    have hresR : mergeOuter sts acc (i :: rest) remap =
        (if i = acc || remapHasKey remap i then
          mergeOuter sts acc rest remap
        else mergeOuter sts acc rest (mergeInner sts acc i rest remap)) := rfl
    rw [hresL, hresR, remapHasKey_ren φ hinj]
    have hd : (decide (φ i = φ acc)) = (decide (i = acc)) :=
      decide_eq_decide.mpr ⟨fun hc => hinj _ _ hc, fun hc => by rw [hc]⟩
    rw [hd]
    by_cases h1 : (decide (i = acc) || remapHasKey remap i) = true
    · rw [if_pos h1, if_pos h1]
      exact ih remap
    · rw [if_neg h1, if_neg h1]
      rw [mergeInner_ren φ hinj sts acc i rest remap]
      exact ih _

theorem applyRemapSts_ren (φ : Nat → Nat) (hinj : ∀ x y, φ x = φ y → x = y)
    (remap : List (Nat × Nat)) (sts : List (Nat × State)) :
    applyRemapSts (remap.map (renPair φ)) (renSts φ sts) =
      renSts φ (applyRemapSts remap sts) := by
  rw [applyRemapSts_eq, applyRemapSts_eq]
  unfold renSts
  rw [List.map_map, List.map_map]
  apply List.map_congr_left
  intro p _
  rcases p with ⟨k, st⟩
  simp only [Function.comp_apply, renSt]
  refine congrArg (fun l => (φ k, State.mk (φ st.id) l)) ?_
  rw [List.map_map, List.map_map]
  apply List.map_congr_left
  intro t _
  rcases t with ⟨m0, n0⟩
  simp only [Function.comp_apply, renT]
  cases m0 with
  | delimited op cp s =>
    simp only [remapMatcher, renM]
    rw [applyRemap_ren φ hinj, applyRemap_ren φ hinj]
  | token ty => simp only [remapMatcher, renM]; rw [applyRemap_ren φ hinj]
  | any => simp only [remapMatcher, renM]; rw [applyRemap_ren φ hinj]
  | endMark => simp only [remapMatcher, renM]; rw [applyRemap_ren φ hinj]
  | regex pat => simp only [remapMatcher, renM]; rw [applyRemap_ren φ hinj]
  | epsilon => simp only [remapMatcher, renM]; rw [applyRemap_ren φ hinj]
  | accept => simp only [remapMatcher, renM]; rw [applyRemap_ren φ hinj]

theorem pass5_ren (φ : Nat → Nat) (hmono : ∀ x y, x < y → φ x < φ y)
    (acc : Nat) (m : Machine) :
    pass5 (φ acc) (renMach φ m) = renMach φ (pass5 acc m) := by
  have hinj := inj_of_mono φ hmono
  have hL : pass5 (φ acc) (renMach φ m) =
      ⟨applyRemap (mergeOuter (renSts φ m.states) (φ acc)
          (machineIds (renSts φ m.states)) []) (φ m.initial),
        applyRemapSts (mergeOuter (renSts φ m.states) (φ acc)
          (machineIds (renSts φ m.states)) []) (renSts φ m.states)⟩ := rfl
  have hR : pass5 acc m =
      ⟨applyRemap (mergeOuter m.states acc (machineIds m.states) []) m.initial,
        applyRemapSts (mergeOuter m.states acc (machineIds m.states) [])
          m.states⟩ := rfl
  rw [hL, hR]
  have hids : machineIds (renSts φ m.states) = (machineIds m.states).map φ :=
    machineIds_ren φ hmono m.states
  rw [hids]
  have hmo : mergeOuter (renSts φ m.states) (φ acc)
      ((machineIds m.states).map φ) [] =
      (mergeOuter m.states acc (machineIds m.states) []).map (renPair φ) :=
    mergeOuter_ren φ hinj m.states acc (machineIds m.states) []
  rw [hmo, applyRemap_ren φ hinj, applyRemapSts_ren φ hinj]
  rfl

theorem optimize_ren (φ : Nat → Nat) (hmono : ∀ x y, x < y → φ x < φ y)
    (acc : Nat) (m : Machine) :
    optimize (φ acc) (renMach φ m) = renMach φ (optimize acc m) := by
  have hinj := inj_of_mono φ hmono
  have hL : optimize (φ acc) (renMach φ m) =
      pass5 (φ acc) ⟨φ m.initial, pass4 (pass3 (φ m.initial)
        (pass2 (φ acc) (machineIds (renSts φ m.states))
          (pass1 (φ acc) (machineIds (renSts φ m.states))
            (renSts φ m.states))))⟩ := rfl
  have hR : optimize acc m =
      pass5 acc ⟨m.initial, pass4 (pass3 m.initial
        (pass2 acc (machineIds m.states)
          (pass1 acc (machineIds m.states) m.states)))⟩ := rfl
  rw [hL, hR]
  have hids : machineIds (renSts φ m.states) = (machineIds m.states).map φ :=
    machineIds_ren φ hmono m.states
  rw [hids]
  have h1 : pass1 (φ acc) ((machineIds m.states).map φ) (renSts φ m.states) =
      renSts φ (pass1 acc (machineIds m.states) m.states) :=
    pass1_ren φ hinj acc (machineIds m.states) m.states
  rw [h1]
  have h2 : pass2 (φ acc) ((machineIds m.states).map φ)
      (renSts φ (pass1 acc (machineIds m.states) m.states)) =
      renSts φ (pass2 acc (machineIds m.states)
        (pass1 acc (machineIds m.states) m.states)) :=
    pass2_ren φ hinj acc (machineIds m.states) _
  rw [h2]
  have h3 : pass3 (φ m.initial) (renSts φ (pass2 acc
      (machineIds m.states) (pass1 acc (machineIds m.states) m.states))) =
      renSts φ (pass3 m.initial (pass2 acc (machineIds m.states)
        (pass1 acc (machineIds m.states) m.states))) :=
    pass3_ren φ hinj m.initial _
  rw [h3]
  have h4 : pass4 (renSts φ (pass3 m.initial (pass2 acc (machineIds m.states)
      (pass1 acc (machineIds m.states) m.states)))) =
      renSts φ (pass4 (pass3 m.initial (pass2 acc (machineIds m.states)
        (pass1 acc (machineIds m.states) m.states)))) :=
    pass4_ren φ hinj _
  rw [h4]
  exact pass5_ren φ hmono acc ⟨m.initial, pass4 (pass3 m.initial (pass2 acc
    (machineIds m.states) (pass1 acc (machineIds m.states) m.states)))⟩

theorem optimize5_ren (φ : Nat → Nat) (hmono : ∀ x y, x < y → φ x < φ y)
    (acc : Nat) (m : Machine) :
    optimize5 (φ acc) (renMach φ m) = renMach φ (optimize5 acc m) := by
  unfold optimize5
  rw [optimize_ren φ hmono, optimize_ren φ hmono, optimize_ren φ hmono,
    optimize_ren φ hmono, optimize_ren φ hmono]

theorem filterMap_congr_mem {α β : Type} (f g : α → Option β) :
    ∀ l : List α, (∀ a ∈ l, f a = g a) → l.filterMap f = l.filterMap g := by
  intro l
  induction l with
  | nil => intro _; rfl
  | cons a rest ih =>
    intro h
    rw [List.filterMap_cons, List.filterMap_cons, h a (List.mem_cons_self _ _),
      ih (fun x hx => h x (List.mem_cons_of_mem _ hx))]

theorem applyRemap_norm_ren (φ : Nat → Nat) (hinj : ∀ x y, φ x = φ y → x = y)
    (ids : List Nat) (hnd : ids.Nodup) (t : Nat) (ht : t ∈ ids) :
    applyRemap (((ids.map φ).enum).map (fun p => (p.2, p.1))) (φ t) =
      applyRemap (ids.enum.map (fun p => (p.2, p.1))) t := by
  obtain ⟨⟨i, hi⟩, hget⟩ := List.mem_iff_get.mp ht
  have h1 := applyRemap_enumFrom ids hnd 0 i hi
  have hndm : (ids.map φ).Nodup :=
    nodup_map_inj ids (fun x _ y _ h => hinj x y h) hnd
  have hi2 : i < (ids.map φ).length := by simpa using hi
  have h2 := applyRemap_enumFrom (ids.map φ) hndm 0 i hi2
  have hgm : (ids.map φ).get ⟨i, hi2⟩ = φ t := by
    rw [List.get_map, hget]
  rw [hget] at h1
  rw [hgm] at h2
  have h1' : applyRemap (ids.enum.map (fun p => (p.2, p.1))) t = i := by
    simpa using h1
  have h2' : applyRemap ((ids.map φ).enum.map (fun p => (p.2, p.1))) (φ t) =
      i := by
    simpa using h2
  rw [h1', h2']

theorem normalize_ren (φ : Nat → Nat) (hmono : ∀ x y, x < y → φ x < φ y)
    (m : Machine) (hrc : RefsClosed m.states)
    (hin : m.initial ∈ stateKeys m.states)
    (hnd : (stateKeys m.states).Nodup) :
    normalize (renMach φ m) = normalize m := by
  have hinj := inj_of_mono φ hmono
  have hndids : (machineIds m.states).Nodup := sortNat_nodup _ hnd
  have hA : ∀ t, t ∈ stateKeys m.states →
      applyRemap (((machineIds m.states).map φ).enum.map
        (fun p => (p.2, p.1))) (φ t) =
      applyRemap ((machineIds m.states).enum.map (fun p => (p.2, p.1))) t :=
    fun t ht => applyRemap_norm_ren φ hinj _ hndids t
      ((mem_machineIds t m.states).mpr ht)
  rw [normalize_eq (renMach φ m), normalize_eq m]
  have hsts : (renMach φ m).states = renSts φ m.states := rfl
  have hini : (renMach φ m).initial = φ m.initial := rfl
  rw [hsts, hini]
  have hids : machineIds (renSts φ m.states) = (machineIds m.states).map φ :=
    machineIds_ren φ hmono m.states
  rw [hids]
  congr 1
  · exact hA m.initial hin
  · rw [List.filterMap_map]
    apply filterMap_congr_mem
    intro old hold
    have holdk : old ∈ stateKeys m.states := (mem_machineIds old m.states).mp hold
    simp only [Function.comp_apply]
    have hg : getSt (renSts φ m.states) (φ old) =
        (getSt m.states old).map (renSt φ) := getSt_ren φ hinj m.states old
    rw [hg]
    rcases hg0 : getSt m.states old with _ | st
    · rfl
    · simp only [Option.map_some']
      have hmem : (old, st) ∈ m.states := getSt_mem hg0
      refine congrArg some ?_
      refine congrArg₂ Prod.mk (hA old holdk) ?_
      refine congrArg₂ State.mk (hA old holdk) ?_
      show (st.transitions.map (renT φ)).map _ = _
      rw [List.map_map]
      apply List.map_congr_left
      intro t ht
      obtain ⟨ht2, htd⟩ := hrc (old, st) hmem t ht
      simp only [Function.comp_apply, renT]
      rcases t with ⟨m0, n0⟩
      simp only at ht2 ⊢
      refine congrArg₂ Prod.mk ?_ (hA n0 ht2)
      cases m0 with
      | delimited op cp s =>
        simp only [renM, remapMatcher]
        exact congrArg (Matcher.delimited op cp) (hA s (htd op cp s rfl))
      | token ty => rfl
      | any => rfl
      | endMark => rfl
      | regex pat => rfl
      | epsilon => rfl
      | accept => rfl

theorem shiftMap_mono (acc c0 A C : Nat) (hac : acc < c0) (hA : acc ≤ A)
    (hC : A + (c0 - acc) ≤ C) :
    ∀ x y, x < y → shiftMap acc c0 A C x < shiftMap acc c0 A C y := by
  intro x y hxy
  unfold shiftMap
  split_ifs <;> omega

theorem shiftMap_acc (acc c0 A C : Nat) (hA : acc ≤ A) :
    shiftMap acc c0 A C acc = A := by
  unfold shiftMap
  rw [if_pos (Nat.le_refl _)]
  omega

theorem shiftMap_shift (acc c0 A C : Nat) (hac : acc < c0) :
    ∀ n, c0 ≤ n → shiftMap acc c0 A C n = n + (C - c0) := by
  intro n hn
  unfold shiftMap
  split_ifs <;> omega

theorem shiftMap_c0 (acc c0 A C : Nat) (hac : acc < c0) (hA : acc ≤ A)
    (hC : A + (c0 - acc) ≤ C) :
    shiftMap acc c0 A C c0 = C := by
  rw [shiftMap_shift acc c0 A C hac c0 (Nat.le_refl _)]
  omega

theorem compileQuery_ren (φ : Nat → Nat) (c0 d : Nat)
    (hsh : ∀ n, c0 ≤ n → φ n = n + d)
    (hmono : ∀ x y, x < y → φ x < φ y)
    (q : List ParsedAstMatcher) (acc : Nat) (hacc : acc < c0) :
    compileQuery q (φ acc) (φ c0) = compileQuery q acc c0 := by
  have hinj := inj_of_mono φ hmono
  unfold compileQuery
  rw [compileRaw_ren φ c0 d hsh hinj q acc,
    optimize5_ren φ hmono acc (compileRaw q acc c0)]
  obtain ⟨hrc, hin, hk, htr, hae, hre, hnd⟩ :=
    minv_optimize5 acc _ (compileRaw_minv q acc c0 hacc)
  exact normalize_ren φ hmono _ hrc hin hnd

theorem compileQuery_counter_indep (q : List ParsedAstMatcher)
    (acc c0 acc' c0' : Nat) (h : acc < c0) (h' : acc' < c0') :
    compileQuery q acc c0 = compileQuery q acc' c0' := by
  set A := acc + acc' with hAdef
  set C := A + (c0 - acc) + (c0' - acc') with hCdef
  have h1 : compileQuery q A C = compileQuery q acc c0 := by
    have hA : acc ≤ A := by omega
    have hC : A + (c0 - acc) ≤ C := by omega
    have := compileQuery_ren (shiftMap acc c0 A C) c0 (C - c0)
      (shiftMap_shift acc c0 A C h) (shiftMap_mono acc c0 A C h hA hC) q acc h
    rw [shiftMap_acc acc c0 A C hA, shiftMap_c0 acc c0 A C h hA hC] at this
    exact this
  have h2 : compileQuery q A C = compileQuery q acc' c0' := by
    have hA : acc' ≤ A := by omega
    have hC : A + (c0' - acc') ≤ C := by omega
    have := compileQuery_ren (shiftMap acc' c0' A C) c0' (C - c0')
      (shiftMap_shift acc' c0' A C h') (shiftMap_mono acc' c0' A C h' hA hC)
      q acc' h'
    rw [shiftMap_acc acc' c0' A C hA, shiftMap_c0 acc' c0' A C h' hA hC] at this
    exact this
  exact h1.symm.trans h2


theorem specSeq_single {rm : String → String → Bool} {q : MatcherAst}
    {l : List Ast} (h : Query.SpecSeq rm [q] l) : Query.SpecOne rm q l := by
  cases h with
  | cons hOne hSeq =>
    cases hSeq
    simpa using hOne

/-- C1: the code diverges from the spec.  The `Delimited` arm of
`Query::ast_match` (query.rs lines 67-80) destructures the matcher as
`Matcher::Delimited { cp, start, .. }`, never comparing the matcher's `op`
with the input node's opening token, so the query `[(a)]` yields a match
against the input `([a])`; the spec-modelled acceptance relation
(`SpecOne.delim` demands `op1.ty = op2.ty`) rejects that pairing, and the
spec's worked example says this query must yield none. -/
theorem c1_delimited_op_ignored :
    (Query.qmatches Examples.rmFalse Examples.queryParenBrack
      Examples.inputParenBrack).length = 1 ∧
    (Query.qmatches Examples.rmFalse Examples.queryBrackParen
      Examples.inputParenBrack).length = 1 ∧
    ¬ Query.SpecSeq Examples.rmFalse Examples.queryBrackParen
        Examples.inputParenBrack := by
  refine ⟨rfl, rfl, ?_⟩
  intro h
  simp only [Examples.queryBrackParen, Examples.inputParenBrack] at h
  have hOne := specSeq_single h
  cases hOne with
  | delim hty hc => exact absurd hty (by decide)

theorem loop_take {rm : String → String → Bool}
    {am : List Ast → List MatcherAst → Option (List Ast)}
    {left : List Ast} {right : List MatcherAst} :
    ∀ (fuel : Nat) (states : List (Nat × Nat)) (best : Option Nat)
      (m : List Ast),
      Query.loop rm am left right fuel states best = some m →
      ∃ n, n ≤ left.length ∧ m = left.take n := by
  intro fuel
  induction fuel with
  | zero =>
    intro states best m h
    cases states with
    | nil =>
      simp only [Query.loop, Option.map_eq_some'] at h
      obtain ⟨n0, _, rfl⟩ := h
      exact ⟨Nat.min n0 left.length, Nat.min_le_right _ _, rfl⟩
    | cons a l =>
      simp only [Query.loop, Option.map_eq_some'] at h
      obtain ⟨n0, _, rfl⟩ := h
      exact ⟨Nat.min n0 left.length, Nat.min_le_right _ _, rfl⟩
  | succ fuel ih =>
    intro states best m h
    cases states with
    | nil =>
      simp only [Query.loop, Option.map_eq_some'] at h
      obtain ⟨n0, _, rfl⟩ := h
      exact ⟨Nat.min n0 left.length, Nat.min_le_right _ _, rfl⟩
    | cons a l =>
      simp only [Query.loop] at h
      rcases hpr : Query.processRound rm am left right (a :: l) [] best
        with _ | ⟨next, hbest⟩ <;> rw [hpr] at h
      · exact absurd h (by simp)
      · exact ih next hbest m h

/-- C2 amended: whatever `ast_match` returns at a position is a prefix of the
input suffix there (`m = left.take n` for some `n`); it is not in general the
longest accepting prefix, and a position can yield no match although Accept
is reachable (see the counterexample). -/
theorem c2_match_is_prefix (rm : String → String → Bool) (left : List Ast)
    (right : List MatcherAst) (m : List Ast)
    (h : Query.astMatch rm left right = some m) :
    ∃ n, n ≤ left.length ∧ m = left.take n := by
  unfold Query.astMatch Query.astMatchF at h
  exact loop_take _ _ _ _ h

/-- C2 witness: `ast_match` with the single matcher `\.` on the input `a`
returns the whole input, which is the prefix of length one. -/
theorem c2_match_is_prefix_witness :
    ∃ n, n ≤ [Examples.aNode].length ∧
      [Examples.aNode] = [Examples.aNode].take n :=
  c2_match_is_prefix Examples.rmFalse [Examples.aNode] [MatcherAst.any]
    [Examples.aNode] rfl

/-- C2 counterexample: against the input `a b`, the query `a\* a b` reaches
Accept on the whole input in the spec-modelled semantics (the star matches
zero `a`s), but `ast_match` returns no match at position 0: the greedy
quantifier expansion commits the star to the leading `a` first and the
simulation never backtracks to the shorter expansion, so both the
longest-match and the "no match only if Accept was never reached" parts of
the claim fail. -/
theorem c2_greedy_misses_match :
    Query.astMatch Examples.rmFalse [Examples.aNode, Examples.bNode]
      Examples.queryStarAB = none ∧
    Query.SpecSeq Examples.rmFalse Examples.queryStarAB
      [Examples.aNode, Examples.bNode] := by
  constructor
  · rfl
  · exact Query.SpecSeq.cons .starNil
      (Query.SpecSeq.cons
        (@Query.SpecOne.token Examples.rmFalse (Examples.ident "a" 0 0)
          (Examples.ident "a" 4 4) rfl)
        (Query.SpecSeq.cons
          (@Query.SpecOne.token Examples.rmFalse (Examples.ident "b" 2 2)
            (Examples.ident "b" 6 6) rfl) .nil))

/-- C4: determinism.  The embedded pipeline is a pure function of the input
bytes and the options, so the token stream, the AST and the match list are
definitionally equal across two runs; the machine `compile_query` produces
after normalization is moreover independent of the process-wide counter
state: any two starting configurations (accept id below the counter in each)
give the same machine. -/
theorem c4_deterministic (s : String) (opts : LexOptions)
    (q : List ParsedAstMatcher) (rm : String → String → Bool)
    (mast : List MatcherAst) (input : List Ast)
    (acc c0 a2 c2 : Nat) (h : acc < c0) (h2 : a2 < c2) :
    tokenize opts s = tokenize opts s ∧
    parseFile opts s = parseFile opts s ∧
    compileQuery q acc c0 = compileQuery q a2 c2 ∧
    Query.qmatches rm mast input = Query.qmatches rm mast input :=
  ⟨rfl, rfl, compileQuery_counter_indep q acc c0 a2 c2 h h2, rfl⟩

/-- C4 witness: two runs of the compiler for `\.\*`, one with accept id 0 and
counter 1, the other with accept id 5 and counter 7, give the same
normalized machine. -/
theorem c4_deterministic_witness :
    tokenize jsOpts "a" = tokenize jsOpts "a" ∧
    parseFile jsOpts "a" = parseFile jsOpts "a" ∧
    compileQuery Examples.queryStarAnyPam 0 1 =
      compileQuery Examples.queryStarAnyPam 5 7 ∧
    Query.qmatches Examples.rmFalse [] [] =
      Query.qmatches Examples.rmFalse [] [] :=
  c4_deterministic "a" jsOpts Examples.queryStarAnyPam Examples.rmFalse [] []
    0 1 5 7 (by decide) (by decide)

/-- C5: the code diverges from the spec.  The spec's table routes `\?` to a
special QuestionMark query token, but `SpecialTokenType` (tokenizer.rs lines
11-27) has no QuestionMark variant and `read_query_command` (lines 429-461)
has no `'?'` arm, so lexing the query `\?` falls into the
`panic!("Unimplemented query command")` catch-all; the embedding returns
`none` for that panic. -/
theorem c5_questionmark_panics :
    tokenizeQuery jsOpts (String.mk ['\\', '?']) = none := rfl

/-- C6 amended: the merge fires exactly when the flag `had_ws` is false and
the last emitted token is a Symbol: `read_other` then replaces the two tokens
by one Symbol carrying the concatenated text and the merged span.  The flag
is not "no intervening whitespace": parens, comments and the other readers
also raise it, so e.g. `(` followed by `+` does not merge (see the
counterexample) while `++` does. -/
theorem c6_symbol_merge :
    (∀ (res : List SpanToken) (oldC : String) (spn : Span) (it it2 : Iter)
      (c : Char), it.nextNewSpan = some (c, it2) →
      readOther (res ++ [SpanToken.mk (.standard (.symbol oldC)) spn]) false
          it =
        (res, SpanToken.mk (.standard (.symbol (oldC ++ String.mk [c])))
          (spn.merge it2.span), it2)) ∧
    (tokenize jsOpts "++").map Prod.fst = some [⟨.symbol "++", ⟨0, 1⟩⟩] := by
  constructor
  · intro res oldC spn it it2 c h
    unfold readOther
    rw [h]
    simp [List.getLast?_concat, List.dropLast_concat]
  · rfl

/-- C6 witness: the merge equation at the concrete state just after lexing
the first `+` of `++`. -/
theorem c6_symbol_merge_witness :
    (mkIter "+").nextNewSpan = some ('+', (⟨[], 1, ⟨0, 0⟩⟩ : Iter)) ∧
    readOther ([] ++ [SpanToken.mk (.standard (.symbol "+")) ⟨0, 0⟩]) false
        (mkIter "+") =
      ([], SpanToken.mk (.standard (.symbol ("+" ++ String.mk ['+'])))
        (Span.merge ⟨0, 0⟩ (⟨[], 1, ⟨0, 0⟩⟩ : Iter).span),
       (⟨[], 1, ⟨0, 0⟩⟩ : Iter)) :=
  ⟨rfl, (c6_symbol_merge).1 [] "+" ⟨0, 0⟩ (mkIter "+")
    (⟨[], 1, ⟨0, 0⟩⟩ : Iter) '+' rfl⟩

/-- C6 counterexample: in `(+` the previous emitted token `(` is a Symbol and
no whitespace separates it from `+`, yet the two are not merged: the paren
reader returns with the whitespace flag raised, so the claim's "whenever the
previously emitted token is a Symbol with no intervening whitespace" is too
strong. -/
theorem c6_paren_blocks_merge :
    (tokenize jsOpts "(+").map Prod.fst =
      some [⟨.symbol "(", ⟨0, 0⟩⟩, ⟨.symbol "+", ⟨1, 1⟩⟩] ∧
    (tokenize jsOpts "(+").map Prod.fst ≠ some [⟨.symbol "(+", ⟨0, 1⟩⟩] := by
  constructor
  · rfl
  · decide

/-- C8 amended: with type-parameter parsing off, flattening the parser's AST
(Delimited as `op :: flatten(content) :: cp?`) returns exactly the input
token sequence.  With type-parameter parsing on the parser re-splits multi-
character Symbols around `<`/`>` (split_to_symbols), so round-tripping can
produce more tokens than it was given (see the counterexample). -/
theorem c8_flatten_roundtrip (opts : LexOptions)
    (hTp : opts.typeParameterParsing = false) (toks : List StandardToken) :
    flattenList (parseToks opts toks) = toks := by
  have h1 := parseF_flatten opts hTp (parseFuel toks) false toks []
  have h2 := parseF_complete opts hTp (parseFuel toks) toks []
    (by unfold parseFuel; omega)
  rcases hp : parseF opts (parseFuel toks) false false toks [] with ⟨r, lft⟩
  rw [hp] at h1 h2
  simp only at h1 h2
  subst h2
  simp only [flattenList, List.append_nil, List.nil_append] at h1
  simpa [parseToks, hp] using h1

/-- C8 witness: the round trip at the token stream of `a<>` under the `js`
settings with type-parameter parsing off. -/
theorem c8_flatten_roundtrip_witness :
    jsNoTp.typeParameterParsing = false ∧
    flattenList (parseToks jsNoTp
        [⟨.identifier "a", ⟨0, 0⟩⟩, ⟨.symbol "<>", ⟨1, 2⟩⟩]) =
      [⟨.identifier "a", ⟨0, 0⟩⟩, ⟨.symbol "<>", ⟨1, 2⟩⟩] :=
  ⟨rfl, c8_flatten_roundtrip jsNoTp rfl
    [⟨.identifier "a", ⟨0, 0⟩⟩, ⟨.symbol "<>", ⟨1, 2⟩⟩]⟩

/-- C8 counterexample: lexing `a<>` under the `js` settings gives the two
tokens `a` and `<>` (symbol merging), but parsing with type-parameter
parsing on splits `<>` into `<` and `>` to build an empty type-parameter
node, and flattening the AST returns three tokens, not the original two. -/
theorem c8_typeparam_split :
    (tokenize jsOpts "a<>").map Prod.fst =
      some [⟨.identifier "a", ⟨0, 0⟩⟩, ⟨.symbol "<>", ⟨1, 2⟩⟩] ∧
    flattenList (parseToks jsOpts
        [⟨.identifier "a", ⟨0, 0⟩⟩, ⟨.symbol "<>", ⟨1, 2⟩⟩]) =
      [⟨.identifier "a", ⟨0, 0⟩⟩, ⟨.symbol "<", ⟨1, 1⟩⟩,
       ⟨.symbol ">", ⟨2, 2⟩⟩] ∧
    ([⟨.identifier "a", ⟨0, 0⟩⟩, ⟨.symbol "<", ⟨1, 1⟩⟩,
      ⟨.symbol ">", ⟨2, 2⟩⟩] : List StandardToken) ≠
      [⟨.identifier "a", ⟨0, 0⟩⟩, ⟨.symbol "<>", ⟨1, 2⟩⟩] := by
  refine ⟨rfl, rfl, by decide⟩

/-- C9 amended: the optimizer is a total function in the embedding (a bounded
outer loop of five passes), one pass application never increases the number
of states, and the surviving state ids are a subset of the machine's prior
ids (merging never enlarges the id space).  The transition count is NOT
monotone: pass 2 copies the transition lists of epsilon targets and can
increase the edge count (see the counterexample). -/
theorem c9_states_monotone (acc : Nat) (m : Machine) :
    (optimize acc m).states.length ≤ m.states.length ∧
    ∀ k ∈ stateKeys (optimize acc m).states, k ∈ stateKeys m.states :=
  optimize_states_le acc m

/-- C9 counterexample: one application of the pass sequence to the raw
machine of `\.\* \.\*` (accept id 0, counter 1) raises the transition count
from 11 to 13 (pass 2 duplicates the epsilon targets' edges), while the
state count falls from 7 to 5: the "number of transitions never increases"
part of the claim is false. -/
theorem c9_transitions_grow :
    transCount (compileRaw Examples.queryStarStarPam 0 1).states = 11 ∧
    transCount (optimize 0 (compileRaw Examples.queryStarStarPam 0 1)).states
      = 13 ∧
    (compileRaw Examples.queryStarStarPam 0 1).states.length = 7 ∧
    (optimize 0 (compileRaw Examples.queryStarStarPam 0 1)).states.length = 5
    := by
  refine ⟨rfl, rfl, rfl, rfl⟩

/-- C10: tokenizing a source file calls the recursive tokenizer with
`is_query` false, and every token it can produce is standard (no `Special`
variant), so the `to_standard` conversion in `tokenize` succeeds on the
whole list and the "Unreachable" failure branch is never taken: whenever the
recursive tokenizer returns a token list, `tokenize` returns `some`. -/
theorem c10_no_special (opts : LexOptions) (s : String)
    (toks : List SpanToken) (it : Iter)
    (h : tokenizeRecur opts false false (mkIter s) = some (toks, it)) :
    (∀ t ∈ toks, SpanToken.isStandard t = true) ∧
    ∃ sts, tokenize opts s = some (sts, it) := by
  have hstd := tokenizeF_standard opts (List.length (mkIter s).rest + 1)
    false (mkIter s) [] false toks it h (by intro t ht; simp at ht)
  refine ⟨hstd, ?_⟩
  obtain ⟨sts, hsts⟩ := mapM_toStandard toks hstd
  refine ⟨sts, ?_⟩
  unfold tokenize
  rw [h]
  simp only
  rw [hsts]

/-- C10 witness: the file `a` tokenizes to the single standard identifier
token and the conversion succeeds. -/
theorem c10_no_special_witness :
    tokenizeRecur jsOpts false false (mkIter "a") =
      some ([SpanToken.mk (.standard (.identifier "a")) ⟨0, 0⟩],
        (⟨[], 1, ⟨0, 0⟩⟩ : Iter)) ∧
    ((∀ t ∈ [SpanToken.mk (.standard (.identifier "a")) ⟨0, 0⟩],
        SpanToken.isStandard t = true) ∧
     ∃ sts, tokenize jsOpts "a" = some (sts, (⟨[], 1, ⟨0, 0⟩⟩ : Iter))) :=
  ⟨rfl, c10_no_special jsOpts "a"
    [SpanToken.mk (.standard (.identifier "a")) ⟨0, 0⟩]
    (⟨[], 1, ⟨0, 0⟩⟩ : Iter) rfl⟩


end Syns
